import Mathlib

/-!
# Hoare-partition quicksort of `fix_suggestion.cpp`

A shallow embedding of the routines `quickSort_v1`, `medianOfThree`,
`quickSort_v2` and `quickSort_v3` of `src/fix_suggestion.cpp`, followed by the
properties proved about them.

Modelling decisions.

* `std::vector<T>` is a `List α`; the element type is a linear order, the
  comparisons `<=`, `>=`, `<` of the source are `≤`, `≥`, `<`.
* The C++ `int` indices are mathematical integers (`Int`): every index the code
  computes lies between `low - 1` and `high + 1`, so for vectors of fewer than
  `2^31` elements no `int` operation can overflow.  Division and remainder are
  the truncating `Int.tdiv` and `Int.tmod` of C++.
* `arr[k]` is a checked access: an index outside `0 .. size-1` makes the run
  stop with `Fault.outOfBounds` (the undefined behaviour of the source).
* Loops and recursion are bounded by a fuel argument; a loop or a call that
  would need more steps than the fuel stops with `Fault.outOfFuel`.  The
  theorems give an explicit fuel from which on the run returns a result.
* `rand()` is the next value of an arbitrary stream `rnd : Nat → Nat`; the
  machine state counts how many values were drawn.
* The machine state carries three ghost components that the code does not
  see: the log of every index accessed, the number of `rand()` calls made and
  the number of active sort calls together with its peak.
-/

namespace FixSuggestion

/-- Ways a run can stop without a result. -/
inductive Fault where
  | outOfBounds
  | outOfFuel
deriving DecidableEq, Repr

/-- Machine state: the vector `arr` and the ghost components. -/
structure Mem (α : Type) where
  /-- contents of `arr` -/
  cells : List α
  /-- every index read or written so far, oldest first -/
  touched : List Int
  /-- number of `rand()` calls made so far -/
  draws : Nat
  /-- number of sort calls that are active now -/
  active : Nat
  /-- largest number of simultaneously active sort calls seen so far -/
  peak : Nat
deriving DecidableEq, Repr

section Model

variable {α : Type}

/-- State in which a test driver calls a sort on `arr`. -/
def Mem.init (arr : List α) : Mem α :=
  { cells := arr, touched := [], draws := 0, active := 0, peak := 0 }

/-- Element of `l` at the `int` index `k`, when `0 ≤ k < l.size()`. -/
def getI (l : List α) (k : Int) : Option α :=
  if k < 0 then none else l[k.toNat]?

/-- Append indices to the access log. -/
def Mem.logged (m : Mem α) (ks : List Int) : Mem α :=
  { m with touched := m.touched ++ ks }

/-- Read of `arr[k]`. -/
def Mem.read (m : Mem α) (k : Int) : Except Fault (α × Mem α) :=
  match getI m.cells k with
  | some x => .ok (x, m.logged [k])
  | none => .error .outOfBounds

/-- The call `swap(arr[a], arr[b])`. -/
def Mem.swap (m : Mem α) (a b : Int) : Except Fault (Mem α) :=
  match getI m.cells a, getI m.cells b with
  | some x, some y =>
    .ok { m with cells := (m.cells.set a.toNat y).set b.toNat x,
                 touched := m.touched ++ [a, b] }
  | _, _ => .error .outOfBounds

/-- Entry of a sort call: one more active call. -/
def Mem.enter (m : Mem α) : Mem α :=
  { m with active := m.active + 1, peak := max m.peak (m.active + 1) }

/-- Return from a sort call. -/
def Mem.leave (m : Mem α) : Mem α :=
  { m with active := m.active - 1 }

variable [LinearOrder α]

/-- Line 35 (and 81): `while (i < j && arr[j] >= pivot) j--;` started at `j`.
Returns the final `j`. -/
def scanDown (pivot : α) (i : Int) (fuel : Nat) (j : Int) (m : Mem α) :
    Except Fault (Int × Mem α) :=
  if i < j then
    match m.read j with
    | .error e => .error e
    | .ok (x, m1) =>
      if x ≥ pivot then
        match fuel with
        | 0 => .error .outOfFuel
        | fuel + 1 => scanDown pivot i fuel (j - 1) m1
      else .ok (j, m1)
  else .ok (j, m)

/-- Line 37 (and 82): `while (i < j && arr[i] <= pivot) i++;` started at `i`.
Returns the final `i`. -/
def scanUp (pivot : α) (j : Int) (fuel : Nat) (i : Int) (m : Mem α) :
    Except Fault (Int × Mem α) :=
  if i < j then
    match m.read i with
    | .error e => .error e
    | .ok (x, m1) =>
      if x ≤ pivot then
        match fuel with
        | 0 => .error .outOfFuel
        | fuel + 1 => scanUp pivot j fuel (i + 1) m1
      else .ok (i, m1)
  else .ok (i, m)

/-- Lines 33-40 (and 80-84): the loop `while (i < j) { ... }`; the two scans
and the guarded swap.  Returns the final `i` and `j`. -/
def partLoop (pivot : α) (fuel : Nat) (i j : Int) (m : Mem α) :
    Except Fault (Int × Int × Mem α) :=
  if i < j then
    match fuel with
    | 0 => .error .outOfFuel
    | fuel + 1 =>
      match scanDown pivot i (fuel + 1) j m with
      | .error e => .error e
      | .ok (j1, m1) =>
        match scanUp pivot j1 (fuel + 1) i m1 with
        | .error e => .error e
        | .ok (i1, m2) =>
          match (if i1 < j1 then m2.swap i1 j1 else .ok m2) with
          | .error e => .error e
          | .ok m3 => partLoop pivot fuel i1 j1 m3
  else .ok (i, j, m)

/-- Lines 30-43 (and 77-85): one partition step.  `pivot = arr[low]`, the
loop, then `swap(arr[low], arr[i])`.  Returns the split index `i`. -/
def hoarePartition (fuel : Nat) (m : Mem α) (low high : Int) :
    Except Fault (Int × Mem α) :=
  match m.read low with
  | .error e => .error e
  | .ok (pivot, m1) =>
    match partLoop pivot fuel low high m1 with
    | .error e => .error e
    | .ok (i, _, m2) =>
      match m2.swap low i with
      | .error e => .error e
      | .ok m3 => .ok (i, m3)

/-- Lines 27-47: `quickSort_v1(arr, low, high)`. -/
def quickSort_v1 (fuel : Nat) (m : Mem α) (low high : Int) :
    Except Fault (Mem α) :=
  if low ≥ high then .ok m.enter.leave
  else
    match fuel with
    | 0 => .error .outOfFuel
    | fuel + 1 =>
      match hoarePartition (fuel + 1) m.enter low high with
      | .error e => .error e
      | .ok (i, m1) =>
        match quickSort_v1 fuel m1 low (i - 1) with
        | .error e => .error e
        | .ok m2 =>
          match quickSort_v1 fuel m2 (i + 1) high with
          | .error e => .error e
          | .ok m3 => .ok m3.leave

/-- Lines 59-61, each of the form `if (arr[p] < arr[q]) swap(arr[q], arr[p]);`. -/
def swapIfLess (m : Mem α) (p q : Int) : Except Fault (Mem α) :=
  match m.read p with
  | .error e => .error e
  | .ok (a, m1) =>
    match m1.read q with
    | .error e => .error e
    | .ok (b, m2) => if a < b then m2.swap q p else .ok m2

/-- Lines 57-63: `medianOfThree(arr, low, high)`. -/
def medianOfThree (m : Mem α) (low high : Int) : Except Fault (Int × Mem α) :=
  let mid := low + Int.tdiv (high - low) 2
  match swapIfLess m mid low with
  | .error e => .error e
  | .ok m1 =>
    match swapIfLess m1 high low with
    | .error e => .error e
    | .ok m2 =>
      match swapIfLess m2 high mid with
      | .error e => .error e
      | .ok m3 => .ok (mid, m3)

/-- Lines 67-95: the loop `while (low < high) { ... }` of `quickSort_v2`.  A
recursive call of line 89 or 92 is the loop run between `enter` and `leave`;
the assignment to `low` or `high` of line 90 or 93 is the next iteration. -/
def loop_v2 (rnd : Nat → Nat) (fuel : Nat) (m : Mem α) (low high : Int) :
    Except Fault (Mem α) :=
  if low < high then
    match fuel with
    | 0 => .error .outOfFuel
    | fuel + 1 =>
      let r : Int := rnd m.draws
      let m0 : Mem α := { m with draws := m.draws + 1 }
      let rand_idx := low + Int.tmod r (high - low + 1)
      match m0.swap low rand_idx with
      | .error e => .error e
      | .ok m1 =>
      match medianOfThree m1 low high with
      | .error e => .error e
      | .ok (median, m2) =>
      match m2.swap low median with
      | .error e => .error e
      | .ok m3 =>
      match hoarePartition (fuel + 1) m3 low high with
      | .error e => .error e
      | .ok (i, m4) =>
        if i - low < high - i then
          match loop_v2 rnd fuel m4.enter low (i - 1) with
          | .error e => .error e
          | .ok m5 => loop_v2 rnd fuel m5.leave (i + 1) high
        else
          match loop_v2 rnd fuel m4.enter (i + 1) high with
          | .error e => .error e
          | .ok m5 => loop_v2 rnd fuel m5.leave low (i - 1)
  else .ok m

/-- Lines 66-96: `quickSort_v2(arr, low, high)`. -/
def quickSort_v2 (rnd : Nat → Nat) (fuel : Nat) (m : Mem α) (low high : Int) :
    Except Fault (Mem α) :=
  match loop_v2 rnd fuel m.enter low high with
  | .error e => .error e
  | .ok m1 => .ok m1.leave

/-- Lines 35-39: the body of the loop `while (i < j)` of the partition step;
the two scans and the guarded swap.  Returns the new `i` and `j`. -/
def loopBody (pivot : α) (fuel : Nat) (i j : Int) (m : Mem α) :
    Except Fault (Int × Int × Mem α) :=
  match scanDown pivot i fuel j m with
  | .error e => .error e
  | .ok (j1, m1) =>
    match scanUp pivot j1 fuel i m1 with
    | .error e => .error e
    | .ok (i1, m2) =>
      match (if i1 < j1 then m2.swap i1 j1 else .ok m2) with
      | .error e => .error e
      | .ok m3 => .ok (i1, j1, m3)

/-- Modelled from the spec: the partitioner of section 4.1 with the terminal
swap that the section warns against, `swap(arr[low], arr[j])`; the source has
only the repaired form and names this one in the comments of lines 24 and 43 as
the original.  Everything else is the partition step of lines 30-43.  Returns
`j`, the position that receives the pivot. -/
def hoarePartition_swapJ (fuel : Nat) (m : Mem α) (low high : Int) :
    Except Fault (Int × Mem α) :=
  match m.read low with
  | .error e => .error e
  | .ok (pivot, m1) =>
    match partLoop pivot fuel low high m1 with
    | .error e => .error e
    | .ok (_, j, m2) =>
      match m2.swap low j with
      | .error e => .error e
      | .ok m3 => .ok (j, m3)

/-- Lines 69-85: one iteration of the loop of `quickSort_v2` up to the split
index; the random swap, `medianOfThree`, the swap of the median into `low` and
the partition step.  Returns the split index `i`. -/
def selectAndPartition (rnd : Nat → Nat) (fuel : Nat) (m : Mem α) (low high : Int) :
    Except Fault (Int × Mem α) :=
  let r : Int := rnd m.draws
  let m0 : Mem α := { m with draws := m.draws + 1 }
  let rand_idx := low + Int.tmod r (high - low + 1)
  match m0.swap low rand_idx with
  | .error e => .error e
  | .ok m1 =>
  match medianOfThree m1 low high with
  | .error e => .error e
  | .ok (median, m2) =>
  match m2.swap low median with
  | .error e => .error e
  | .ok m3 => hoarePartition fuel m3 low high

/-- Lines 88-94: the range handed to the recursive call (first component) and
the range the loop goes on with (second component), for the split index `i`. -/
def smallerFirst (low high i : Int) : (Int × Int) × (Int × Int) :=
  if i - low < high - i then ((low, i - 1), (i + 1, high))
  else ((i + 1, high), (low, i - 1))

/-- Contents of the vector after a run, when the run returned. -/
def cellsOf (r : Except Fault (Mem α)) : Option (List α) :=
  match r with
  | .ok m => some m.cells
  | .error _ => none

end Model

/-! ## The plain variant over arbitrary comparison operators

`quickSort_v1` is a template: it compiles for every element type `T` that has
`<=` and `>=`, whether or not they come from a total order.  The definitions
of this section are lines 27-47 once more, with the two operators as a
parameter. -/

section AnyComparison

variable {α : Type}

/-- The operators `<=` and `>=` of an element type `T`. -/
structure Cmp (α : Type) where
  /-- the result of `a <= b` -/
  le : α → α → Bool
  /-- the result of `a >= b` -/
  ge : α → α → Bool

/-- The operators of a linear order. -/
def orderCmp [LinearOrder α] : Cmp α :=
  { le := fun a b => decide (a ≤ b), ge := fun a b => decide (a ≥ b) }

/-- A `float` as far as its comparisons go: NaN or a number. -/
inductive Flt where
  | nan
  | num (q : ℚ)
deriving DecidableEq

/-- The operators `<=` and `>=` of `float`: a comparison with NaN is false. -/
def fltCmp : Cmp Flt :=
  { le := fun a b =>
      match a, b with
      | .num x, .num y => decide (x ≤ y)
      | _, _ => false,
    ge := fun a b =>
      match a, b with
      | .num x, .num y => decide (x ≥ y)
      | _, _ => false }

/-- Line 35 with the operator `>=` of `c`. -/
def scanDownBy (c : Cmp α) (pivot : α) (i : Int) (fuel : Nat) (j : Int) (m : Mem α) :
    Except Fault (Int × Mem α) :=
  if i < j then
    match m.read j with
    | .error e => .error e
    | .ok (x, m1) =>
      if c.ge x pivot then
        match fuel with
        | 0 => .error .outOfFuel
        | fuel + 1 => scanDownBy c pivot i fuel (j - 1) m1
      else .ok (j, m1)
  else .ok (j, m)

/-- Line 37 with the operator `<=` of `c`. -/
def scanUpBy (c : Cmp α) (pivot : α) (j : Int) (fuel : Nat) (i : Int) (m : Mem α) :
    Except Fault (Int × Mem α) :=
  if i < j then
    match m.read i with
    | .error e => .error e
    | .ok (x, m1) =>
      if c.le x pivot then
        match fuel with
        | 0 => .error .outOfFuel
        | fuel + 1 => scanUpBy c pivot j fuel (i + 1) m1
      else .ok (i, m1)
  else .ok (i, m)

/-- Lines 33-40 with the operators of `c`. -/
def partLoopBy (c : Cmp α) (pivot : α) (fuel : Nat) (i j : Int) (m : Mem α) :
    Except Fault (Int × Int × Mem α) :=
  if i < j then
    match fuel with
    | 0 => .error .outOfFuel
    | fuel + 1 =>
      match scanDownBy c pivot i (fuel + 1) j m with
      | .error e => .error e
      | .ok (j1, m1) =>
        match scanUpBy c pivot j1 (fuel + 1) i m1 with
        | .error e => .error e
        | .ok (i1, m2) =>
          match (if i1 < j1 then m2.swap i1 j1 else .ok m2) with
          | .error e => .error e
          | .ok m3 => partLoopBy c pivot fuel i1 j1 m3
  else .ok (i, j, m)

/-- Lines 30-43 with the operators of `c`. -/
def hoarePartitionBy (c : Cmp α) (fuel : Nat) (m : Mem α) (low high : Int) :
    Except Fault (Int × Mem α) :=
  match m.read low with
  | .error e => .error e
  | .ok (pivot, m1) =>
    match partLoopBy c pivot fuel low high m1 with
    | .error e => .error e
    | .ok (i, _, m2) =>
      match m2.swap low i with
      | .error e => .error e
      | .ok m3 => .ok (i, m3)

/-- Lines 27-47 with the operators of `c`: `quickSort_v1(arr, low, high)` for
an element type whose `<=` and `>=` are those of `c`. -/
def quickSort_v1By (c : Cmp α) (fuel : Nat) (m : Mem α) (low high : Int) :
    Except Fault (Mem α) :=
  if low ≥ high then .ok m.enter.leave
  else
    match fuel with
    | 0 => .error .outOfFuel
    | fuel + 1 =>
      match hoarePartitionBy c (fuel + 1) m.enter low high with
      | .error e => .error e
      | .ok (i, m1) =>
        match quickSort_v1By c fuel m1 low (i - 1) with
        | .error e => .error e
        | .ok m2 =>
          match quickSort_v1By c fuel m2 (i + 1) high with
          | .error e => .error e
          | .ok m3 => .ok m3.leave

end AnyComparison

/-! ## Vocabulary of the specifications -/

section Vocabulary

variable {α : Type}

/-- Every element at a position of `lo .. hi` is at most `p`. -/
def AllLe [LE α] (l : List α) (lo hi : Int) (p : α) : Prop :=
  ∀ (k : Int) (x : α), lo ≤ k → k ≤ hi → getI l k = some x → x ≤ p

/-- Every element at a position of `lo .. hi` is at least `p`. -/
def AllGe [LE α] (l : List α) (lo hi : Int) (p : α) : Prop :=
  ∀ (k : Int) (x : α), lo ≤ k → k ≤ hi → getI l k = some x → p ≤ x

/-- Adjacent positions of `lo .. hi` hold elements in ascending order. -/
def SortedOn [LE α] (l : List α) (lo hi : Int) : Prop :=
  ∀ (k : Int) (x y : α), lo ≤ k → k < hi →
    getI l k = some x → getI l (k + 1) = some y → x ≤ y

/-- The elements at the positions `lo .. hi`, in order. -/
def slice (l : List α) (lo hi : Int) : List α :=
  (l.drop lo.toNat).take (hi + 1 - lo).toNat

/-- The list `l'` is a rearrangement of `l` that moved elements only inside
the index range `lo .. hi`. -/
structure RangePerm (l l' : List α) (lo hi : Int) : Prop where
  length_eq : l'.length = l.length
  outside : ∀ k : Int, k < lo ∨ hi < k → getI l' k = getI l k
  perm : l'.Perm l

/-- The access log of `m'` extends that of `m` by indices of `lo .. hi`
only. -/
def LogWithin (m m' : Mem α) (lo hi : Int) : Prop :=
  ∃ ext : List Int, m'.touched = m.touched ++ ext ∧ ∀ k ∈ ext, lo ≤ k ∧ k ≤ hi

/-- The states in which the condition `i < j` of the partition loop is
evaluated, for a loop that starts with `i₀`, `j₀` in the state `m₀`: the
start, and the state after the body of lines 35-39 has run from such a state
with `i < j`. -/
inductive LoopHead [LinearOrder α] (pivot : α) (i₀ j₀ : Int) (m₀ : Mem α) :
    Int → Int → Mem α → Prop where
  | start : LoopHead pivot i₀ j₀ m₀ i₀ j₀ m₀
  | step {i j i1 j1 : Int} {m m3 : Mem α} (fuel : Nat) :
      LoopHead pivot i₀ j₀ m₀ i j m → i < j →
      loopBody pivot fuel i j m = .ok (i1, j1, m3) →
      LoopHead pivot i₀ j₀ m₀ i1 j1 m3

/-- The state `m` after a piece of code that left the cells `cells` and
accessed the indices `ext`, in this order. -/
def Mem.after (m : Mem α) (cells : List α) (ext : List Int) : Mem α :=
  { m with cells := cells, touched := m.touched ++ ext }

/-- `SelfSteps a b`: the access log `b` is the access log `a` with triples
`k, k, k` put in.  Such a triple is the log of a partition step on the
one-element range `k .. k`: the read of the pivot `arr[k]` and the terminal
swap of `arr[k]` with itself. -/
inductive SelfSteps : List Int → List Int → Prop where
  | done : SelfSteps [] []
  | same (k : Int) {a b : List Int} : SelfSteps a b → SelfSteps (k :: a) (k :: b)
  | extra (k : Int) {a b : List Int} : SelfSteps a b → SelfSteps a (k :: k :: k :: b)

end Vocabulary

/-! ## Indexing with `int` indices -/

section Indexing

variable {α : Type}

theorem getI_bounds {l : List α} {k : Int} {x : α} (h : getI l k = some x) :
    0 ≤ k ∧ k < l.length := by
  unfold getI at h
  split at h
  · cases h
  · obtain ⟨hlt, -⟩ := List.getElem?_eq_some.mp h
    omega

theorem getI_defined {l : List α} {k : Int} (h0 : 0 ≤ k) (h1 : k < l.length) :
    ∃ x, getI l k = some x := by
  have hk : k.toNat < l.length := by omega
  refine ⟨l[k.toNat], ?_⟩
  unfold getI
  rw [if_neg (by omega)]
  exact List.getElem?_eq_getElem hk

theorem getI_natCast (l : List α) (n : Nat) : getI l (n : Int) = l[n]? := by
  unfold getI
  rw [if_neg (by omega)]
  simp

theorem getI_toNat {l : List α} {k : Int} (h0 : 0 ≤ k) : getI l k = l[k.toNat]? := by
  unfold getI
  rw [if_neg (by omega)]

/-- Reading position `k` after `swap(arr[a], arr[b])`. -/
theorem getI_set_set {l : List α} {a b : Int} {x y : α}
    (ha : getI l a = some x) (hb : getI l b = some y) (k : Int) :
    getI ((l.set a.toNat y).set b.toNat x) k =
      if k = b then some x else if k = a then some y else getI l k := by
  obtain ⟨ha0, ha1⟩ := getI_bounds ha
  obtain ⟨hb0, hb1⟩ := getI_bounds hb
  by_cases hk : k < 0
  · have h1 : k ≠ b := by omega
    have h2 : k ≠ a := by omega
    simp [getI, hk, h1, h2]
  · have hk0 : 0 ≤ k := by omega
    rw [getI_toNat hk0, getI_toNat hk0, List.getElem?_set, List.getElem?_set]
    by_cases h1 : k = b
    · subst h1
      simp
      omega
    · have h1' : ¬ b.toNat = k.toNat := by omega
      rw [if_neg h1', if_neg h1]
      by_cases h2 : k = a
      · subst h2
        simp
        omega
      · have h2' : ¬ a.toNat = k.toNat := by omega
        rw [if_neg h2', if_neg h2]

/-- Exchanging an element with the head of the list. -/
theorem cons_set_perm : ∀ (l : List α) (n : Nat) (x y : α), l[n]? = some y →
    (y :: l.set n x).Perm (x :: l)
  | [], _, _, _, h => by simp at h
  | h :: t, 0, x, y, hy => by
    simp at hy
    subst hy
    simpa using List.Perm.swap x h t
  | h :: t, n + 1, x, y, hy => by
    have hy' : t[n]? = some y := by simpa using hy
    have ih := cons_set_perm t n x y hy'
    have s1 : (y :: h :: t.set n x).Perm (h :: y :: t.set n x) := List.Perm.swap _ _ _
    have s2 : (h :: y :: t.set n x).Perm (h :: x :: t) := List.Perm.cons h ih
    have s3 : (h :: x :: t).Perm (x :: h :: t) := List.Perm.swap _ _ _
    simpa using (s1.trans s2).trans s3

/-- Exchanging two elements of a list permutes it. -/
theorem set_set_perm : ∀ (l : List α) (a b : Nat) (x y : α),
    l[a]? = some x → l[b]? = some y → ((l.set a y).set b x).Perm l
  | [], _, _, _, _, h, _ => by simp at h
  | h :: t, 0, 0, x, y, hx, hy => by
    simp at hx hy
    subst hx
    simp
  | h :: t, 0, b + 1, x, y, hx, hy => by
    simp at hx
    subst hx
    have hy' : t[b]? = some y := by simpa using hy
    simpa using cons_set_perm t b h y hy'
  | h :: t, a + 1, 0, x, y, hx, hy => by
    simp at hy
    subst hy
    have hx' : t[a]? = some x := by simpa using hx
    simpa using cons_set_perm t a h x hx'
  | h :: t, a + 1, b + 1, x, y, hx, hy => by
    have hx' : t[a]? = some x := by simpa using hx
    have hy' : t[b]? = some y := by simpa using hy
    simpa using List.Perm.cons h (set_set_perm t a b x y hx' hy')

end Indexing

/-! ## Relations between the state before and after a piece of code -/

section Relations

variable {α : Type}

theorem RangePerm.rrefl (l : List α) (lo hi : Int) : RangePerm l l lo hi :=
  ⟨rfl, fun _ _ => rfl, List.Perm.refl l⟩

theorem RangePerm.rtrans {l₁ l₂ l₃ : List α} {lo hi : Int}
    (h₁ : RangePerm l₁ l₂ lo hi) (h₂ : RangePerm l₂ l₃ lo hi) :
    RangePerm l₁ l₃ lo hi :=
  ⟨h₂.length_eq.trans h₁.length_eq,
   fun k hk => (h₂.outside k hk).trans (h₁.outside k hk),
   h₂.perm.trans h₁.perm⟩

theorem RangePerm.widen {l l' : List α} {lo hi lo' hi' : Int}
    (h : RangePerm l l' lo hi) (hlo : lo' ≤ lo) (hhi : hi ≤ hi') :
    RangePerm l l' lo' hi' :=
  ⟨h.length_eq, fun k hk => h.outside k (by omega), h.perm⟩

/-- A swap of two positions of the range. -/
theorem RangePerm.swap {l : List α} {a b lo hi : Int} {x y : α}
    (ha : getI l a = some x) (hb : getI l b = some y)
    (hal : lo ≤ a) (hah : a ≤ hi) (hbl : lo ≤ b) (hbh : b ≤ hi) :
    RangePerm l ((l.set a.toNat y).set b.toNat x) lo hi := by
  refine ⟨by simp, ?_, ?_⟩
  · intro k hk
    rw [getI_set_set ha hb, if_neg (by omega), if_neg (by omega)]
  · have ha0 := (getI_bounds ha).1
    have hb0 := (getI_bounds hb).1
    rw [getI_toNat ha0] at ha
    rw [getI_toNat hb0] at hb
    exact set_set_perm l a.toNat b.toNat x y ha hb

theorem LogWithin.lrefl (m : Mem α) (lo hi : Int) : LogWithin m m lo hi :=
  ⟨[], by simp, by simp⟩

theorem LogWithin.ltrans {m₁ m₂ m₃ : Mem α} {lo hi : Int}
    (h₁ : LogWithin m₁ m₂ lo hi) (h₂ : LogWithin m₂ m₃ lo hi) :
    LogWithin m₁ m₃ lo hi := by
  obtain ⟨e₁, he₁, hb₁⟩ := h₁
  obtain ⟨e₂, he₂, hb₂⟩ := h₂
  refine ⟨e₁ ++ e₂, by rw [he₂, he₁, List.append_assoc], ?_⟩
  intro k hk
  rcases List.mem_append.mp hk with h | h
  · exact hb₁ k h
  · exact hb₂ k h

theorem LogWithin.lwiden {m m' : Mem α} {lo hi lo' hi' : Int}
    (h : LogWithin m m' lo hi) (hlo : lo' ≤ lo) (hhi : hi ≤ hi') :
    LogWithin m m' lo' hi' := by
  obtain ⟨e, he, hb⟩ := h
  exact ⟨e, he, fun k hk => by have := hb k hk; omega⟩

theorem read_ok {m : Mem α} {k : Int} {x : α} (h : getI m.cells k = some x) :
    m.read k = .ok (x, m.logged [k]) := by
  simp [Mem.read, h]

theorem swap_ok {m : Mem α} {a b : Int} {x y : α}
    (ha : getI m.cells a = some x) (hb : getI m.cells b = some y) :
    m.swap a b = .ok { m with cells := (m.cells.set a.toNat y).set b.toNat x,
                              touched := m.touched ++ [a, b] } := by
  simp [Mem.swap, ha, hb]

theorem logWithin_logged (m : Mem α) (k lo hi : Int) (h1 : lo ≤ k) (h2 : k ≤ hi) :
    LogWithin m (m.logged [k]) lo hi :=
  ⟨[k], rfl, by simp [h1, h2]⟩

/-- What a successful swap of two positions of `lo .. hi` does. -/
theorem swap_spec (m : Mem α) (a b lo hi : Int) {x y : α}
    (ha : getI m.cells a = some x) (hb : getI m.cells b = some y)
    (hal : lo ≤ a) (hah : a ≤ hi) (hbl : lo ≤ b) (hbh : b ≤ hi) :
    ∃ m', m.swap a b = .ok m' ∧ RangePerm m.cells m'.cells lo hi ∧
      LogWithin m m' lo hi ∧
      (∀ k, getI m'.cells k =
        if k = b then some x else if k = a then some y else getI m.cells k) := by
  refine ⟨_, swap_ok ha hb, RangePerm.swap ha hb hal hah hbl hbh, ⟨[a, b], rfl, ?_⟩, ?_⟩
  · intro k hk
    simp at hk
    rcases hk with h | h <;> subst h <;> exact ⟨by assumption, by assumption⟩
  · intro k
    exact getI_set_set ha hb k

end Relations

/-! ## The two scans -/

section Scans

variable {α : Type} [LinearOrder α]

/-- The downward scan stops at some `j'` of `i .. j`: everything above `j'` up
to `j` is at least the pivot, and `j'` is `i` or holds an element below the
pivot.  The vector is not modified. -/
theorem scanDown_spec (pivot : α) (i : Int) :
    ∀ (fuel : Nat) (j : Int) (m : Mem α), 0 ≤ i → i ≤ j → j < m.cells.length →
      (j - i).toNat ≤ fuel →
      ∃ j' m', scanDown pivot i fuel j m = .ok (j', m') ∧
        m'.cells = m.cells ∧ LogWithin m m' (i + 1) j ∧ i ≤ j' ∧ j' ≤ j ∧
        AllGe m.cells (j' + 1) j pivot ∧
        (j' = i ∨ ∃ x, getI m.cells j' = some x ∧ x < pivot) := by
  intro fuel
  induction fuel with
  | zero =>
    intro j m hi hij hj hf
    have hji : j = i := by omega
    subst hji
    refine ⟨j, m, ?_, rfl, LogWithin.lrefl _ _ _, le_refl _, le_refl _, ?_, Or.inl rfl⟩
    · rw [scanDown, if_neg (lt_irrefl _)]
    · intro k x h1 h2 _
      omega
  | succ fuel ih =>
    intro j m hi hij hj hf
    by_cases hlt : i < j
    · obtain ⟨x, hx⟩ := getI_defined (l := m.cells) (k := j) (by omega) hj
      rw [scanDown, if_pos hlt, read_ok hx]
      by_cases hge : x ≥ pivot
      · obtain ⟨j', m', hrun, hcells, hlog, h1, h2, hall, hstop⟩ :=
          ih (j - 1) (m.logged [j]) hi (by omega)
            (by show j - 1 < ((m.cells.length : Nat) : Int); omega) (by omega)
        refine ⟨j', m', ?_, hcells, ?_, h1, by omega, ?_, hstop⟩
        · simp only [if_pos hge]
          exact hrun
        · exact (logWithin_logged m j (i + 1) j (by omega) (le_refl _)).ltrans
            (hlog.lwiden (le_refl _) (by omega))
        · intro k y hk1 hk2 hy
          by_cases hkj : k = j
          · subst hkj
            rw [hx] at hy
            cases hy
            exact hge
          · exact hall k y hk1 (by omega) hy
      · refine ⟨j, m.logged [j], ?_, rfl, ?_, hij, le_refl _, ?_, Or.inr ⟨x, hx, ?_⟩⟩
        · simp only [if_neg hge]
        · exact logWithin_logged m j (i + 1) j (by omega) (le_refl _)
        · intro k y hk1 hk2 _
          omega
        · exact lt_of_not_ge hge
    · have hji : j = i := by omega
      subst hji
      refine ⟨j, m, ?_, rfl, LogWithin.lrefl _ _ _, le_refl _, le_refl _, ?_, Or.inl rfl⟩
      · rw [scanDown, if_neg (lt_irrefl _)]
      · intro k x h1 h2 _
        omega

/-- The upward scan stops at some `i'` of `i .. j`: everything from `i` up to
just below `i'` is at most the pivot, and `i'` is `j` or holds an element
above the pivot.  The vector is not modified. -/
theorem scanUp_spec (pivot : α) (j : Int) :
    ∀ (fuel : Nat) (i : Int) (m : Mem α), 0 ≤ i → i ≤ j → j < m.cells.length →
      (j - i).toNat ≤ fuel →
      ∃ i' m', scanUp pivot j fuel i m = .ok (i', m') ∧
        m'.cells = m.cells ∧ LogWithin m m' i (j - 1) ∧ i ≤ i' ∧ i' ≤ j ∧
        AllLe m.cells i (i' - 1) pivot ∧
        (i' = j ∨ ∃ x, getI m.cells i' = some x ∧ pivot < x) := by
  intro fuel
  induction fuel with
  | zero =>
    intro i m hi hij hj hf
    have hji : i = j := by omega
    subst hji
    refine ⟨i, m, ?_, rfl, LogWithin.lrefl _ _ _, le_refl _, le_refl _, ?_, Or.inl rfl⟩
    · rw [scanUp, if_neg (lt_irrefl _)]
    · intro k x h1 h2 _
      omega
  | succ fuel ih =>
    intro i m hi hij hj hf
    by_cases hlt : i < j
    · obtain ⟨x, hx⟩ := getI_defined (l := m.cells) (k := i) hi (by omega)
      rw [scanUp, if_pos hlt, read_ok hx]
      by_cases hle : x ≤ pivot
      · obtain ⟨i', m', hrun, hcells, hlog, h1, h2, hall, hstop⟩ :=
          ih (i + 1) (m.logged [i]) (by omega) (by omega) hj (by omega)
        refine ⟨i', m', ?_, hcells, ?_, by omega, h2, ?_, hstop⟩
        · simp only [if_pos hle]
          exact hrun
        · exact (logWithin_logged m i i (j - 1) (le_refl _) (by omega)).ltrans
            (hlog.lwiden (by omega) (le_refl _))
        · intro k y hk1 hk2 hy
          by_cases hki : k = i
          · subst hki
            rw [hx] at hy
            cases hy
            exact hle
          · exact hall k y (by omega) hk2 hy
      · refine ⟨i, m.logged [i], ?_, rfl, ?_, le_refl _, hij, ?_, Or.inr ⟨x, hx, ?_⟩⟩
        · simp only [if_neg hle]
        · exact logWithin_logged m i i (j - 1) (le_refl _) (by omega)
        · intro k y hk1 hk2 _
          omega
        · exact lt_of_not_ge hle
    · have hji : i = j := by omega
      subst hji
      refine ⟨i, m, ?_, rfl, LogWithin.lrefl _ _ _, le_refl _, le_refl _, ?_, Or.inl rfl⟩
      · rw [scanUp, if_neg (lt_irrefl _)]
      · intro k x h1 h2 _
        omega

end Scans

/-! ## The partition step -/

section Partition

variable {α : Type} [LinearOrder α]

/-- The partition loop, started in a state that satisfies its invariant
(`arr[low]` is the pivot, `low .. i` is at most the pivot, `j+1 .. high` is at
least the pivot), ends with `i = j` and the invariant. -/
theorem partLoop_spec (pivot : α) (low high : Int) :
    ∀ (fuel : Nat) (i j : Int) (m : Mem α), 0 ≤ low → high < m.cells.length →
      low ≤ i → i ≤ j → j ≤ high → (j - i).toNat ≤ fuel →
      getI m.cells low = some pivot →
      AllLe m.cells low i pivot → AllGe m.cells (j + 1) high pivot →
      ∃ i' m', partLoop pivot fuel i j m = .ok (i', i', m') ∧
        i ≤ i' ∧ i' ≤ j ∧
        RangePerm m.cells m'.cells (low + 1) high ∧ LogWithin m m' low high ∧
        getI m'.cells low = some pivot ∧
        AllLe m'.cells low i' pivot ∧ AllGe m'.cells (i' + 1) high pivot := by
  intro fuel
  induction fuel with
  | zero =>
    intro i j m hlow hhigh hli hij hjh hf hpiv hle hge
    have hji : j = i := by omega
    subst hji
    refine ⟨j, m, ?_, le_refl _, le_refl _, RangePerm.rrefl _ _ _, LogWithin.lrefl _ _ _,
      hpiv, hle, hge⟩
    rw [partLoop, if_neg (lt_irrefl _)]
  | succ fuel ih =>
    intro i j m hlow hhigh hli hij hjh hf hpiv hle hge
    by_cases hlt : i < j
    swap
    · have hji : j = i := by omega
      subst hji
      refine ⟨j, m, ?_, le_refl _, le_refl _, RangePerm.rrefl _ _ _, LogWithin.lrefl _ _ _,
        hpiv, hle, hge⟩
      rw [partLoop, if_neg (lt_irrefl _)]
    -- the downward scan
    obtain ⟨j1, m1, hrun1, hc1, hlog1, hij1, hj1j, hge1, hstop1⟩ :=
      scanDown_spec pivot i (fuel + 1) j m (by omega) hij (by omega) hf
    -- the upward scan
    obtain ⟨i1, m2, hrun2, hc2, hlog2, hii1, hi1j1, hle2, hstop2⟩ :=
      scanUp_spec pivot j1 (fuel + 1) i m1 (by omega) hij1 (by rw [hc1]; omega) (by omega)
    rw [hc1] at hc2 hle2 hstop2
    rw [partLoop, if_pos hlt]
    simp only [hrun1, hrun2]
    have hlog12 : LogWithin m m2 low high :=
      (hlog1.lwiden (by omega) (by omega)).ltrans (hlog2.lwiden (by omega) (by omega))
    -- everything from `low` to just below `i1` is at most the pivot
    have hle_lt : AllLe m.cells low (i1 - 1) pivot := by
      intro k x hk1 hk2 hx
      by_cases hki : k ≤ i
      · exact hle k x hk1 hki hx
      · exact hle2 k x (by omega) hk2 hx
    -- everything above `j1` is at least the pivot
    have hge_gt : AllGe m.cells (j1 + 1) high pivot := by
      intro k x hk1 hk2 hx
      by_cases hkj : k ≤ j
      · exact hge1 k x hk1 hkj hx
      · exact hge k x (by omega) hk2 hx
    by_cases hsw : i1 < j1
    · -- both scans stopped at an element on the wrong side: they are swapped
      obtain ⟨x, hx, hxp⟩ : ∃ x, getI m.cells i1 = some x ∧ pivot < x := by
        rcases hstop2 with h | h
        · omega
        · exact h
      obtain ⟨y, hy, hyp⟩ : ∃ y, getI m.cells j1 = some y ∧ y < pivot := by
        rcases hstop1 with h | h
        · omega
        · exact h
      have hi1i : i < i1 := by
        rcases lt_or_eq_of_le hii1 with h | h
        · exact h
        · subst h
          exact absurd (hle i x hli (le_refl _) hx) (not_le_of_lt hxp)
      obtain ⟨m3, hrun3, hperm3, hlog3, hget3⟩ :=
        swap_spec m2 i1 j1 (low + 1) high
          (by rw [hc2]; exact hx) (by rw [hc2]; exact hy)
          (by omega) (by omega) (by omega) (by omega)
      rw [hc2] at hperm3 hget3
      obtain ⟨i', m', hrun, hb1, hb2, hperm, hlog, hpiv', hle', hge'⟩ :=
        ih i1 j1 m3 hlow (by rw [hperm3.length_eq]; exact hhigh) (by omega) (le_of_lt hsw)
          (by omega) (by omega)
          (by rw [hget3, if_neg (by omega), if_neg (by omega)]; exact hpiv)
          (by
            intro k z hk1 hk2 hz
            rw [hget3, if_neg (by omega)] at hz
            by_cases hk : k = i1
            · rw [if_pos hk] at hz
              cases hz
              exact le_of_lt hyp
            · rw [if_neg hk] at hz
              exact hle_lt k z hk1 (by omega) hz)
          (by
            intro k z hk1 hk2 hz
            rw [hget3, if_neg (by omega), if_neg (by omega)] at hz
            exact hge_gt k z hk1 hk2 hz)
      refine ⟨i', m', ?_, by omega, by omega, hperm3.rtrans hperm,
        hlog12.ltrans ((hlog3.lwiden (by omega) (le_refl _)).ltrans hlog), hpiv', hle', hge'⟩
      simp only [if_pos hsw, hrun3]
      exact hrun
    · -- the scans met
      have hmeet : i1 = j1 := by omega
      subst hmeet
      have hle_i1 : AllLe m.cells low i1 pivot := by
        intro k x hk1 hk2 hx
        by_cases hk : k = i1
        · subst hk
          rcases hstop1 with h | h
          · exact hle k x hk1 (by omega) hx
          · obtain ⟨y, hy, hyp⟩ := h
            rw [hy] at hx
            cases hx
            exact le_of_lt hyp
        · exact hle_lt k x hk1 (by omega) hx
      obtain ⟨i', m', hrun, hb1, hb2, hperm, hlog, hpiv', hle', hge'⟩ :=
        ih i1 i1 m2 hlow (by rw [hc2]; exact hhigh) (by omega) (le_refl _)
          (by omega) (by omega)
          (by rw [hc2]; exact hpiv) (by rw [hc2]; exact hle_i1) (by rw [hc2]; exact hge_gt)
      rw [hc2] at hperm
      refine ⟨i', m', ?_, by omega, by omega, hperm, hlog12.ltrans hlog, hpiv', hle', hge'⟩
      simp only [if_neg hsw]
      exact hrun

end Partition

section PartitionStep

variable {α : Type} [LinearOrder α]

/-- One partition step on `low .. high`: it returns a split index `i` of the
range, the pivot (the old `arr[low]`) is at `i`, everything of the range to the
left of `i` is at most the pivot and everything to the right is at least the
pivot; only positions of the range are accessed. -/
theorem hoarePartition_spec (fuel : Nat) (m : Mem α) (low high : Int)
    (hlow : 0 ≤ low) (hlh : low ≤ high) (hhigh : high < m.cells.length)
    (hf : (high - low).toNat ≤ fuel) :
    ∃ i m' pivot, hoarePartition fuel m low high = .ok (i, m') ∧
      getI m.cells low = some pivot ∧ low ≤ i ∧ i ≤ high ∧
      RangePerm m.cells m'.cells low high ∧ LogWithin m m' low high ∧
      getI m'.cells i = some pivot ∧
      AllLe m'.cells low (i - 1) pivot ∧ AllGe m'.cells (i + 1) high pivot := by
  obtain ⟨pivot, hpiv⟩ := getI_defined (l := m.cells) (k := low) hlow (by omega)
  obtain ⟨i, m2, hrun, hli, hih, hperm, hlog, hpiv2, hle, hge⟩ :=
    partLoop_spec pivot low high fuel low high (m.logged [low]) hlow hhigh
      (le_refl _) hlh (le_refl _) hf hpiv
      (by
        intro k x hk1 hk2 hx
        have hk : k = low := by omega
        subst hk
        rw [show (m.logged [k]).cells = m.cells from rfl, hpiv] at hx
        cases hx
        exact le_refl _)
      (by
        intro k x hk1 hk2 _
        omega)
  have hlen : m2.cells.length = m.cells.length := hperm.length_eq
  obtain ⟨z, hz⟩ := getI_defined (l := m2.cells) (k := i) (by omega) (by omega)
  have hzp : z ≤ pivot := hle i z hli (le_refl _) hz
  obtain ⟨m3, hrun3, hperm3, hlog3, hget3⟩ :=
    swap_spec m2 low i low high hpiv2 hz
      (le_refl _) hlh hli hih
  refine ⟨i, m3, pivot, ?_, hpiv, hli, hih, ?_, ?_, ?_, ?_, ?_⟩
  · rw [hoarePartition, read_ok hpiv]
    simp only [hrun, hrun3]
  · exact (RangePerm.widen (l := m.cells) hperm (by omega) (le_refl _)).rtrans hperm3
  · exact (logWithin_logged m low low high (le_refl _) hlh).ltrans (hlog.ltrans hlog3)
  · rw [hget3, if_pos rfl]
  · intro k x hk1 hk2 hx
    rw [hget3, if_neg (by omega)] at hx
    by_cases hk : k = low
    · rw [if_pos hk] at hx
      cases hx
      exact hzp
    · rw [if_neg hk] at hx
      exact hle k x hk1 (by omega) hx
  · intro k x hk1 hk2 hx
    rw [hget3, if_neg (by omega), if_neg (by omega)] at hx
    exact hge k x hk1 hk2 hx

end PartitionStep

/-! ## Slices -/

section Slices

variable {α : Type}

/-- Entry `n` of the slice `lo .. hi` is entry `lo + n` of the list. -/
theorem getElem?_slice (l : List α) (lo hi : Int) (hlo : 0 ≤ lo) (n : Nat) :
    (slice l lo hi)[n]? = if lo + n ≤ hi then getI l (lo + n) else none := by
  unfold slice
  rw [List.getElem?_take]
  by_cases h : lo + n ≤ hi
  · rw [if_pos h, if_pos (by omega), List.getElem?_drop, getI_toNat (by omega)]
    congr 1
    omega
  · rw [if_neg h, if_neg (by omega)]

theorem mem_slice_of_getI {l : List α} {lo hi k : Int} {x : α} (hlo : 0 ≤ lo)
    (h1 : lo ≤ k) (h2 : k ≤ hi) (hx : getI l k = some x) : x ∈ slice l lo hi := by
  rw [List.mem_iff_getElem?]
  refine ⟨(k - lo).toNat, ?_⟩
  rw [getElem?_slice l lo hi hlo, if_pos (by omega)]
  rw [show lo + ((k - lo).toNat : Int) = k by omega]
  exact hx

theorem getI_of_mem_slice {l : List α} {lo hi : Int} {x : α} (hlo : 0 ≤ lo)
    (hx : x ∈ slice l lo hi) : ∃ k, lo ≤ k ∧ k ≤ hi ∧ getI l k = some x := by
  rw [List.mem_iff_getElem?] at hx
  obtain ⟨n, hn⟩ := hx
  rw [getElem?_slice l lo hi hlo] at hn
  by_cases h : lo + n ≤ hi
  · rw [if_pos h] at hn
    exact ⟨lo + n, by omega, h, hn⟩
  · rw [if_neg h] at hn
    cases hn

/-- A list splits into the part before `lo`, the slice and the part after
`hi`. -/
theorem split_slice (l : List α) (lo hi : Int) :
    l = l.take lo.toNat ++ (slice l lo hi ++
      l.drop (lo.toNat + (hi + 1 - lo).toNat)) := by
  unfold slice
  rw [← List.drop_drop, List.take_append_drop, List.take_append_drop]

/-- A rearrangement inside `lo .. hi` permutes the slice `lo .. hi`. -/
theorem RangePerm.slice_perm {l l' : List α} {lo hi : Int}
    (h : RangePerm l l' lo hi) (hlo : 0 ≤ lo) :
    (slice l' lo hi).Perm (slice l lo hi) := by
  have htake : l'.take lo.toNat = l.take lo.toNat := by
    apply List.ext_getElem?
    intro n
    rw [List.getElem?_take, List.getElem?_take]
    by_cases hn : n < lo.toNat
    · rw [if_pos hn, if_pos hn, ← getI_natCast, ← getI_natCast]
      exact h.outside n (Or.inl (by omega))
    · rw [if_neg hn, if_neg hn]
  have hdrop : l'.drop (lo.toNat + (hi + 1 - lo).toNat) =
      l.drop (lo.toNat + (hi + 1 - lo).toNat) := by
    apply List.ext_getElem?
    intro n
    rw [List.getElem?_drop, List.getElem?_drop, ← getI_natCast, ← getI_natCast]
    exact h.outside _ (Or.inr (by omega))
  have hp := h.perm
  rw [split_slice l lo hi, split_slice l' lo hi, htake, hdrop] at hp
  exact (List.perm_append_right_iff _).mp ((List.perm_append_left_iff _).mp hp)

/-- A rearrangement inside `lo .. hi` keeps an upper bound of the range. -/
theorem AllLe.rearranged [LE α] {l l' : List α} {lo hi : Int} {p : α}
    (h : RangePerm l l' lo hi) (hlo : 0 ≤ lo) (hall : AllLe l lo hi p) :
    AllLe l' lo hi p := by
  intro k x hk1 hk2 hx
  have hmem := (h.slice_perm hlo).subset (mem_slice_of_getI hlo hk1 hk2 hx)
  obtain ⟨k', h1, h2, hx'⟩ := getI_of_mem_slice hlo hmem
  exact hall k' x h1 h2 hx'

/-- A rearrangement inside `lo .. hi` keeps a lower bound of the range. -/
theorem AllGe.rearranged_ge [LE α] {l l' : List α} {lo hi : Int} {p : α}
    (h : RangePerm l l' lo hi) (hlo : 0 ≤ lo) (hall : AllGe l lo hi p) :
    AllGe l' lo hi p := by
  intro k x hk1 hk2 hx
  have hmem := (h.slice_perm hlo).subset (mem_slice_of_getI hlo hk1 hk2 hx)
  obtain ⟨k', h1, h2, hx'⟩ := getI_of_mem_slice hlo hmem
  exact hall k' x h1 h2 hx'

end Slices

/-! ## Gluing the two sorted halves -/

section Glue

variable {α : Type}

theorem AllLe.congr_le [LE α] {l l' : List α} {lo hi : Int} {p : α}
    (h : ∀ k : Int, lo ≤ k → k ≤ hi → getI l' k = getI l k) (hall : AllLe l lo hi p) :
    AllLe l' lo hi p := by
  intro k x hk1 hk2 hx
  rw [h k hk1 hk2] at hx
  exact hall k x hk1 hk2 hx

theorem AllGe.congr_ge [LE α] {l l' : List α} {lo hi : Int} {p : α}
    (h : ∀ k : Int, lo ≤ k → k ≤ hi → getI l' k = getI l k) (hall : AllGe l lo hi p) :
    AllGe l' lo hi p := by
  intro k x hk1 hk2 hx
  rw [h k hk1 hk2] at hx
  exact hall k x hk1 hk2 hx

theorem SortedOn.congr_sorted [LE α] {l l' : List α} {lo hi : Int}
    (h : ∀ k : Int, lo ≤ k → k ≤ hi → getI l' k = getI l k) (hs : SortedOn l lo hi) :
    SortedOn l' lo hi := by
  intro k x y hk1 hk2 hx hy
  rw [h k hk1 (by omega)] at hx
  rw [h (k + 1) (by omega) (by omega)] at hy
  exact hs k x y hk1 hk2 hx hy

/-- A range whose two sides of the pivot position are sorted and bounded by
the pivot is sorted. -/
theorem SortedOn.glue [Preorder α] {l : List α} {low high : Int} (i : Int) (pivot : α)
    (hpiv : getI l i = some pivot)
    (hle : AllLe l low (i - 1) pivot) (hge : AllGe l (i + 1) high pivot)
    (hsl : SortedOn l low (i - 1)) (hsr : SortedOn l (i + 1) high) :
    SortedOn l low high := by
  intro k x y hk1 hk2 hx hy
  rcases lt_trichotomy (k + 1) i with h | h | h
  · exact hsl k x y hk1 (by omega) hx hy
  · rw [h, hpiv] at hy
    cases hy
    exact hle k x hk1 (by omega) hx
  · rcases eq_or_lt_of_le (show i ≤ k by omega) with h' | h'
    · rw [← h', hpiv] at hx
      cases hx
      exact hge (k + 1) y (by omega) (by omega) hy
    · exact hsr k x y (by omega) hk2 hx hy

/-- After a partition step with split index `i`, sorting the two sides of `i`
one after the other, in either order, leaves the whole range sorted and
rearranged inside `low .. high` only. -/
theorem sorted_after_both [Preorder α] {l₁ : List α} (l₂ l₃ : List α) {low i high : Int}
    {pivot : α} (hlow : 0 ≤ low) (hli : low ≤ i) (hih : i ≤ high)
    (hpiv : getI l₁ i = some pivot)
    (hle : AllLe l₁ low (i - 1) pivot) (hge : AllGe l₁ (i + 1) high pivot)
    (h : (RangePerm l₁ l₂ low (i - 1) ∧ SortedOn l₂ low (i - 1) ∧
            RangePerm l₂ l₃ (i + 1) high ∧ SortedOn l₃ (i + 1) high) ∨
         (RangePerm l₁ l₂ (i + 1) high ∧ SortedOn l₂ (i + 1) high ∧
            RangePerm l₂ l₃ low (i - 1) ∧ SortedOn l₃ low (i - 1))) :
    RangePerm l₁ l₃ low high ∧ SortedOn l₃ low high := by
  rcases h with ⟨p₁, s₁, p₂, s₂⟩ | ⟨p₁, s₁, p₂, s₂⟩
  · refine ⟨(p₁.widen (le_refl _) (by omega)).rtrans (p₂.widen (by omega) (le_refl _)), ?_⟩
    have e₂ : ∀ k : Int, k ≤ i → getI l₃ k = getI l₂ k :=
      fun k hk => p₂.outside k (Or.inl (by omega))
    have e₁ : ∀ k : Int, i ≤ k → getI l₂ k = getI l₁ k :=
      fun k hk => p₁.outside k (Or.inr (by omega))
    apply SortedOn.glue i pivot
    · rw [e₂ i (le_refl _), e₁ i (le_refl _)]
      exact hpiv
    · exact AllLe.congr_le (fun k _ hk => e₂ k (by omega)) (AllLe.rearranged p₁ hlow hle)
    · exact AllGe.rearranged_ge p₂ (by omega)
        (AllGe.congr_ge (fun k hk _ => e₁ k (by omega)) hge)
    · exact SortedOn.congr_sorted (fun k _ hk => e₂ k (by omega)) s₁
    · exact s₂
  · refine ⟨(p₁.widen (by omega) (le_refl _)).rtrans (p₂.widen (le_refl _) (by omega)), ?_⟩
    have e₂ : ∀ k : Int, i ≤ k → getI l₃ k = getI l₂ k :=
      fun k hk => p₂.outside k (Or.inr (by omega))
    have e₁ : ∀ k : Int, k ≤ i → getI l₂ k = getI l₁ k :=
      fun k hk => p₁.outside k (Or.inl (by omega))
    apply SortedOn.glue i pivot
    · rw [e₂ i (le_refl _), e₁ i (le_refl _)]
      exact hpiv
    · exact AllLe.rearranged p₂ hlow
        (AllLe.congr_le (fun k _ hk => e₁ k (by omega)) hle)
    · exact AllGe.congr_ge (fun k hk _ => e₂ k (by omega)) (AllGe.rearranged_ge p₁ (by omega) hge)
    · exact s₂
    · exact SortedOn.congr_sorted (fun k hk _ => e₂ k (by omega)) s₁

end Glue

/-! ## The plain variant -/

section PlainVariant

variable {α : Type} [LinearOrder α]


/-- Full specification of `quickSort_v1`: with fuel `high - low` the call
returns; the result is a rearrangement inside `low .. high`, sorted on
`low .. high`, and only positions of `low .. high` were accessed. -/
theorem quickSort_v1_spec : ∀ (fuel : Nat) (m : Mem α) (low high : Int),
    0 ≤ low → high < m.cells.length → (high - low).toNat ≤ fuel →
    ∃ m', quickSort_v1 fuel m low high = .ok m' ∧
      RangePerm m.cells m'.cells low high ∧ LogWithin m m' low high ∧
      SortedOn m'.cells low high := by
  intro fuel
  induction fuel with
  | zero =>
    intro m low high hlow hhigh hf
    have hge : low ≥ high := by omega
    refine ⟨m.enter.leave, ?_, RangePerm.rrefl _ _ _, LogWithin.lrefl _ _ _, ?_⟩
    · rw [quickSort_v1, if_pos hge]
    · intro k x y hk1 hk2 _ _
      omega
  | succ fuel ih =>
    intro m low high hlow hhigh hf
    by_cases hge : low ≥ high
    · refine ⟨m.enter.leave, ?_, RangePerm.rrefl _ _ _, LogWithin.lrefl _ _ _, ?_⟩
      · rw [quickSort_v1, if_pos hge]
      · intro k x y hk1 hk2 _ _
        omega
    · obtain ⟨i, m1, pivot, hrun1, -, hli, hih, hperm1, hlog1, hpiv, hle, hge1⟩ :=
        hoarePartition_spec (fuel + 1) m.enter low high hlow (by omega) hhigh hf
      have hlen1 : m1.cells.length = m.cells.length := hperm1.length_eq
      obtain ⟨m2, hrun2, hperm2, hlog2, hs2⟩ :=
        ih m1 low (i - 1) hlow (by omega) (by omega)
      have hlen2 : m2.cells.length = m1.cells.length := hperm2.length_eq
      obtain ⟨m3, hrun3, hperm3, hlog3, hs3⟩ :=
        ih m2 (i + 1) high (by omega) (by omega) (by omega)
      obtain ⟨hperm, hsorted⟩ :=
        sorted_after_both m2.cells m3.cells hlow hli hih hpiv hle hge1
          (Or.inl ⟨hperm2, hs2, hperm3, hs3⟩)
      refine ⟨m3.leave, ?_, hperm1.rtrans hperm, ?_, hsorted⟩
      · rw [quickSort_v1, if_neg hge]
        simp only [hrun1, hrun2, hrun3]
      · exact hlog1.ltrans ((hlog2.lwiden (le_refl _) (by omega)).ltrans
          (hlog3.lwiden (by omega) (le_refl _)))

end PlainVariant

/-! ## The hardened variant -/

section HardenedVariant

variable {α : Type} [LinearOrder α]

/-- The conditional swap of `medianOfThree` on two positions of `lo .. hi`. -/
theorem swapIfLess_spec (m : Mem α) (p q lo hi : Int) (hlo : 0 ≤ lo)
    (hhi : hi < m.cells.length) (hp1 : lo ≤ p) (hp2 : p ≤ hi) (hq1 : lo ≤ q)
    (hq2 : q ≤ hi) :
    ∃ m', swapIfLess m p q = .ok m' ∧ RangePerm m.cells m'.cells lo hi ∧
      LogWithin m m' lo hi := by
  obtain ⟨a, ha⟩ := getI_defined (l := m.cells) (k := p) (by omega) (by omega)
  obtain ⟨b, hb⟩ := getI_defined (l := m.cells) (k := q) (by omega) (by omega)
  have hread : LogWithin m ((m.logged [p]).logged [q]) lo hi :=
    (logWithin_logged m p lo hi hp1 hp2).ltrans (logWithin_logged _ q lo hi hq1 hq2)
  by_cases hlt : a < b
  · obtain ⟨m', hrun, hperm, hlog, -⟩ :=
      swap_spec ((m.logged [p]).logged [q]) q p lo hi
        hb ha hq1 hq2 hp1 hp2
    refine ⟨m', ?_, hperm, hread.ltrans hlog⟩
    rw [swapIfLess, read_ok ha]
    simp only []
    rw [read_ok (m := m.logged [p]) hb]
    simp only [if_pos hlt]
    exact hrun
  · refine ⟨(m.logged [p]).logged [q], ?_, RangePerm.rrefl _ _ _, hread⟩
    rw [swapIfLess, read_ok ha]
    simp only []
    rw [read_ok (m := m.logged [p]) hb]
    simp only [if_neg hlt]

/-- The middle index lies in the range. -/
theorem mid_bounds (low high : Int) (h : low ≤ high) :
    low ≤ low + Int.tdiv (high - low) 2 ∧ low + Int.tdiv (high - low) 2 ≤ high := by
  rw [Int.tdiv_eq_ediv (by omega) (by decide)]
  omega

/-- The randomised index lies in the range. -/
theorem rand_idx_bounds (low high : Int) (r : Nat) (h : low ≤ high) :
    low ≤ low + Int.tmod (r : Int) (high - low + 1) ∧
      low + Int.tmod (r : Int) (high - low + 1) ≤ high := by
  have h1 := Int.tmod_nonneg (high - low + 1) (Int.ofNat_nonneg r)
  have h2 := Int.tmod_lt_of_pos (r : Int) (show 0 < high - low + 1 by omega)
  omega

/-- The call `medianOfThree(arr, low, high)` returns the middle index and
rearranges the vector inside `low .. high` only. -/
theorem medianOfThree_spec (m : Mem α) (low high : Int) (hlow : 0 ≤ low)
    (hlh : low ≤ high) (hhigh : high < m.cells.length) :
    ∃ m', medianOfThree m low high = .ok (low + Int.tdiv (high - low) 2, m') ∧
      RangePerm m.cells m'.cells low high ∧ LogWithin m m' low high := by
  obtain ⟨hm1, hm2⟩ := mid_bounds low high hlh
  obtain ⟨m1, hrun1, hperm1, hlog1⟩ :=
    swapIfLess_spec m (low + Int.tdiv (high - low) 2) low low high hlow hhigh hm1 hm2
      (le_refl _) hlh
  obtain ⟨m2, hrun2, hperm2, hlog2⟩ :=
    swapIfLess_spec m1 high low low high hlow (by rw [hperm1.length_eq]; exact hhigh)
      hlh (le_refl _) (le_refl _) hlh
  obtain ⟨m3, hrun3, hperm3, hlog3⟩ :=
    swapIfLess_spec m2 high (low + Int.tdiv (high - low) 2) low high hlow
      (by rw [hperm2.length_eq, hperm1.length_eq]; exact hhigh)
      hlh (le_refl _) hm1 hm2
  refine ⟨m3, ?_, (hperm1.rtrans hperm2).rtrans hperm3, (hlog1.ltrans hlog2).ltrans hlog3⟩
  simp only [medianOfThree, hrun1, hrun2, hrun3]

/-- Full specification of the loop of `quickSort_v2`, for every stream of
`rand()` values. -/
theorem loop_v2_spec (rnd : Nat → Nat) : ∀ (fuel : Nat) (m : Mem α) (low high : Int),
    0 ≤ low → high < m.cells.length → (high - low).toNat ≤ fuel →
    ∃ m', loop_v2 rnd fuel m low high = .ok m' ∧
      RangePerm m.cells m'.cells low high ∧ LogWithin m m' low high ∧
      SortedOn m'.cells low high := by
  intro fuel
  induction fuel with
  | zero =>
    intro m low high hlow hhigh hf
    have hge : ¬ low < high := by omega
    refine ⟨m, ?_, RangePerm.rrefl _ _ _, LogWithin.lrefl _ _ _, ?_⟩
    · rw [loop_v2, if_neg hge]
    · intro k x y hk1 hk2 _ _
      omega
  | succ fuel ih =>
    intro m low high hlow hhigh hf
    by_cases hlt : low < high
    swap
    · refine ⟨m, ?_, RangePerm.rrefl _ _ _, LogWithin.lrefl _ _ _, ?_⟩
      · rw [loop_v2, if_neg hlt]
      · intro k x y hk1 hk2 _ _
        omega
    have hlh : low ≤ high := le_of_lt hlt
    obtain ⟨hr1, hr2⟩ := rand_idx_bounds low high (rnd m.draws) hlh
    -- the random swap
    obtain ⟨x0, hx0⟩ := getI_defined (l := m.cells) (k := low) hlow (by omega)
    obtain ⟨y0, hy0⟩ := getI_defined (l := m.cells)
      (k := low + Int.tmod (rnd m.draws : Int) (high - low + 1)) (by omega) (by omega)
    obtain ⟨m1, hrun1, hperm1, hlog1, -⟩ :=
      swap_spec { m with draws := m.draws + 1 } low
        (low + Int.tmod (rnd m.draws : Int) (high - low + 1)) low high
        hx0 hy0 (le_refl _) hlh hr1 hr2
    have hlen1 : m1.cells.length = m.cells.length := hperm1.length_eq
    -- median of three
    obtain ⟨m2, hrun2, hperm2, hlog2⟩ :=
      medianOfThree_spec m1 low high hlow hlh (by omega)
    have hlen2 : m2.cells.length = m1.cells.length := hperm2.length_eq
    obtain ⟨hm1, hm2⟩ := mid_bounds low high hlh
    obtain ⟨x2, hx2⟩ := getI_defined (l := m2.cells) (k := low) hlow (by omega)
    obtain ⟨y2, hy2⟩ := getI_defined (l := m2.cells)
      (k := low + Int.tdiv (high - low) 2) (by omega) (by omega)
    obtain ⟨m3, hrun3, hperm3, hlog3, -⟩ :=
      swap_spec m2 low (low + Int.tdiv (high - low) 2) low high
        hx2 hy2 (le_refl _) hlh hm1 hm2
    have hlen3 : m3.cells.length = m2.cells.length := hperm3.length_eq
    -- the partition step
    obtain ⟨i, m4, pivot, hrun4, -, hli, hih, hperm4, hlog4, hpiv, hle, hge⟩ :=
      hoarePartition_spec (fuel + 1) m3 low high hlow hlh (by omega) hf
    have hlen4 : m4.cells.length = m3.cells.length := hperm4.length_eq
    have hperm04 : RangePerm m.cells m4.cells low high :=
      ((hperm1.rtrans hperm2).rtrans hperm3).rtrans hperm4
    have hlog04 : LogWithin m m4 low high := by
      have h01 : LogWithin m m1 low high := hlog1
      exact ((h01.ltrans hlog2).ltrans hlog3).ltrans hlog4
    rw [loop_v2, if_pos hlt]
    simp only [hrun1, hrun2, hrun3, hrun4]
    by_cases hside : i - low < high - i
    · obtain ⟨m5, hrun5, hperm5, hlog5, hs5⟩ :=
        ih m4.enter low (i - 1) hlow
          (by show i - 1 < ((m4.cells.length : Nat) : Int); omega) (by omega)
      have hlen5 : m5.cells.length = m4.cells.length := hperm5.length_eq
      obtain ⟨m6, hrun6, hperm6, hlog6, hs6⟩ :=
        ih m5.leave (i + 1) high (by omega)
          (by show high < ((m5.cells.length : Nat) : Int); omega) (by omega)
      obtain ⟨hperm, hsorted⟩ :=
        sorted_after_both m5.cells m6.cells hlow hli hih hpiv hle hge
          (Or.inl ⟨hperm5, hs5, hperm6, hs6⟩)
      refine ⟨m6, ?_, hperm04.rtrans hperm, ?_, hsorted⟩
      · simp only [if_pos hside, hrun5]
        exact hrun6
      · have h45 : LogWithin m4 m5 low high := hlog5.lwiden (le_refl _) (by omega)
        have h56 : LogWithin m5 m6 low high := hlog6.lwiden (by omega) (le_refl _)
        exact hlog04.ltrans (h45.ltrans h56)
    · obtain ⟨m5, hrun5, hperm5, hlog5, hs5⟩ :=
        ih m4.enter (i + 1) high (by omega)
          (by show high < ((m4.cells.length : Nat) : Int); omega) (by omega)
      have hlen5 : m5.cells.length = m4.cells.length := hperm5.length_eq
      obtain ⟨m6, hrun6, hperm6, hlog6, hs6⟩ :=
        ih m5.leave low (i - 1) hlow
          (by show i - 1 < ((m5.cells.length : Nat) : Int); omega) (by omega)
      obtain ⟨hperm, hsorted⟩ :=
        sorted_after_both m5.cells m6.cells hlow hli hih hpiv hle hge
          (Or.inr ⟨hperm5, hs5, hperm6, hs6⟩)
      refine ⟨m6, ?_, hperm04.rtrans hperm, ?_, hsorted⟩
      · simp only [if_neg hside, hrun5]
        exact hrun6
      · have h45 : LogWithin m4 m5 low high := hlog5.lwiden (by omega) (le_refl _)
        have h56 : LogWithin m5 m6 low high := hlog6.lwiden (le_refl _) (by omega)
        exact hlog04.ltrans (h45.ltrans h56)

/-- Full specification of `quickSort_v2`, for every stream of `rand()`
values. -/
theorem quickSort_v2_spec (rnd : Nat → Nat) (fuel : Nat) (m : Mem α) (low high : Int)
    (hlow : 0 ≤ low) (hhigh : high < m.cells.length) (hf : (high - low).toNat ≤ fuel) :
    ∃ m', quickSort_v2 rnd fuel m low high = .ok m' ∧
      RangePerm m.cells m'.cells low high ∧ LogWithin m m' low high ∧
      SortedOn m'.cells low high := by
  obtain ⟨m1, hrun, hperm, hlog, hs⟩ := loop_v2_spec rnd fuel m.enter low high hlow hhigh hf
  refine ⟨m1.leave, ?_, hperm, hlog, hs⟩
  simp only [quickSort_v2, hrun]

end HardenedVariant

/-! ## Sorted slices -/

section SortedSlices

variable {α : Type}

theorem RangePerm.take_eq {l l' : List α} {lo hi : Int} (h : RangePerm l l' lo hi) :
    l'.take lo.toNat = l.take lo.toNat := by
  apply List.ext_getElem?
  intro n
  rw [List.getElem?_take, List.getElem?_take]
  by_cases hn : n < lo.toNat
  · rw [if_pos hn, if_pos hn, ← getI_natCast, ← getI_natCast]
    exact h.outside n (Or.inl (by omega))
  · rw [if_neg hn, if_neg hn]

theorem RangePerm.drop_eq {l l' : List α} {lo hi : Int} (h : RangePerm l l' lo hi)
    (hlo : 0 ≤ lo) :
    l'.drop (lo.toNat + (hi + 1 - lo).toNat) = l.drop (lo.toNat + (hi + 1 - lo).toNat) := by
  apply List.ext_getElem?
  intro n
  rw [List.getElem?_drop, List.getElem?_drop, ← getI_natCast, ← getI_natCast]
  exact h.outside _ (Or.inr (by omega))

/-- The result of a rearrangement inside `lo .. hi` is the old list with the
slice `lo .. hi` replaced. -/
theorem RangePerm.cells_eq {l l' : List α} {lo hi : Int} (h : RangePerm l l' lo hi)
    (hlo : 0 ≤ lo) :
    l' = l.take lo.toNat ++ (slice l' lo hi ++ l.drop (lo.toNat + (hi + 1 - lo).toNat)) := by
  have hs := split_slice l' lo hi
  rw [h.take_eq, h.drop_eq hlo] at hs
  exact hs

theorem RangePerm.eq_of_slice_eq {l l' : List α} {lo hi : Int} (h : RangePerm l l' lo hi)
    (hlo : 0 ≤ lo) (hs : slice l' lo hi = slice l lo hi) : l' = l := by
  rw [h.cells_eq hlo, hs]
  exact (split_slice l lo hi).symm

/-- A range that is in order position by position is a sorted slice. -/
theorem SortedOn.sorted_slice [Preorder α] {l : List α} {lo hi : Int}
    (hs : SortedOn l lo hi) (hlo : 0 ≤ lo) : (slice l lo hi).Sorted (· ≤ ·) := by
  apply List.chain'_iff_pairwise.mp
  rw [List.chain'_iff_get]
  intro n hn
  have h1 : (slice l lo hi)[n]? = some ((slice l lo hi).get ⟨n, by omega⟩) := by
    rw [List.get_eq_getElem]
    exact List.getElem?_eq_getElem _
  have h2 : (slice l lo hi)[n + 1]? = some ((slice l lo hi).get ⟨n + 1, by omega⟩) := by
    rw [List.get_eq_getElem]
    exact List.getElem?_eq_getElem _
  rw [getElem?_slice l lo hi hlo] at h1 h2
  by_cases hb : lo + ((n + 1 : Nat) : Int) ≤ hi
  · rw [if_pos hb] at h2
    rw [if_pos (by omega)] at h1
    refine hs (lo + n) _ _ (by omega) (by omega) h1 ?_
    rw [show lo + (n : Int) + 1 = lo + ((n + 1 : Nat) : Int) by omega]
    exact h2
  · rw [if_neg hb] at h2
    cases h2

/-- A sorted slice is in order position by position. -/
theorem SortedOn.of_sorted_slice [Preorder α] {l : List α} (lo hi : Int)
    (hs : (slice l lo hi).Sorted (· ≤ ·)) (hlo : 0 ≤ lo) : SortedOn l lo hi := by
  intro k x y hk1 hk2 hx hy
  have h1 : (slice l lo hi)[(k - lo).toNat]? = some x := by
    rw [getElem?_slice l lo hi hlo, if_pos (by omega),
      show lo + ((k - lo).toNat : Int) = k by omega]
    exact hx
  have h2 : (slice l lo hi)[(k - lo).toNat + 1]? = some y := by
    rw [getElem?_slice l lo hi hlo, if_pos (by omega),
      show lo + (((k - lo).toNat + 1 : Nat) : Int) = k + 1 by omega]
    exact hy
  obtain ⟨b1, e1⟩ := List.getElem?_eq_some.mp h1
  obtain ⟨b2, e2⟩ := List.getElem?_eq_some.mp h2
  have := List.pairwise_iff_getElem.mp hs (k - lo).toNat ((k - lo).toNat + 1) b1 b2
    (by omega)
  rw [e1, e2] at this
  exact this

/-- A sorted rearrangement of a range is determined by the elements of the
range. -/
theorem RangePerm.slice_eq_of_sorted [LinearOrder α] {l l' : List α} {lo hi : Int}
    (h : RangePerm l l' lo hi) (hlo : 0 ≤ lo) (hs : SortedOn l' lo hi)
    (t : List α) (ht : t.Sorted (· ≤ ·)) (hp : t.Perm (slice l lo hi)) :
    slice l' lo hi = t :=
  List.eq_of_perm_of_sorted ((h.slice_perm hlo).trans hp.symm) (hs.sorted_slice hlo) ht

/-- Sorting a range that is already sorted changes nothing. -/
theorem RangePerm.eq_of_sortedOn [LinearOrder α] {l l' : List α} {lo hi : Int}
    (h : RangePerm l l' lo hi) (hlo : 0 ≤ lo) (hs' : SortedOn l' lo hi)
    (hs : SortedOn l lo hi) : l' = l :=
  h.eq_of_slice_eq hlo
    (h.slice_eq_of_sorted hlo hs' _ (hs.sorted_slice hlo) (List.Perm.refl _))

/-- Rearranging a range of equal elements changes nothing. -/
theorem RangePerm.eq_of_const {l l' : List α} {lo hi : Int} (h : RangePerm l l' lo hi)
    (hlo : 0 ≤ lo) (c : α) (hc : ∀ x ∈ slice l lo hi, x = c) : l' = l := by
  apply h.eq_of_slice_eq hlo
  have hp := h.slice_perm hlo
  have hc' : ∀ x ∈ slice l' lo hi, x = c := fun x hx => hc x (hp.subset hx)
  rw [List.eq_replicate_of_mem hc, List.eq_replicate_of_mem hc', hp.length_eq]

end SortedSlices

/-! ## The properties of the sorts -/

section Claims

variable {α : Type} [LinearOrder α]

/-- C1: ordering postcondition of the plain variant.  For a vector `arr` and
`0 ≤ low ≤ high < arr.size()` the call `quickSort_v1(arr, low, high)` returns
(from fuel `high - low` on), and afterwards `arr[k] ≤ arr[k+1]` for every `k`
with `low ≤ k < high`. -/
theorem quickSort_v1_ordered (arr : List α) (low high : Int) (fuel : Nat)
    (hlow : 0 ≤ low) (_hlh : low ≤ high) (hhigh : high < arr.length)
    (hfuel : (high - low).toNat ≤ fuel) :
    ∃ m', quickSort_v1 fuel (Mem.init arr) low high = .ok m' ∧
      ∀ k : Int, low ≤ k → k < high →
        ∃ x y, getI m'.cells k = some x ∧ getI m'.cells (k + 1) = some y ∧ x ≤ y := by
  obtain ⟨m', hrun, hperm, -, hs⟩ :=
    quickSort_v1_spec fuel (Mem.init arr) low high hlow hhigh hfuel
  refine ⟨m', hrun, ?_⟩
  intro k hk1 hk2
  have hlen : m'.cells.length = arr.length := hperm.length_eq
  obtain ⟨x, hx⟩ := getI_defined (l := m'.cells) (k := k) (by omega) (by omega)
  obtain ⟨y, hy⟩ := getI_defined (l := m'.cells) (k := k + 1) (by omega) (by omega)
  exact ⟨x, y, hx, hy, hs k x y hk1 hk2 hx hy⟩

/-- The test of `main` for `quickSort_v1`: `[64,34,25,12,22,11,90]` with
`low = 0`, `high = 6` becomes `[11,12,22,25,34,64,90]`, and C1 at this input. -/
theorem quickSort_v1_ordered_witness :
    cellsOf (quickSort_v1 6 (Mem.init [(64 : Int), 34, 25, 12, 22, 11, 90]) 0 6) =
        some [11, 12, 22, 25, 34, 64, 90] ∧
      ∃ m', quickSort_v1 6 (Mem.init [(64 : Int), 34, 25, 12, 22, 11, 90]) 0 6 = .ok m' ∧
        ∀ k : Int, 0 ≤ k → k < 6 →
          ∃ x y, getI m'.cells k = some x ∧ getI m'.cells (k + 1) = some y ∧ x ≤ y :=
  ⟨by decide!,
   quickSort_v1_ordered [(64 : Int), 34, 25, 12, 22, 11, 90] 0 6 6
     (by decide) (by decide) (by decide) (by decide)⟩

/-- C2: permutation invariant of the plain variant.  The multiset of the
elements at the positions `low .. high` after `quickSort_v1(arr, low, high)` is
the multiset of the elements at those positions before the call. -/
theorem quickSort_v1_permutes (arr : List α) (low high : Int) (fuel : Nat)
    (hlow : 0 ≤ low) (_hlh : low ≤ high) (hhigh : high < arr.length)
    (hfuel : (high - low).toNat ≤ fuel) :
    ∃ m', quickSort_v1 fuel (Mem.init arr) low high = .ok m' ∧
      Multiset.ofList (slice m'.cells low high) = Multiset.ofList (slice arr low high) := by
  obtain ⟨m', hrun, hperm, -, -⟩ :=
    quickSort_v1_spec fuel (Mem.init arr) low high hlow hhigh hfuel
  exact ⟨m', hrun, Multiset.coe_eq_coe.mpr (hperm.slice_perm hlow)⟩

/-- C2 at the input `[3, 1, 2, 1, 9]` with `low = 1`, `high = 3`: the range
`1, 2, 1` becomes `1, 1, 2`. -/
theorem quickSort_v1_permutes_witness :
    cellsOf (quickSort_v1 2 (Mem.init [(3 : Int), 1, 2, 1, 9]) 1 3) = some [3, 1, 1, 2, 9] ∧
      ∃ m', quickSort_v1 2 (Mem.init [(3 : Int), 1, 2, 1, 9]) 1 3 = .ok m' ∧
        Multiset.ofList (slice m'.cells 1 3) =
          Multiset.ofList (slice [(3 : Int), 1, 2, 1, 9] 1 3) :=
  ⟨by decide!,
   quickSort_v1_permutes [(3 : Int), 1, 2, 1, 9] 1 3 2
     (by decide) (by decide) (by decide) (by decide)⟩

/-- C3: ordering postcondition of the hardened variant.  For every stream of
`rand()` values the call `quickSort_v2(arr, low, high)` returns (from fuel
`high - low` on), and afterwards `arr[k] ≤ arr[k+1]` for every `k` with
`low ≤ k < high`. -/
theorem quickSort_v2_ordered (rnd : Nat → Nat) (arr : List α) (low high : Int)
    (fuel : Nat) (hlow : 0 ≤ low) (_hlh : low ≤ high) (hhigh : high < arr.length)
    (hfuel : (high - low).toNat ≤ fuel) :
    ∃ m', quickSort_v2 rnd fuel (Mem.init arr) low high = .ok m' ∧
      ∀ k : Int, low ≤ k → k < high →
        ∃ x y, getI m'.cells k = some x ∧ getI m'.cells (k + 1) = some y ∧ x ≤ y := by
  obtain ⟨m', hrun, hperm, -, hs⟩ :=
    quickSort_v2_spec rnd fuel (Mem.init arr) low high hlow hhigh hfuel
  refine ⟨m', hrun, ?_⟩
  intro k hk1 hk2
  have hlen : m'.cells.length = arr.length := hperm.length_eq
  obtain ⟨x, hx⟩ := getI_defined (l := m'.cells) (k := k) (by omega) (by omega)
  obtain ⟨y, hy⟩ := getI_defined (l := m'.cells) (k := k + 1) (by omega) (by omega)
  exact ⟨x, y, hx, hy, hs k x y hk1 hk2 hx hy⟩

/-- The test of `main` for `quickSort_v2`: `[3.14, 2.71, 1.41, 3.14]` with
`low = 0`, `high = 3` becomes `[1.41, 2.71, 3.14, 3.14]` whatever `rand()`
returns, and C3 at this input for one stream. -/
theorem quickSort_v2_ordered_witness :
    (∀ rnd : Nat → Nat,
        cellsOf (quickSort_v2 rnd 3 (Mem.init [(3.14 : ℚ), 2.71, 1.41, 3.14]) 0 3) =
          some [1.41, 2.71, 3.14, 3.14]) ∧
      ∃ m', quickSort_v2 (fun n => 7 * n + 3) 3
          (Mem.init [(3.14 : ℚ), 2.71, 1.41, 3.14]) 0 3 = .ok m' ∧
        ∀ k : Int, 0 ≤ k → k < 3 →
          ∃ x y, getI m'.cells k = some x ∧ getI m'.cells (k + 1) = some y ∧ x ≤ y := by
  refine ⟨?_, quickSort_v2_ordered (fun n => 7 * n + 3) [(3.14 : ℚ), 2.71, 1.41, 3.14] 0 3 3
    (by decide) (by decide) (by decide) (by decide)⟩
  intro rnd
  obtain ⟨m', hrun, hperm, -, hs⟩ :=
    quickSort_v2_spec rnd 3 (Mem.init [(3.14 : ℚ), 2.71, 1.41, 3.14]) 0 3
      (by decide) (by decide) (by decide)
  have hslice := hperm.slice_eq_of_sorted (by decide) hs [1.41, 2.71, 3.14, 3.14]
    (by decide!) (by decide!)
  rw [hrun]
  show some m'.cells = _
  rw [hperm.cells_eq (by decide), hslice]
  decide!

/-- C4: permutation invariant of the hardened variant.  For every stream of
`rand()` values the multiset of the elements at the positions `low .. high`
after `quickSort_v2(arr, low, high)` is the multiset of the elements at those
positions before the call. -/
theorem quickSort_v2_permutes (rnd : Nat → Nat) (arr : List α) (low high : Int)
    (fuel : Nat) (hlow : 0 ≤ low) (_hlh : low ≤ high) (hhigh : high < arr.length)
    (hfuel : (high - low).toNat ≤ fuel) :
    ∃ m', quickSort_v2 rnd fuel (Mem.init arr) low high = .ok m' ∧
      Multiset.ofList (slice m'.cells low high) = Multiset.ofList (slice arr low high) := by
  obtain ⟨m', hrun, hperm, -, -⟩ :=
    quickSort_v2_spec rnd fuel (Mem.init arr) low high hlow hhigh hfuel
  exact ⟨m', hrun, Multiset.coe_eq_coe.mpr (hperm.slice_perm hlow)⟩

/-- C4 at the input `[7, 4, 4, 9, 1, 8]` with `low = 1`, `high = 4` and the
stream `5, 6, 7, ...`: the range `4, 4, 9, 1` becomes `1, 4, 4, 9`. -/
theorem quickSort_v2_permutes_witness :
    cellsOf (quickSort_v2 (fun n => n + 5) 3 (Mem.init [(7 : Int), 4, 4, 9, 1, 8]) 1 4) =
        some [7, 1, 4, 4, 9, 8] ∧
      ∃ m', quickSort_v2 (fun n => n + 5) 3 (Mem.init [(7 : Int), 4, 4, 9, 1, 8]) 1 4 =
          .ok m' ∧
        Multiset.ofList (slice m'.cells 1 4) =
          Multiset.ofList (slice [(7 : Int), 4, 4, 9, 1, 8] 1 4) :=
  ⟨by decide!,
   quickSort_v2_permutes (fun n => n + 5) [(7 : Int), 4, 4, 9, 1, 8] 1 4 3
     (by decide) (by decide) (by decide) (by decide)⟩

/-- C5: partition postcondition.  For `0 ≤ low < high < arr.size()` one
partition step (lines 30-43) returns a split index `i` such that every element
at a position of `low .. i-1` is at most `arr[i]` and every element at a
position of `i+1 .. high` is at least `arr[i]`. -/
theorem hoarePartition_partitions (arr : List α) (low high : Int) (fuel : Nat)
    (hlow : 0 ≤ low) (hlt : low < high) (hhigh : high < arr.length)
    (hfuel : (high - low).toNat ≤ fuel) :
    ∃ i m' p, hoarePartition fuel (Mem.init arr) low high = .ok (i, m') ∧
      getI m'.cells i = some p ∧
      (∀ k : Int, low ≤ k → k ≤ i - 1 → ∃ x, getI m'.cells k = some x ∧ x ≤ p) ∧
      (∀ k : Int, i + 1 ≤ k → k ≤ high → ∃ x, getI m'.cells k = some x ∧ p ≤ x) := by
  obtain ⟨i, m', p, hrun, -, hli, hih, hperm, -, hp, hle, hge⟩ :=
    hoarePartition_spec fuel (Mem.init arr) low high hlow (le_of_lt hlt) hhigh hfuel
  have hlen : m'.cells.length = arr.length := hperm.length_eq
  refine ⟨i, m', p, hrun, hp, ?_, ?_⟩
  · intro k hk1 hk2
    obtain ⟨x, hx⟩ := getI_defined (l := m'.cells) (k := k) (by omega) (by omega)
    exact ⟨x, hx, hle k x hk1 hk2 hx⟩
  · intro k hk1 hk2
    obtain ⟨x, hx⟩ := getI_defined (l := m'.cells) (k := k) (by omega) (by omega)
    exact ⟨x, hx, hge k x hk1 hk2 hx⟩

/-- C5 at an all-equal, a strictly ascending and a strictly descending range
(split indices 0, 0 and 3), and at `[5, 9, 1, 5, 3]` (split index 2). -/
theorem hoarePartition_partitions_witness :
    (hoarePartition 3 (Mem.init [(5 : Int), 5, 5, 5]) 0 3).toOption.map
        (fun r => (r.1, r.2.cells)) = some (0, [5, 5, 5, 5]) ∧
      (hoarePartition 3 (Mem.init [(1 : Int), 2, 3, 4]) 0 3).toOption.map
        (fun r => (r.1, r.2.cells)) = some (0, [1, 2, 3, 4]) ∧
      (hoarePartition 3 (Mem.init [(4 : Int), 3, 2, 1]) 0 3).toOption.map
        (fun r => (r.1, r.2.cells)) = some (3, [1, 3, 2, 4]) ∧
      (hoarePartition 4 (Mem.init [(5 : Int), 9, 1, 5, 3]) 0 4).toOption.map
        (fun r => (r.1, r.2.cells)) = some (2, [1, 3, 5, 5, 9]) ∧
      ∃ i m' p, hoarePartition 4 (Mem.init [(5 : Int), 9, 1, 5, 3]) 0 4 = .ok (i, m') ∧
        getI m'.cells i = some p ∧
        (∀ k : Int, 0 ≤ k → k ≤ i - 1 → ∃ x, getI m'.cells k = some x ∧ x ≤ p) ∧
        (∀ k : Int, i + 1 ≤ k → k ≤ 4 → ∃ x, getI m'.cells k = some x ∧ p ≤ x) :=
  ⟨by decide!, by decide!, by decide!, by decide!,
   hoarePartition_partitions [(5 : Int), 9, 1, 5, 3] 0 4 4
     (by decide) (by decide) (by decide) (by decide)⟩

/-- C6: pivot placement.  For `0 ≤ low < high < arr.size()` the split index
`i` of one partition step satisfies `low ≤ i ≤ high`, and after the terminal
swap `arr[i]` is the pivot, the value `arr[low]` had before the step. -/
theorem hoarePartition_places_pivot (arr : List α) (low high : Int) (fuel : Nat)
    (hlow : 0 ≤ low) (hlt : low < high) (hhigh : high < arr.length)
    (hfuel : (high - low).toNat ≤ fuel) :
    ∃ i m' pivot, hoarePartition fuel (Mem.init arr) low high = .ok (i, m') ∧
      getI arr low = some pivot ∧ low ≤ i ∧ i ≤ high ∧ getI m'.cells i = some pivot := by
  obtain ⟨i, m', p, hrun, hp0, hli, hih, -, -, hp, -, -⟩ :=
    hoarePartition_spec fuel (Mem.init arr) low high hlow (le_of_lt hlt) hhigh hfuel
  exact ⟨i, m', p, hrun, hp0, hli, hih, hp⟩

/-- C6 at `[8, 5, 9, 1, 5, 3, 0]` with `low = 1`, `high = 5`: the pivot 5 ends
at the split index 3. -/
theorem hoarePartition_places_pivot_witness :
    (hoarePartition 4 (Mem.init [(8 : Int), 5, 9, 1, 5, 3, 0]) 1 5).toOption.map
        (fun r => (r.1, r.2.cells)) = some (3, [8, 1, 3, 5, 5, 9, 0]) ∧
      ∃ i m' pivot, hoarePartition 4 (Mem.init [(8 : Int), 5, 9, 1, 5, 3, 0]) 1 5 =
          .ok (i, m') ∧
        getI [(8 : Int), 5, 9, 1, 5, 3, 0] 1 = some pivot ∧ 1 ≤ i ∧ i ≤ 5 ∧
        getI m'.cells i = some pivot :=
  ⟨by decide!,
   hoarePartition_places_pivot [(8 : Int), 5, 9, 1, 5, 3, 0] 1 5 4
     (by decide) (by decide) (by decide) (by decide)⟩

/-- C7: boundary cases.  For `low ≥ high` (an empty range, also `high = -1` on
an empty vector, or a singleton range) both `quickSort_v1(arr, low, high)` and
`quickSort_v2(arr, low, high)` return without failing, whatever the fuel and
whatever `low` and `high` are, with `arr` unchanged and no element accessed
(v2 draws no `rand()` value either). -/
theorem quickSort_boundary (rnd : Nat → Nat) (arr : List α) (low high : Int)
    (fuel : Nat) (h : low ≥ high) :
    (∃ m', quickSort_v1 fuel (Mem.init arr) low high = .ok m' ∧
        m'.cells = arr ∧ m'.touched = []) ∧
      (∃ m', quickSort_v2 rnd fuel (Mem.init arr) low high = .ok m' ∧
        m'.cells = arr ∧ m'.touched = [] ∧ m'.draws = 0) := by
  constructor
  · refine ⟨(Mem.init arr).enter.leave, ?_, rfl, rfl⟩
    rw [quickSort_v1.eq_def, if_pos h]
  · refine ⟨(Mem.init arr).enter.leave, ?_, rfl, rfl, rfl⟩
    rw [quickSort_v2, loop_v2.eq_def, if_neg (not_lt.mpr h)]

/-- C7 on the empty vector with `low = 0`, `high = -1`, without fuel. -/
theorem quickSort_boundary_witness :
    (∃ m', quickSort_v1 0 (Mem.init ([] : List Int)) 0 (-1) = .ok m' ∧
        m'.cells = [] ∧ m'.touched = []) ∧
      (∃ m', quickSort_v2 (fun n => n) 0 (Mem.init ([] : List Int)) 0 (-1) = .ok m' ∧
        m'.cells = [] ∧ m'.touched = [] ∧ m'.draws = 0) :=
  quickSort_boundary (fun n => n) ([] : List Int) 0 (-1) 0 (by decide)

/-- C8: idempotence.  When `arr[low..high]` is already in ascending order,
`quickSort_v1(arr, low, high)` leaves `arr` as it is, and so does
`quickSort_v2(arr, low, high)` for every stream of `rand()` values. -/
theorem quickSort_idempotent (rnd : Nat → Nat) (arr : List α) (low high : Int)
    (fuel : Nat) (hlow : 0 ≤ low) (_hlh : low ≤ high) (hhigh : high < arr.length)
    (hfuel : (high - low).toNat ≤ fuel) (hsorted : SortedOn arr low high) :
    (∃ m', quickSort_v1 fuel (Mem.init arr) low high = .ok m' ∧ m'.cells = arr) ∧
      (∃ m', quickSort_v2 rnd fuel (Mem.init arr) low high = .ok m' ∧ m'.cells = arr) := by
  constructor
  · obtain ⟨m', hrun, hperm, -, hs⟩ :=
      quickSort_v1_spec fuel (Mem.init arr) low high hlow hhigh hfuel
    exact ⟨m', hrun, hperm.eq_of_sortedOn hlow hs hsorted⟩
  · obtain ⟨m', hrun, hperm, -, hs⟩ :=
      quickSort_v2_spec rnd fuel (Mem.init arr) low high hlow hhigh hfuel
    exact ⟨m', hrun, hperm.eq_of_sortedOn hlow hs hsorted⟩

/-- C8 at `[9, 1, 2, 2, 7, 0]` with `low = 1`, `high = 4`, whose range
`1, 2, 2, 7` is sorted. -/
theorem quickSort_idempotent_witness :
    SortedOn [(9 : Int), 1, 2, 2, 7, 0] 1 4 ∧
      (∃ m', quickSort_v1 3 (Mem.init [(9 : Int), 1, 2, 2, 7, 0]) 1 4 = .ok m' ∧
        m'.cells = [9, 1, 2, 2, 7, 0]) ∧
      (∃ m', quickSort_v2 (fun n => 3 * n + 1) 3 (Mem.init [(9 : Int), 1, 2, 2, 7, 0]) 1 4 =
          .ok m' ∧ m'.cells = [9, 1, 2, 2, 7, 0]) :=
  have hs : SortedOn [(9 : Int), 1, 2, 2, 7, 0] 1 4 :=
    SortedOn.of_sorted_slice 1 4 (by decide!) (by decide)
  ⟨hs, quickSort_idempotent (fun n => 3 * n + 1) [(9 : Int), 1, 2, 2, 7, 0] 1 4 3
    (by decide) (by decide) (by decide) (by decide) hs⟩

/-- C10: in-bounds access.  For `0 ≤ low ≤ high < arr.size()` both sorts return
without an out-of-bounds access, and every index they read, write or swap lies
in `low .. high`; the randomised index and the middle index lie in
`low .. high` for every value of `rand()`. -/
theorem quickSort_access_in_range (rnd : Nat → Nat) (arr : List α) (low high : Int)
    (fuel : Nat) (hlow : 0 ≤ low) (hlh : low ≤ high) (hhigh : high < arr.length)
    (hfuel : (high - low).toNat ≤ fuel) :
    (∃ m', quickSort_v1 fuel (Mem.init arr) low high = .ok m' ∧
        ∀ k ∈ m'.touched, low ≤ k ∧ k ≤ high) ∧
      (∃ m', quickSort_v2 rnd fuel (Mem.init arr) low high = .ok m' ∧
        ∀ k ∈ m'.touched, low ≤ k ∧ k ≤ high) ∧
      (∀ r : Nat, low ≤ low + Int.tmod (r : Int) (high - low + 1) ∧
        low + Int.tmod (r : Int) (high - low + 1) ≤ high) ∧
      (low ≤ low + Int.tdiv (high - low) 2 ∧ low + Int.tdiv (high - low) 2 ≤ high) := by
  refine ⟨?_, ?_, fun r => rand_idx_bounds low high r hlh, mid_bounds low high hlh⟩
  · obtain ⟨m', hrun, -, ⟨ext, hext, hin⟩, -⟩ :=
      quickSort_v1_spec fuel (Mem.init arr) low high hlow hhigh hfuel
    refine ⟨m', hrun, ?_⟩
    intro k hk
    rw [hext] at hk
    exact hin k (by simpa [Mem.init] using hk)
  · obtain ⟨m', hrun, -, ⟨ext, hext, hin⟩, -⟩ :=
      quickSort_v2_spec rnd fuel (Mem.init arr) low high hlow hhigh hfuel
    refine ⟨m', hrun, ?_⟩
    intro k hk
    rw [hext] at hk
    exact hin k (by simpa [Mem.init] using hk)

/-- C10 at `[8, 2, 7, 1, 9]` with `low = 1`, `high = 3`: the indices accessed
by `quickSort_v1`, in order, and C10 at this input. -/
theorem quickSort_access_in_range_witness :
    (quickSort_v1 2 (Mem.init [(8 : Int), 2, 7, 1, 9]) 1 3).toOption.map
        (fun m => (m.cells, m.touched)) =
        some ([8, 1, 2, 7, 9], [1, 3, 1, 2, 2, 3, 3, 1, 2]) ∧
      (∃ m', quickSort_v1 2 (Mem.init [(8 : Int), 2, 7, 1, 9]) 1 3 = .ok m' ∧
        ∀ k ∈ m'.touched, 1 ≤ k ∧ k ≤ 3) ∧
      (∃ m', quickSort_v2 (fun n => n + 4) 2 (Mem.init [(8 : Int), 2, 7, 1, 9]) 1 3 =
          .ok m' ∧ ∀ k ∈ m'.touched, 1 ≤ k ∧ k ≤ 3) ∧
      (∀ r : Nat, (1 : Int) ≤ 1 + Int.tmod (r : Int) (3 - 1 + 1) ∧
        1 + Int.tmod (r : Int) (3 - 1 + 1) ≤ 3) ∧
      ((1 : Int) ≤ 1 + Int.tdiv (3 - 1) 2 ∧ 1 + Int.tdiv (3 - 1) 2 ≤ 3) :=
  ⟨by decide!,
   quickSort_access_in_range (fun n => n + 4) [(8 : Int), 2, 7, 1, 9] 1 3 2
     (by decide) (by decide) (by decide) (by decide)⟩

end Claims

/-! ## What the partition step leaves alone -/

section GhostFrame

variable {α : Type}

theorem read_inv {m m' : Mem α} {k : Int} {x : α} (h : m.read k = .ok (x, m')) :
    getI m.cells k = some x ∧ m' = m.logged [k] := by
  unfold Mem.read at h
  split at h
  · rename_i y hy
    cases h
    exact ⟨hy, rfl⟩
  · cases h

theorem swap_inv {m m' : Mem α} {a b : Int} (h : m.swap a b = .ok m') :
    m'.cells.length = m.cells.length ∧ m'.active = m.active ∧ m'.peak = m.peak ∧
      m'.draws = m.draws := by
  unfold Mem.swap at h
  split at h
  · cases h
    exact ⟨by simp, rfl, rfl, rfl⟩
  · cases h

end GhostFrame

section ScanFrame

variable {α : Type} [LinearOrder α]

/-- The downward scan moves `j` down, not below `i`, and touches neither the
vector nor the call counters. -/
theorem scanDown_inv (pivot : α) (i : Int) :
    ∀ (fuel : Nat) (j : Int) (m : Mem α) (j' : Int) (m' : Mem α),
      scanDown pivot i fuel j m = .ok (j', m') →
      m'.cells = m.cells ∧ m'.active = m.active ∧ m'.peak = m.peak ∧
        m'.draws = m.draws ∧ j' ≤ j ∧ (i ≤ j → i ≤ j') := by
  intro fuel
  induction fuel with
  | zero =>
    intro j m j' m' h
    rw [scanDown] at h
    split at h
    · cases hr : m.read j with
      | error e => simp [hr] at h
      | ok v =>
        obtain ⟨x, m1⟩ := v
        obtain ⟨-, hm1⟩ := read_inv hr
        simp only [hr] at h
        split at h
        · cases h
        · cases h
          subst hm1
          exact ⟨rfl, rfl, rfl, rfl, le_refl _, fun h => h⟩
    · cases h
      exact ⟨rfl, rfl, rfl, rfl, le_refl _, fun h => h⟩
  | succ fuel ih =>
    intro j m j' m' h
    rw [scanDown] at h
    split at h
    · rename_i hlt
      cases hr : m.read j with
      | error e => simp [hr] at h
      | ok v =>
        obtain ⟨x, m1⟩ := v
        obtain ⟨-, hm1⟩ := read_inv hr
        simp only [hr] at h
        split at h
        · obtain ⟨h1, h2, h3, h4, h5, h6⟩ := ih (j - 1) m1 j' m' h
          subst hm1
          exact ⟨h1, h2, h3, h4, by omega, fun _ => h6 (by omega)⟩
        · cases h
          subst hm1
          exact ⟨rfl, rfl, rfl, rfl, le_refl _, fun h => h⟩
    · cases h
      exact ⟨rfl, rfl, rfl, rfl, le_refl _, fun h => h⟩

/-- The upward scan moves `i` up, not above `j`, and touches neither the
vector nor the call counters. -/
theorem scanUp_inv (pivot : α) (j : Int) :
    ∀ (fuel : Nat) (i : Int) (m : Mem α) (i' : Int) (m' : Mem α),
      scanUp pivot j fuel i m = .ok (i', m') →
      m'.cells = m.cells ∧ m'.active = m.active ∧ m'.peak = m.peak ∧
        m'.draws = m.draws ∧ i ≤ i' ∧ (i ≤ j → i' ≤ j) := by
  intro fuel
  induction fuel with
  | zero =>
    intro i m i' m' h
    rw [scanUp] at h
    split at h
    · cases hr : m.read i with
      | error e => simp [hr] at h
      | ok v =>
        obtain ⟨x, m1⟩ := v
        obtain ⟨-, hm1⟩ := read_inv hr
        simp only [hr] at h
        split at h
        · cases h
        · cases h
          subst hm1
          exact ⟨rfl, rfl, rfl, rfl, le_refl _, fun h => h⟩
    · cases h
      exact ⟨rfl, rfl, rfl, rfl, le_refl _, fun h => h⟩
  | succ fuel ih =>
    intro i m i' m' h
    rw [scanUp] at h
    split at h
    · rename_i hlt
      cases hr : m.read i with
      | error e => simp [hr] at h
      | ok v =>
        obtain ⟨x, m1⟩ := v
        obtain ⟨-, hm1⟩ := read_inv hr
        simp only [hr] at h
        split at h
        · obtain ⟨h1, h2, h3, h4, h5, h6⟩ := ih (i + 1) m1 i' m' h
          subst hm1
          exact ⟨h1, h2, h3, h4, by omega, fun _ => h6 (by omega)⟩
        · cases h
          subst hm1
          exact ⟨rfl, rfl, rfl, rfl, le_refl _, fun h => h⟩
    · cases h
      exact ⟨rfl, rfl, rfl, rfl, le_refl _, fun h => h⟩

end ScanFrame

section PartitionFrame

variable {α : Type} [LinearOrder α]

/-- One more iteration of the partition loop is one run of its body. -/
theorem partLoop_succ (pivot : α) (fuel : Nat) (i j : Int) (m : Mem α) :
    partLoop pivot (fuel + 1) i j m =
      if i < j then
        match loopBody pivot (fuel + 1) i j m with
        | .error e => .error e
        | .ok (i1, j1, m3) => partLoop pivot fuel i1 j1 m3
      else .ok (i, j, m) := by
  rw [partLoop, loopBody]
  by_cases hlt : i < j
  · simp only [if_pos hlt]
    cases scanDown pivot i (fuel + 1) j m with
    | error e => rfl
    | ok v =>
      obtain ⟨j1, m1⟩ := v
      simp only []
      cases scanUp pivot j1 (fuel + 1) i m1 with
      | error e => rfl
      | ok w =>
        obtain ⟨i1, m2⟩ := w
        simp only []
        cases (if i1 < j1 then m2.swap i1 j1 else Except.ok m2) with
        | error e => rfl
        | ok m3 => rfl
  · simp only [if_neg hlt]

/-- The body of the partition loop keeps `i ≤ j`, moves `i` up and `j` down,
and touches neither the length of the vector nor the call counters. -/
theorem loopBody_inv (pivot : α) (fuel : Nat) (i j : Int) (m : Mem α)
    (i1 j1 : Int) (m3 : Mem α) (h : loopBody pivot fuel i j m = .ok (i1, j1, m3)) :
    m3.cells.length = m.cells.length ∧ m3.active = m.active ∧ m3.peak = m.peak ∧
      m3.draws = m.draws ∧ i ≤ i1 ∧ j1 ≤ j ∧ (i ≤ j → i1 ≤ j1) := by
  unfold loopBody at h
  cases h1 : scanDown pivot i fuel j m with
  | error e => simp [h1] at h
  | ok v =>
    obtain ⟨j1', m1⟩ := v
    simp only [h1] at h
    cases h2 : scanUp pivot j1' fuel i m1 with
    | error e => simp [h2] at h
    | ok w =>
      obtain ⟨i1', m2⟩ := w
      simp only [h2] at h
      obtain ⟨c1, a1, p1, d1, b1, b2⟩ := scanDown_inv pivot i fuel j m j1' m1 h1
      obtain ⟨c2, a2, p2, d2, b3, b4⟩ := scanUp_inv pivot j1' fuel i m1 i1' m2 h2
      by_cases hsw : i1' < j1'
      · simp only [if_pos hsw] at h
        cases h3 : m2.swap i1' j1' with
        | error e => simp [h3] at h
        | ok m3' =>
          simp only [h3] at h
          cases h
          obtain ⟨hlen, a3, p3, d3⟩ := swap_inv h3
          refine ⟨by rw [hlen, c2, c1], by rw [a3, a2, a1], by rw [p3, p2, p1],
            by rw [d3, d2, d1], b3, b1, fun _ => le_of_lt hsw⟩
      · simp only [if_neg hsw] at h
        cases h
        refine ⟨by rw [c2, c1], by rw [a2, a1], by rw [p2, p1], by rw [d2, d1], b3, b1,
          fun hij => b4 (b2 hij)⟩

/-- The partition loop, started with `i ≤ j`, ends with `i = j` somewhere in
between, and touches neither the length of the vector nor the call
counters. -/
theorem partLoop_inv (pivot : α) :
    ∀ (fuel : Nat) (i j : Int) (m : Mem α) (i' j' : Int) (m' : Mem α),
      partLoop pivot fuel i j m = .ok (i', j', m') →
      m'.cells.length = m.cells.length ∧ m'.active = m.active ∧ m'.peak = m.peak ∧
        m'.draws = m.draws ∧ (i ≤ j → i' = j' ∧ i ≤ i' ∧ i' ≤ j) := by
  intro fuel
  induction fuel with
  | zero =>
    intro i j m i' j' m' h
    rw [partLoop] at h
    split at h
    · cases h
    · cases h
      exact ⟨rfl, rfl, rfl, rfl, fun hij => ⟨by omega, le_refl _, hij⟩⟩
  | succ fuel ih =>
    intro i j m i' j' m' h
    rw [partLoop_succ] at h
    split at h
    · cases hb : loopBody pivot (fuel + 1) i j m with
      | error e => simp [hb] at h
      | ok v =>
        obtain ⟨i1, j1, m3⟩ := v
        simp only [hb] at h
        obtain ⟨c1, a1, p1, d1, b1, b2, b3⟩ := loopBody_inv pivot (fuel + 1) i j m i1 j1 m3 hb
        obtain ⟨c2, a2, p2, d2, b4⟩ := ih i1 j1 m3 i' j' m' h
        refine ⟨by rw [c2, c1], by rw [a2, a1], by rw [p2, p1], by rw [d2, d1], ?_⟩
        intro hij
        obtain ⟨e1, e2, e3⟩ := b4 (b3 hij)
        exact ⟨e1, by omega, by omega⟩
    · cases h
      exact ⟨rfl, rfl, rfl, rfl, fun hij => ⟨by omega, le_refl _, hij⟩⟩

/-- The partition step touches neither the length of the vector nor the call
counters. -/
theorem hoarePartition_inv (fuel : Nat) (m : Mem α) (low high i : Int) (m' : Mem α)
    (h : hoarePartition fuel m low high = .ok (i, m')) :
    m'.cells.length = m.cells.length ∧ m'.active = m.active ∧ m'.peak = m.peak ∧
      m'.draws = m.draws := by
  unfold hoarePartition at h
  cases hr : m.read low with
  | error e => simp [hr] at h
  | ok v =>
    obtain ⟨pivot, m1⟩ := v
    simp only [hr] at h
    obtain ⟨-, hm1⟩ := read_inv hr
    cases hp : partLoop pivot fuel low high m1 with
    | error e => simp [hp] at h
    | ok w =>
      obtain ⟨i1, j1, m2⟩ := w
      simp only [hp] at h
      obtain ⟨c1, a1, p1, d1, -⟩ := partLoop_inv pivot fuel low high m1 i1 j1 m2 hp
      cases hs : m2.swap low i1 with
      | error e => simp [hs] at h
      | ok m3 =>
        simp only [hs] at h
        cases h
        obtain ⟨hlen, a3, p3, d3⟩ := swap_inv hs
        subst hm1
        exact ⟨by rw [hlen, c1]; rfl, by rw [a3, a1]; rfl, by rw [p3, p1]; rfl,
          by rw [d3, d1]; rfl⟩

end PartitionFrame

section SelectFrame

variable {α : Type} [LinearOrder α]

/-- A conditional swap of `medianOfThree` touches neither the length of the
vector nor the call counters. -/
theorem swapIfLess_inv (m : Mem α) (p q : Int) (m' : Mem α)
    (h : swapIfLess m p q = .ok m') :
    m'.cells.length = m.cells.length ∧ m'.active = m.active ∧ m'.peak = m.peak ∧
      m'.draws = m.draws := by
  unfold swapIfLess at h
  cases h1 : m.read p with
  | error e => simp [h1] at h
  | ok v =>
    obtain ⟨a, m1⟩ := v
    simp only [h1] at h
    obtain ⟨-, e1⟩ := read_inv h1
    cases h2 : m1.read q with
    | error e => simp [h2] at h
    | ok w =>
      obtain ⟨b, m2⟩ := w
      simp only [h2] at h
      obtain ⟨-, e2⟩ := read_inv h2
      subst e1
      subst e2
      split at h
      · obtain ⟨c3, a3, p3, d3⟩ := swap_inv h
        exact ⟨c3, a3, p3, d3⟩
      · cases h
        exact ⟨rfl, rfl, rfl, rfl⟩

/-- The call `medianOfThree(arr, low, high)` touches neither the length of the
vector nor the call counters. -/
theorem medianOfThree_inv (m : Mem α) (low high mid : Int) (m' : Mem α)
    (h : medianOfThree m low high = .ok (mid, m')) :
    m'.cells.length = m.cells.length ∧ m'.active = m.active ∧ m'.peak = m.peak ∧
      m'.draws = m.draws := by
  unfold medianOfThree at h
  simp only [] at h
  cases h1 : swapIfLess m (low + Int.tdiv (high - low) 2) low with
  | error e => simp [h1] at h
  | ok m1 =>
    simp only [h1] at h
    cases h2 : swapIfLess m1 high low with
    | error e => simp [h2] at h
    | ok m2 =>
      simp only [h2] at h
      cases h3 : swapIfLess m2 high (low + Int.tdiv (high - low) 2) with
      | error e => simp [h3] at h
      | ok m3 =>
        simp only [h3] at h
        cases h
        obtain ⟨c1, a1, p1, d1⟩ := swapIfLess_inv _ _ _ _ h1
        obtain ⟨c2, a2, p2, d2⟩ := swapIfLess_inv _ _ _ _ h2
        obtain ⟨c3, a3, p3, d3⟩ := swapIfLess_inv _ _ _ _ h3
        exact ⟨by rw [c3, c2, c1], by rw [a3, a2, a1], by rw [p3, p2, p1],
          by rw [d3, d2, d1]⟩

/-- The pivot selection and the partition step of one iteration of the loop of
`quickSort_v2` draw one `rand()` value and touch neither the length of the
vector nor the call counters. -/
theorem selectAndPartition_inv (rnd : Nat → Nat) (fuel : Nat) (m : Mem α)
    (low high i : Int) (m' : Mem α)
    (h : selectAndPartition rnd fuel m low high = .ok (i, m')) :
    m'.cells.length = m.cells.length ∧ m'.active = m.active ∧ m'.peak = m.peak ∧
      m'.draws = m.draws + 1 := by
  unfold selectAndPartition at h
  simp only [] at h
  cases h1 : Mem.swap { m with draws := m.draws + 1 } low
      (low + Int.tmod (rnd m.draws : Int) (high - low + 1)) with
  | error e => simp [h1] at h
  | ok m1 =>
    simp only [h1] at h
    cases h2 : medianOfThree m1 low high with
    | error e => simp [h2] at h
    | ok v =>
      obtain ⟨median, m2⟩ := v
      simp only [h2] at h
      cases h3 : m2.swap low median with
      | error e => simp [h3] at h
      | ok m3 =>
        simp only [h3] at h
        obtain ⟨c1, a1, p1, d1⟩ := swap_inv h1
        obtain ⟨c2, a2, p2, d2⟩ := medianOfThree_inv _ _ _ _ _ h2
        obtain ⟨c3, a3, p3, d3⟩ := swap_inv h3
        obtain ⟨c4, a4, p4, d4⟩ := hoarePartition_inv _ _ _ _ _ _ h
        exact ⟨by rw [c4, c3, c2, c1], by rw [a4, a3, a2, a1], by rw [p4, p3, p2, p1],
          by rw [d4, d3, d2, d1]⟩

/-- One more iteration of the loop of `quickSort_v2`: the pivot selection and
the partition step, the recursive call on the first range of `smallerFirst`
and the loop on its second range. -/
theorem loop_v2_succ (rnd : Nat → Nat) (fuel : Nat) (m : Mem α) (low high : Int) :
    loop_v2 rnd (fuel + 1) m low high =
      if low < high then
        match selectAndPartition rnd (fuel + 1) m low high with
        | .error e => .error e
        | .ok (i, m4) =>
          match loop_v2 rnd fuel m4.enter (smallerFirst low high i).1.1
              (smallerFirst low high i).1.2 with
          | .error e => .error e
          | .ok m5 =>
            loop_v2 rnd fuel m5.leave (smallerFirst low high i).2.1
              (smallerFirst low high i).2.2
      else .ok m := by
  rw [loop_v2, selectAndPartition]
  by_cases hlt : low < high
  · simp only [if_pos hlt]
    cases Mem.swap { m with draws := m.draws + 1 } low
        (low + Int.tmod (rnd m.draws : Int) (high - low + 1)) with
    | error e => rfl
    | ok m1 =>
      simp only []
      cases medianOfThree m1 low high with
      | error e => rfl
      | ok v =>
        obtain ⟨median, m2⟩ := v
        simp only []
        cases m2.swap low median with
        | error e => rfl
        | ok m3 =>
          simp only []
          cases hoarePartition (fuel + 1) m3 low high with
          | error e => rfl
          | ok w =>
            obtain ⟨i, m4⟩ := w
            simp only [smallerFirst]
            by_cases hside : i - low < high - i
            · simp only [if_pos hside]
            · simp only [if_neg hside]
  · simp only [if_neg hlt]

end SelectFrame

/-! ## Depth of the recursion of the hardened variant -/

section Depth

variable {α : Type} [LinearOrder α]

/-- The pivot selection and the partition step of one iteration of the loop of
`quickSort_v2` return a split index of the range and a partitioned
rearrangement of the range. -/
theorem selectAndPartition_spec (rnd : Nat → Nat) (fuel : Nat) (m : Mem α)
    (low high : Int) (hlow : 0 ≤ low) (hlh : low ≤ high) (hhigh : high < m.cells.length)
    (hf : (high - low).toNat ≤ fuel) :
    ∃ i m' pivot, selectAndPartition rnd fuel m low high = .ok (i, m') ∧
      low ≤ i ∧ i ≤ high ∧
      RangePerm m.cells m'.cells low high ∧ LogWithin m m' low high ∧
      getI m'.cells i = some pivot ∧
      AllLe m'.cells low (i - 1) pivot ∧ AllGe m'.cells (i + 1) high pivot := by
  obtain ⟨hr1, hr2⟩ := rand_idx_bounds low high (rnd m.draws) hlh
  obtain ⟨x0, hx0⟩ := getI_defined (l := m.cells) (k := low) hlow (by omega)
  obtain ⟨y0, hy0⟩ := getI_defined (l := m.cells)
    (k := low + Int.tmod (rnd m.draws : Int) (high - low + 1)) (by omega) (by omega)
  obtain ⟨m1, hrun1, hperm1, hlog1, -⟩ :=
    swap_spec { m with draws := m.draws + 1 } low
      (low + Int.tmod (rnd m.draws : Int) (high - low + 1)) low high
      hx0 hy0 (le_refl _) hlh hr1 hr2
  have hlen1 : m1.cells.length = m.cells.length := hperm1.length_eq
  obtain ⟨m2, hrun2, hperm2, hlog2⟩ :=
    medianOfThree_spec m1 low high hlow hlh (by omega)
  have hlen2 : m2.cells.length = m1.cells.length := hperm2.length_eq
  obtain ⟨hm1, hm2⟩ := mid_bounds low high hlh
  obtain ⟨x2, hx2⟩ := getI_defined (l := m2.cells) (k := low) hlow (by omega)
  obtain ⟨y2, hy2⟩ := getI_defined (l := m2.cells)
    (k := low + Int.tdiv (high - low) 2) (by omega) (by omega)
  obtain ⟨m3, hrun3, hperm3, hlog3, -⟩ :=
    swap_spec m2 low (low + Int.tdiv (high - low) 2) low high
      hx2 hy2 (le_refl _) hlh hm1 hm2
  have hlen3 : m3.cells.length = m2.cells.length := hperm3.length_eq
  obtain ⟨i, m4, pivot, hrun4, -, hli, hih, hperm4, hlog4, hpiv, hle, hge⟩ :=
    hoarePartition_spec fuel m3 low high hlow hlh (by omega) hf
  have h01 : LogWithin m m1 low high := hlog1
  refine ⟨i, m4, pivot, ?_, hli, hih, ((hperm1.rtrans hperm2).rtrans hperm3).rtrans hperm4,
    ((h01.ltrans hlog2).ltrans hlog3).ltrans hlog4, hpiv, hle, hge⟩
  simp only [selectAndPartition, hrun1, hrun2, hrun3, hrun4]

/-- Halving the argument lowers the binary logarithm by one. -/
theorem log2_half_succ (s n : Nat) (h : 2 * s + 1 ≤ n) :
    Nat.log2 (s + 1) + 1 ≤ Nat.log2 (n + 1) := by
  rw [Nat.log2_eq_log_two, Nat.log2_eq_log_two]
  have h1 : Nat.log 2 (n + 1) = Nat.log 2 ((n + 1) / 2) + 1 :=
    Nat.log_of_one_lt_of_le (by decide) (by omega)
  rw [h1]
  have h2 : s + 1 ≤ (n + 1) / 2 := by omega
  have := Nat.log_mono_right (b := 2) h2
  omega

theorem log2_mono_succ (s n : Nat) (h : s ≤ n) : Nat.log2 (s + 1) ≤ Nat.log2 (n + 1) := by
  rw [Nat.log2_eq_log_two, Nat.log2_eq_log_two]
  exact Nat.log_mono_right (by omega)

/-- The loop of `quickSort_v2` on a range of `n` elements returns with as many
active calls as it started with, and never has more than `log2 (n + 1)` calls
active on top of them. -/
theorem loop_v2_depth (rnd : Nat → Nat) : ∀ (fuel : Nat) (m : Mem α) (low high : Int),
    0 ≤ low → high < m.cells.length → (high - low).toNat ≤ fuel →
    ∀ m', loop_v2 rnd fuel m low high = .ok m' →
      m'.cells.length = m.cells.length ∧ m'.active = m.active ∧ m.peak ≤ m'.peak ∧
        m'.peak ≤ max m.peak (m.active + Nat.log2 ((high + 1 - low).toNat + 1)) := by
  intro fuel
  induction fuel with
  | zero =>
    intro m low high hlow hhigh hf m' h
    rw [loop_v2, if_neg (by omega)] at h
    cases h
    exact ⟨rfl, rfl, le_refl _, le_max_left _ _⟩
  | succ fuel ih =>
    intro m low high hlow hhigh hf m' h
    by_cases hlt : low < high
    swap
    · rw [loop_v2, if_neg hlt] at h
      cases h
      exact ⟨rfl, rfl, le_refl _, le_max_left _ _⟩
    rw [loop_v2_succ, if_pos hlt] at h
    obtain ⟨i, m4, pivot, hrun, hli, hih, -, -, -, -, -⟩ :=
      selectAndPartition_spec rnd (fuel + 1) m low high hlow (le_of_lt hlt) hhigh hf
    obtain ⟨c4, a4, p4, -⟩ := selectAndPartition_inv rnd (fuel + 1) m low high i m4 hrun
    simp only [hrun] at h
    have hbig : 1 ≤ Nat.log2 ((high + 1 - low).toNat + 1) := by
      have := log2_half_succ 0 (high + 1 - low).toNat (by omega)
      omega
    by_cases hside : i - low < high - i
    · simp only [smallerFirst, if_pos hside] at h
      cases h5 : loop_v2 rnd fuel m4.enter low (i - 1) with
      | error e => simp [h5] at h
      | ok m5 =>
        simp only [h5] at h
        obtain ⟨c5, a5, q5, p5⟩ := ih m4.enter low (i - 1) hlow
          (by show i - 1 < ((m4.cells.length : Nat) : Int); omega) (by omega) m5 h5
        obtain ⟨c6, a6, q6, p6⟩ := ih m5.leave (i + 1) high (by omega)
          (by show high < ((m5.cells.length : Nat) : Int)
              rw [c5]
              show high < ((m4.cells.length : Nat) : Int)
              omega) (by omega) m' h
        have e5 : m5.active = m.active + 1 := by rw [a5]; show m4.active + 1 = _; rw [a4]
        have e5' : m5.leave.active = m.active := by show m5.active - 1 = _; omega
        have e5p : m5.leave.peak = m5.peak := rfl
        have e4p : m4.enter.peak = max m.peak (m.active + 1) := by
          show max m4.peak (m4.active + 1) = _; rw [a4, p4]
        have e4a : m4.enter.active = m.active + 1 := by show m4.active + 1 = _; rw [a4]
        have hr := log2_half_succ (i - 1 + 1 - low).toNat (high + 1 - low).toNat (by omega)
        have hc := log2_mono_succ (high + 1 - (i + 1)).toNat (high + 1 - low).toNat (by omega)
        rw [e4p, e4a] at p5
        rw [e4p] at q5
        rw [e5', e5p] at p6
        rw [e5p] at q6
        refine ⟨?_, by rw [a6, e5'], ?_, ?_⟩
        · rw [c6]; show m5.cells.length = _; rw [c5]; exact c4
        · have := le_max_left m.peak (m.active + 1)
          omega
        · omega
    · simp only [smallerFirst, if_neg hside] at h
      cases h5 : loop_v2 rnd fuel m4.enter (i + 1) high with
      | error e => simp [h5] at h
      | ok m5 =>
        simp only [h5] at h
        obtain ⟨c5, a5, q5, p5⟩ := ih m4.enter (i + 1) high (by omega)
          (by show high < ((m4.cells.length : Nat) : Int); omega) (by omega) m5 h5
        obtain ⟨c6, a6, q6, p6⟩ := ih m5.leave low (i - 1) hlow
          (by show i - 1 < ((m5.cells.length : Nat) : Int)
              rw [c5]
              show i - 1 < ((m4.cells.length : Nat) : Int)
              omega) (by omega) m' h
        have e5 : m5.active = m.active + 1 := by rw [a5]; show m4.active + 1 = _; rw [a4]
        have e5' : m5.leave.active = m.active := by show m5.active - 1 = _; omega
        have e5p : m5.leave.peak = m5.peak := rfl
        have e4p : m4.enter.peak = max m.peak (m.active + 1) := by
          show max m4.peak (m4.active + 1) = _; rw [a4, p4]
        have e4a : m4.enter.active = m.active + 1 := by show m4.active + 1 = _; rw [a4]
        have hr := log2_half_succ (high + 1 - (i + 1)).toNat (high + 1 - low).toNat (by omega)
        have hc := log2_mono_succ (i - 1 + 1 - low).toNat (high + 1 - low).toNat (by omega)
        rw [e4p, e4a] at p5
        rw [e4p] at q5
        rw [e5', e5p] at p6
        rw [e5p] at q6
        refine ⟨?_, by rw [a6, e5'], ?_, ?_⟩
        · rw [c6]; show m5.cells.length = _; rw [c5]; exact c4
        · have := le_max_left m.peak (m.active + 1)
          omega
        · omega

end Depth

/-! ## Median of three -/

section Median

variable {α : Type} [LinearOrder α]

/-- The statement `if (arr[p] < arr[q]) swap(arr[q], arr[p]);` leaves the
larger of the two elements at `p` and the smaller one at `q`; it reads `p` and
`q` and then swaps at most once. -/
theorem swapIfLess_exact (m : Mem α) (p q : Int) (a b : α)
    (hp : getI m.cells p = some a) (hq : getI m.cells q = some b) :
    ∃ m' s, swapIfLess m p q = .ok m' ∧
      getI m'.cells p = some (max a b) ∧ getI m'.cells q = some (min a b) ∧
      (∀ k : Int, k ≠ p → k ≠ q → getI m'.cells k = getI m.cells k) ∧
      m'.touched = m.touched ++ ([p, q] ++ s) ∧ (s = [] ∨ s = [q, p]) := by
  by_cases hlt : a < b
  · have hrun : swapIfLess m p q = .ok
        { (m.logged [p]).logged [q] with
          cells := (m.cells.set q.toNat a).set p.toNat b,
          touched := ((m.logged [p]).logged [q]).touched ++ [q, p] } := by
      rw [swapIfLess, read_ok hp]
      simp only []
      rw [read_ok (m := m.logged [p]) hq]
      simp only [if_pos hlt]
      exact swap_ok (m := (m.logged [p]).logged [q]) hq hp
    have hget := getI_set_set hq hp
    refine ⟨_, [q, p], hrun, ?_, ?_, ?_, ?_, Or.inr rfl⟩
    · show getI ((m.cells.set q.toNat a).set p.toNat b) p = _
      rw [hget, if_pos rfl, max_eq_right (le_of_lt hlt)]
    · show getI ((m.cells.set q.toNat a).set p.toNat b) q = _
      rw [hget, min_eq_left (le_of_lt hlt)]
      by_cases hqp : q = p
      · subst hqp
        rw [hp] at hq
        cases hq
        exact absurd hlt (lt_irrefl _)
      · rw [if_neg hqp, if_pos rfl]
    · intro k hk1 hk2
      show getI ((m.cells.set q.toNat a).set p.toNat b) k = _
      rw [hget, if_neg hk1, if_neg hk2]
    · simp [Mem.logged]
  · have hrun : swapIfLess m p q = .ok ((m.logged [p]).logged [q]) := by
      rw [swapIfLess, read_ok hp]
      simp only []
      rw [read_ok (m := m.logged [p]) hq]
      simp only [if_neg hlt]
    have hba : b ≤ a := le_of_not_lt hlt
    refine ⟨_, [], hrun, ?_, ?_, fun _ _ _ => rfl, ?_, Or.inl rfl⟩
    · show getI m.cells p = _
      rw [hp, max_eq_left hba]
    · show getI m.cells q = _
      rw [hq, min_eq_right hba]
    · simp [Mem.logged]

/-- The smaller and the larger of two elements are the two elements. -/
theorem pair_min_max (u v : α) : ({min u v, max u v} : Multiset α) = {u, v} := by
  rcases le_total u v with h | h
  · rw [min_eq_left h, max_eq_right h]
  · rw [min_eq_right h, max_eq_left h]
    exact Multiset.pair_comm v u

/-- Full effect of `medianOfThree(arr, low, high)`: the elements at `low`,
`mid` and `high` end in ascending order, no other position changes, and the
accesses are three comparisons, each followed by at most one swap. -/
theorem medianOfThree_exact (m : Mem α) (low high mid : Int) (hlow : 0 ≤ low)
    (hlh : low ≤ high) (hhigh : high < m.cells.length)
    (hmid : low + Int.tdiv (high - low) 2 = mid) :
    ∃ m' x y z s₁ s₂ s₃, medianOfThree m low high = .ok (mid, m') ∧
      getI m'.cells low = some x ∧ getI m'.cells mid = some y ∧
      getI m'.cells high = some z ∧ x ≤ y ∧ y ≤ z ∧
      (∀ k : Int, k ≠ low → k ≠ mid → k ≠ high → getI m'.cells k = getI m.cells k) ∧
      m'.touched =
        m.touched ++ ([mid, low] ++ s₁ ++ ([high, low] ++ s₂) ++ ([high, mid] ++ s₃)) ∧
      (s₁ = [] ∨ s₁ = [low, mid]) ∧ (s₂ = [] ∨ s₂ = [low, high]) ∧
      (s₃ = [] ∨ s₃ = [mid, high]) ∧
      (low < mid → mid < high → ∀ a b c, getI m.cells low = some a →
        getI m.cells mid = some b → getI m.cells high = some c →
        ({x, y, z} : Multiset α) = {a, b, c}) := by
  obtain ⟨hm1, hm2⟩ := mid_bounds low high hlh
  rw [hmid] at hm1 hm2
  -- first comparison: `mid` against `low`
  obtain ⟨a₁, ha₁⟩ := getI_defined (l := m.cells) (k := mid) (by omega) (by omega)
  obtain ⟨b₁, hb₁⟩ := getI_defined (l := m.cells) (k := low) (by omega) (by omega)
  obtain ⟨m1, s₁, hrun1, hp1, hq1, ho1, ht1, hs1⟩ := swapIfLess_exact m mid low a₁ b₁ ha₁ hb₁
  have hlen1 := (swapIfLess_inv m mid low m1 hrun1).1
  -- second comparison: `high` against `low`
  obtain ⟨a₂, ha₂⟩ := getI_defined (l := m1.cells) (k := high) (by omega) (by omega)
  obtain ⟨m2, s₂, hrun2, hp2, hq2, ho2, ht2, hs2⟩ :=
    swapIfLess_exact m1 high low a₂ (min a₁ b₁) ha₂ hq1
  have hlen2 := (swapIfLess_inv m1 high low m2 hrun2).1
  -- third comparison: `high` against `mid`
  obtain ⟨b₃, hb₃⟩ := getI_defined (l := m2.cells) (k := mid) (by omega) (by omega)
  obtain ⟨m3, s₃, hrun3, hp3, hq3, ho3, ht3, hs3⟩ :=
    swapIfLess_exact m2 high mid (max a₂ (min a₁ b₁)) b₃ hp2 hb₃
  obtain ⟨x, hx⟩ := getI_defined (l := m3.cells) (k := low) (by omega)
    (by rw [(swapIfLess_inv m2 high mid m3 hrun3).1]; omega)
  refine ⟨m3, x, min (max a₂ (min a₁ b₁)) b₃, max (max a₂ (min a₁ b₁)) b₃, s₁, s₂, s₃,
    ?_, hx, hq3, hp3, ?_, min_le_max, ?_, ?_, hs1, hs2, hs3, ?_⟩
  · unfold medianOfThree
    simp only [hmid, hrun1, hrun2, hrun3]
  · -- `arr[low] ≤ arr[mid]`
    by_cases hLM : low = mid
    · rw [hLM, hq3] at hx
      cases hx
      exact le_refl _
    · have hLH : low ≠ high := by omega
      rw [ho3 low hLH hLM, hq2] at hx
      cases hx
      apply le_min
      · exact le_trans (min_le_left _ _) (le_max_left _ _)
      · by_cases hMH : mid = high
        · rw [hMH, hp2] at hb₃
          cases hb₃
          exact le_trans (min_le_left _ _) (le_max_left _ _)
        · rw [ho2 mid hMH (fun h => hLM h.symm), hp1] at hb₃
          cases hb₃
          exact le_trans (min_le_right _ _) min_le_max
  · intro k hk1 hk2 hk3
    rw [ho3 k hk3 hk2, ho2 k hk3 hk1, ho1 k hk2 hk1]
  · rw [ht3, ht2, ht1]
    simp
  · intro hLM hMH a b c ha hb hc
    have hLH : low ≠ high := by omega
    have e₁ : b = a₁ := Option.some.inj (hb.symm.trans ha₁)
    subst e₁
    have e₂ : a = b₁ := Option.some.inj (ha.symm.trans hb₁)
    subst e₂
    have e₃ : c = a₂ := by
      rw [ho1 high (by omega) (by omega), hc] at ha₂
      exact Option.some.inj ha₂
    subst e₃
    have e₄ : max b a = b₃ := by
      rw [ho2 mid (by omega) (by omega), hp1] at hb₃
      exact Option.some.inj hb₃
    subst e₄
    have e₅ : min c (min b a) = x := by
      rw [ho3 low hLH (by omega), hq2] at hx
      exact Option.some.inj hx
    subst e₅
    -- the three values are obtained by three exchanges of a pair
    have e1 : ({min c (min b a), min (max c (min b a)) (max b a),
          max (max c (min b a)) (max b a)} : Multiset α) =
        {min c (min b a), max c (min b a), max b a} := by
      have := pair_min_max (max c (min b a)) (max b a)
      show min c (min b a) ::ₘ ({min (max c (min b a)) (max b a),
          max (max c (min b a)) (max b a)} : Multiset α) = _
      rw [this]
      rfl
    have e2 : ({min c (min b a), max c (min b a), max b a} : Multiset α) =
        {c, min b a, max b a} := by
      have := pair_min_max c (min b a)
      show min c (min b a) ::ₘ max c (min b a) ::ₘ ({max b a} : Multiset α) = _
      rw [show min c (min b a) ::ₘ max c (min b a) ::ₘ ({max b a} : Multiset α) =
        ({min c (min b a), max c (min b a)} : Multiset α) + {max b a} from rfl, this]
      rfl
    have e3 : ({c, min b a, max b a} : Multiset α) = {a, b, c} := by
      have := pair_min_max b a
      show c ::ₘ ({min b a, max b a} : Multiset α) = _
      rw [this]
      show c ::ₘ b ::ₘ ({a} : Multiset α) = a ::ₘ b ::ₘ ({c} : Multiset α)
      rw [Multiset.cons_swap c b, Multiset.cons_swap a b]
      congr 1
      exact Multiset.pair_comm c a
    rw [e1, e2, e3]

end Median

/-! ## Further properties of the sorts -/

section MoreClaims

variable {α : Type} [LinearOrder α]

/-- C11: logarithmic stack depth of the hardened variant.  For a range of
`n = high - low + 1` elements and every stream of `rand()` values, the largest
number of simultaneously active `quickSort_v2` calls, the outermost one
counted, is at most `floor(log2(n + 1)) + 1`; at the end no call is active. -/
theorem quickSort_v2_depth (rnd : Nat → Nat) (arr : List α) (low high : Int)
    (fuel : Nat) (hlow : 0 ≤ low) (_hlh : low ≤ high) (hhigh : high < arr.length)
    (hfuel : (high - low).toNat ≤ fuel) :
    ∃ m', quickSort_v2 rnd fuel (Mem.init arr) low high = .ok m' ∧
      m'.active = 0 ∧ 1 ≤ m'.peak ∧
      m'.peak ≤ Nat.log2 ((high - low + 1).toNat + 1) + 1 := by
  obtain ⟨m1, hrun, -, -, -⟩ :=
    loop_v2_spec rnd fuel (Mem.init arr).enter low high hlow hhigh hfuel
  obtain ⟨-, a1, q1, p1⟩ :=
    loop_v2_depth rnd fuel (Mem.init arr).enter low high hlow hhigh hfuel m1 hrun
  refine ⟨m1.leave, by simp only [quickSort_v2, hrun], ?_, ?_, ?_⟩
  · show m1.active - 1 = 0
    rw [a1]
    rfl
  · exact q1
  · have e : (high + 1 - low).toNat = (high - low + 1).toNat := by omega
    rw [e] at p1
    have hp : (Mem.init arr).enter.peak = 1 := rfl
    have ha : (Mem.init arr).enter.active = 1 := rfl
    rw [hp, ha] at p1
    show m1.peak ≤ _
    omega

/-- C11 on the sorted inputs `[1, .., 7]` and `[7, .., 1]`: for the stream
`3, 10, 17, ...` at most 3 calls are active at a time, within the bound
`floor(log2 8) + 1 = 4`. -/
theorem quickSort_v2_depth_witness :
    (quickSort_v2 (fun n => 7 * n + 3) 6 (Mem.init [(1 : Int), 2, 3, 4, 5, 6, 7]) 0 6).toOption.map
        (fun m => (m.cells, m.peak)) = some ([1, 2, 3, 4, 5, 6, 7], 3) ∧
      (quickSort_v2 (fun n => 7 * n + 3) 6 (Mem.init [(7 : Int), 6, 5, 4, 3, 2, 1]) 0 6).toOption.map
        (fun m => (m.cells, m.peak)) = some ([1, 2, 3, 4, 5, 6, 7], 3) ∧
      Nat.log2 (((6 : Int) - 0 + 1).toNat + 1) + 1 = 4 ∧
      ∃ m', quickSort_v2 (fun n => 7 * n + 3) 6 (Mem.init [(1 : Int), 2, 3, 4, 5, 6, 7]) 0 6 =
          .ok m' ∧
        m'.active = 0 ∧ 1 ≤ m'.peak ∧ m'.peak ≤ Nat.log2 (((6 : Int) - 0 + 1).toNat + 1) + 1 :=
  ⟨by decide!, by decide!, by decide!,
   quickSort_v2_depth (fun n => 7 * n + 3) [(1 : Int), 2, 3, 4, 5, 6, 7] 0 6 6
     (by decide) (by decide) (by decide) (by decide)⟩


/-- C13: smaller-first recursion.  In an iteration of the loop of
`quickSort_v2` on `low .. high` with `low < high` the split index `i` lies in
`low .. high`; the recursive call gets `low .. i-1` when `i - low < high - i`
and `i+1 .. high` otherwise, a range of at most `(high - low) / 2` elements,
and the loop goes on with the other side, a range shorter than
`low .. high`. -/
theorem loop_v2_smaller_first (rnd : Nat → Nat) (fuel : Nat) (m : Mem α)
    (low high : Int) (hlow : 0 ≤ low) (hlt : low < high) (hhigh : high < m.cells.length)
    (hfuel : (high - low).toNat ≤ fuel + 1) :
    ∃ i m4, selectAndPartition rnd (fuel + 1) m low high = .ok (i, m4) ∧
      low ≤ i ∧ i ≤ high ∧
      loop_v2 rnd (fuel + 1) m low high =
        (loop_v2 rnd fuel m4.enter (smallerFirst low high i).1.1
            (smallerFirst low high i).1.2).bind
          (fun m5 => loop_v2 rnd fuel m5.leave (smallerFirst low high i).2.1
            (smallerFirst low high i).2.2) ∧
      (i - low < high - i → smallerFirst low high i = ((low, i - 1), (i + 1, high))) ∧
      (¬ i - low < high - i → smallerFirst low high i = ((i + 1, high), (low, i - 1))) ∧
      0 ≤ (smallerFirst low high i).1.2 - (smallerFirst low high i).1.1 + 1 ∧
      (smallerFirst low high i).1.2 - (smallerFirst low high i).1.1 + 1 ≤ (high - low) / 2 ∧
      0 ≤ (smallerFirst low high i).2.2 - (smallerFirst low high i).2.1 + 1 ∧
      (smallerFirst low high i).2.2 - (smallerFirst low high i).2.1 + 1 < high - low + 1 := by
  obtain ⟨i, m4, pivot, hrun, hli, hih, -, -, -, -, -⟩ :=
    selectAndPartition_spec rnd (fuel + 1) m low high hlow (le_of_lt hlt) hhigh hfuel
  refine ⟨i, m4, hrun, hli, hih, ?_, ?_, ?_, ?_⟩
  · rw [loop_v2_succ, if_pos hlt]
    simp only [hrun]
    cases loop_v2 rnd fuel m4.enter (smallerFirst low high i).1.1
        (smallerFirst low high i).1.2 with
    | error e => rfl
    | ok m5 => rfl
  · intro h
    simp only [smallerFirst, if_pos h]
  · intro h
    simp only [smallerFirst, if_neg h]
  · by_cases h : i - low < high - i
    · simp only [smallerFirst, if_pos h]
      omega
    · simp only [smallerFirst, if_neg h]
      omega

/-- C13 at `[4, 8, 6, 2, 9, 1, 7]` with `low = 0`, `high = 6` and the stream
`3, 4, 5, ...`: the split index is 2, the recursive call gets `0 .. 1` and the
loop goes on with `3 .. 6`. -/
theorem loop_v2_smaller_first_witness :
    (selectAndPartition (fun n => n + 3) 6 (Mem.init [(4 : Int), 8, 6, 2, 9, 1, 7]) 0 6).toOption.map
        (fun r => (r.1, r.2.cells)) = some (2, [2, 1, 4, 6, 9, 8, 7]) ∧
      smallerFirst 0 6 2 = ((0, 1), (3, 6)) ∧
      ∃ i m4, selectAndPartition (fun n => n + 3) (5 + 1)
          (Mem.init [(4 : Int), 8, 6, 2, 9, 1, 7]) 0 6 = .ok (i, m4) ∧
        0 ≤ i ∧ i ≤ 6 ∧
        loop_v2 (fun n => n + 3) (5 + 1) (Mem.init [(4 : Int), 8, 6, 2, 9, 1, 7]) 0 6 =
          (loop_v2 (fun n => n + 3) 5 m4.enter (smallerFirst 0 6 i).1.1
              (smallerFirst 0 6 i).1.2).bind
            (fun m5 => loop_v2 (fun n => n + 3) 5 m5.leave (smallerFirst 0 6 i).2.1
              (smallerFirst 0 6 i).2.2) ∧
        (i - 0 < 6 - i → smallerFirst 0 6 i = ((0, i - 1), (i + 1, 6))) ∧
        (¬ i - 0 < 6 - i → smallerFirst 0 6 i = ((i + 1, 6), (0, i - 1))) ∧
        0 ≤ (smallerFirst 0 6 i).1.2 - (smallerFirst 0 6 i).1.1 + 1 ∧
        (smallerFirst 0 6 i).1.2 - (smallerFirst 0 6 i).1.1 + 1 ≤ (6 - 0) / 2 ∧
        0 ≤ (smallerFirst 0 6 i).2.2 - (smallerFirst 0 6 i).2.1 + 1 ∧
        (smallerFirst 0 6 i).2.2 - (smallerFirst 0 6 i).2.1 + 1 < 6 - 0 + 1 :=
  ⟨by decide!, by decide!,
   loop_v2_smaller_first (fun n => n + 3) 5 (Mem.init [(4 : Int), 8, 6, 2, 9, 1, 7]) 0 6
     (by decide) (by decide) (by decide) (by decide)⟩

/-- C17: the result does not depend on the random source.  Over a linear order,
for in-bounds `low` and `high` and any two streams of `rand()` values,
`quickSort_v2(arr, low, high)` ends with the same vector under both streams,
and this is the vector `quickSort_v1(arr, low, high)` ends with. -/
theorem quickSort_v2_result_unique (rnd₁ rnd₂ : Nat → Nat) (arr : List α)
    (low high : Int) (fuel : Nat) (hlow : 0 ≤ low) (hhigh : high < arr.length)
    (hfuel : (high - low).toNat ≤ fuel) :
    ∃ m₁ m₂ m₀, quickSort_v2 rnd₁ fuel (Mem.init arr) low high = .ok m₁ ∧
      quickSort_v2 rnd₂ fuel (Mem.init arr) low high = .ok m₂ ∧
      quickSort_v1 fuel (Mem.init arr) low high = .ok m₀ ∧
      m₁.cells = m₂.cells ∧ m₁.cells = m₀.cells := by
  obtain ⟨m₁, hrun₁, hperm₁, -, hs₁⟩ :=
    quickSort_v2_spec rnd₁ fuel (Mem.init arr) low high hlow hhigh hfuel
  obtain ⟨m₂, hrun₂, hperm₂, -, hs₂⟩ :=
    quickSort_v2_spec rnd₂ fuel (Mem.init arr) low high hlow hhigh hfuel
  obtain ⟨m₀, hrun₀, hperm₀, -, hs₀⟩ :=
    quickSort_v1_spec fuel (Mem.init arr) low high hlow hhigh hfuel
  have key : ∀ m : Mem α, RangePerm arr m.cells low high → SortedOn m.cells low high →
      m.cells = m₁.cells := by
    intro m hperm hs
    have e := hperm.slice_eq_of_sorted hlow hs (slice m₁.cells low high)
      (hs₁.sorted_slice hlow) (hperm₁.slice_perm hlow)
    rw [hperm.cells_eq hlow, e]
    exact (hperm₁.cells_eq hlow).symm
  exact ⟨m₁, m₂, m₀, hrun₁, hrun₂, hrun₀, (key m₂ hperm₂ hs₂).symm, (key m₀ hperm₀ hs₀).symm⟩

/-- C17 at `[9, 4, 7, 4, 1, 8]` with `low = 1`, `high = 4`, for the streams
`0, 0, ...` and `5, 12, 19, ...`. -/
theorem quickSort_v2_result_unique_witness :
    cellsOf (quickSort_v2 (fun _ => 0) 3 (Mem.init [(9 : Int), 4, 7, 4, 1, 8]) 1 4) =
        some [9, 1, 4, 4, 7, 8] ∧
      cellsOf (quickSort_v2 (fun n => 7 * n + 5) 3 (Mem.init [(9 : Int), 4, 7, 4, 1, 8]) 1 4) =
        some [9, 1, 4, 4, 7, 8] ∧
      cellsOf (quickSort_v1 3 (Mem.init [(9 : Int), 4, 7, 4, 1, 8]) 1 4) =
        some [9, 1, 4, 4, 7, 8] ∧
      ∃ m₁ m₂ m₀,
        quickSort_v2 (fun _ => 0) 3 (Mem.init [(9 : Int), 4, 7, 4, 1, 8]) 1 4 = .ok m₁ ∧
        quickSort_v2 (fun n => 7 * n + 5) 3 (Mem.init [(9 : Int), 4, 7, 4, 1, 8]) 1 4 = .ok m₂ ∧
        quickSort_v1 3 (Mem.init [(9 : Int), 4, 7, 4, 1, 8]) 1 4 = .ok m₀ ∧
        m₁.cells = m₂.cells ∧ m₁.cells = m₀.cells :=
  ⟨by decide!, by decide!, by decide!,
   quickSort_v2_result_unique (fun _ => 0) (fun n => 7 * n + 5) [(9 : Int), 4, 7, 4, 1, 8] 1 4 3
     (by decide) (by decide) (by decide)⟩

/-- C18: frame.  For `0 ≤ low ≤ high < arr.size()` and every stream of `rand()`
values both sorts leave `arr.size()` as it is and leave every element at a
position `k < low` or `k > high` as it was. -/
theorem quickSort_frame (rnd : Nat → Nat) (arr : List α) (low high : Int) (fuel : Nat)
    (hlow : 0 ≤ low) (_hlh : low ≤ high) (hhigh : high < arr.length)
    (hfuel : (high - low).toNat ≤ fuel) :
    (∃ m', quickSort_v1 fuel (Mem.init arr) low high = .ok m' ∧
        m'.cells.length = arr.length ∧
        ∀ k : Int, k < low ∨ high < k → getI m'.cells k = getI arr k) ∧
      (∃ m', quickSort_v2 rnd fuel (Mem.init arr) low high = .ok m' ∧
        m'.cells.length = arr.length ∧
        ∀ k : Int, k < low ∨ high < k → getI m'.cells k = getI arr k) := by
  constructor
  · obtain ⟨m', hrun, hperm, -, -⟩ :=
      quickSort_v1_spec fuel (Mem.init arr) low high hlow hhigh hfuel
    exact ⟨m', hrun, hperm.length_eq, hperm.outside⟩
  · obtain ⟨m', hrun, hperm, -, -⟩ :=
      quickSort_v2_spec rnd fuel (Mem.init arr) low high hlow hhigh hfuel
    exact ⟨m', hrun, hperm.length_eq, hperm.outside⟩

/-- C18 at `[9, 4, 7, 4, 1, 8]` with `low = 2`, `high = 4`: the positions 0, 1
and 5 keep 9, 4 and 8. -/
theorem quickSort_frame_witness :
    cellsOf (quickSort_v1 2 (Mem.init [(9 : Int), 4, 7, 4, 1, 8]) 2 4) =
        some [9, 4, 1, 4, 7, 8] ∧
      cellsOf (quickSort_v2 (fun n => 2 * n) 2 (Mem.init [(9 : Int), 4, 7, 4, 1, 8]) 2 4) =
        some [9, 4, 1, 4, 7, 8] ∧
      (∃ m', quickSort_v1 2 (Mem.init [(9 : Int), 4, 7, 4, 1, 8]) 2 4 = .ok m' ∧
        m'.cells.length = [(9 : Int), 4, 7, 4, 1, 8].length ∧
        ∀ k : Int, k < 2 ∨ 4 < k → getI m'.cells k = getI [(9 : Int), 4, 7, 4, 1, 8] k) ∧
      (∃ m', quickSort_v2 (fun n => 2 * n) 2 (Mem.init [(9 : Int), 4, 7, 4, 1, 8]) 2 4 =
          .ok m' ∧
        m'.cells.length = [(9 : Int), 4, 7, 4, 1, 8].length ∧
        ∀ k : Int, k < 2 ∨ 4 < k → getI m'.cells k = getI [(9 : Int), 4, 7, 4, 1, 8] k) :=
  ⟨by decide!, by decide!,
   quickSort_frame (fun n => 2 * n) [(9 : Int), 4, 7, 4, 1, 8] 2 4 2
     (by decide) (by decide) (by decide) (by decide)⟩


end MoreClaims

section MedianClaim

variable {α : Type} [LinearOrder α]

/-- C12: median-of-three postcondition.  For `0 ≤ low ≤ high < arr.size()` the
call `medianOfThree(arr, low, high)` returns `mid = low + (high - low) / 2` with
`low ≤ mid ≤ high`, leaves `arr[low] ≤ arr[mid] ≤ arr[high]`, changes no
position other than `low`, `mid` and `high`, permutes the vector, and its
accesses are three comparisons each followed by at most one swap; when the
three positions differ, the three values afterwards are the three values
before, so `arr[mid]` is their median. -/
theorem medianOfThree_median (arr : List α) (low high : Int) (hlow : 0 ≤ low)
    (hlh : low ≤ high) (hhigh : high < arr.length) :
    ∃ m' x y z s₁ s₂ s₃,
      medianOfThree (Mem.init arr) low high = .ok (low + Int.tdiv (high - low) 2, m') ∧
      low ≤ low + Int.tdiv (high - low) 2 ∧ low + Int.tdiv (high - low) 2 ≤ high ∧
      getI m'.cells low = some x ∧
      getI m'.cells (low + Int.tdiv (high - low) 2) = some y ∧
      getI m'.cells high = some z ∧ x ≤ y ∧ y ≤ z ∧
      m'.cells.length = arr.length ∧ m'.cells.Perm arr ∧
      (∀ k : Int, k ≠ low → k ≠ low + Int.tdiv (high - low) 2 → k ≠ high →
        getI m'.cells k = getI arr k) ∧
      m'.touched =
        [low + Int.tdiv (high - low) 2, low] ++ s₁ ++ ([high, low] ++ s₂) ++
          ([high, low + Int.tdiv (high - low) 2] ++ s₃) ∧
      (s₁ = [] ∨ s₁ = [low, low + Int.tdiv (high - low) 2]) ∧
      (s₂ = [] ∨ s₂ = [low, high]) ∧
      (s₃ = [] ∨ s₃ = [low + Int.tdiv (high - low) 2, high]) ∧
      (low < low + Int.tdiv (high - low) 2 → low + Int.tdiv (high - low) 2 < high →
        ∀ a b c, getI arr low = some a →
          getI arr (low + Int.tdiv (high - low) 2) = some b → getI arr high = some c →
          ({x, y, z} : Multiset α) = {a, b, c}) := by
  obtain ⟨hm1, hm2⟩ := mid_bounds low high hlh
  obtain ⟨m', x, y, z, s₁, s₂, s₃, hrun, hx, hy, hz, hxy, hyz, hout, hlog, h1, h2, h3, hms⟩ :=
    medianOfThree_exact (Mem.init arr) low high _ hlow hlh hhigh rfl
  obtain ⟨m'', hrun', hperm, -⟩ := medianOfThree_spec (Mem.init arr) low high hlow hlh hhigh
  have e : m'' = m' := by
    rw [hrun] at hrun'
    cases hrun'
    rfl
  subst e
  refine ⟨m'', x, y, z, s₁, s₂, s₃, hrun, hm1, hm2, hx, hy, hz, hxy, hyz, hperm.length_eq,
    hperm.perm, hout, ?_, h1, h2, h3, hms⟩
  rw [hlog]
  simp [Mem.init]

/-- C12 at `[9, 5, 7, 8, 1, 3, 0]` with `low = 1`, `high = 5`: `mid` is 3, the
elements 5, 8, 3 at the positions 1, 3, 5 become 3, 5, 8 by two swaps. -/
theorem medianOfThree_median_witness :
    (medianOfThree (Mem.init [(9 : Int), 5, 7, 8, 1, 3, 0]) 1 5).toOption.map
        (fun r => (r.1, r.2.cells, r.2.touched)) =
        some (3, [9, 3, 7, 5, 1, 8, 0], [3, 1, 5, 1, 1, 5, 5, 3, 3, 5]) ∧
      ∃ m' x y z s₁ s₂ s₃,
        medianOfThree (Mem.init [(9 : Int), 5, 7, 8, 1, 3, 0]) 1 5 =
          .ok (1 + Int.tdiv (5 - 1) 2, m') ∧
        (1 : Int) ≤ 1 + Int.tdiv (5 - 1) 2 ∧ 1 + Int.tdiv (5 - 1) 2 ≤ (5 : Int) ∧
        getI m'.cells 1 = some x ∧
        getI m'.cells (1 + Int.tdiv (5 - 1) 2) = some y ∧
        getI m'.cells 5 = some z ∧ x ≤ y ∧ y ≤ z ∧
        m'.cells.length = [(9 : Int), 5, 7, 8, 1, 3, 0].length ∧
        m'.cells.Perm [(9 : Int), 5, 7, 8, 1, 3, 0] ∧
        (∀ k : Int, k ≠ 1 → k ≠ 1 + Int.tdiv (5 - 1) 2 → k ≠ 5 →
          getI m'.cells k = getI [(9 : Int), 5, 7, 8, 1, 3, 0] k) ∧
        m'.touched =
          [1 + Int.tdiv (5 - 1) 2, 1] ++ s₁ ++ ([5, 1] ++ s₂) ++
            ([5, 1 + Int.tdiv (5 - 1) 2] ++ s₃) ∧
        (s₁ = [] ∨ s₁ = [1, 1 + Int.tdiv (5 - 1) 2]) ∧
        (s₂ = [] ∨ s₂ = [1, 5]) ∧
        (s₃ = [] ∨ s₃ = [1 + Int.tdiv (5 - 1) 2, 5]) ∧
        ((1 : Int) < 1 + Int.tdiv (5 - 1) 2 → 1 + Int.tdiv (5 - 1) 2 < (5 : Int) →
          ∀ a b c, getI [(9 : Int), 5, 7, 8, 1, 3, 0] 1 = some a →
            getI [(9 : Int), 5, 7, 8, 1, 3, 0] (1 + Int.tdiv (5 - 1) 2) = some b →
            getI [(9 : Int), 5, 7, 8, 1, 3, 0] 5 = some c →
            ({x, y, z} : Multiset Int) = {a, b, c}) :=
  ⟨by decide!,
   medianOfThree_median [(9 : Int), 5, 7, 8, 1, 3, 0] 1 5 (by decide) (by decide) (by decide)⟩

end MedianClaim

/-! ## More fuel does not change a result -/

section FuelMono

variable {α : Type} [LinearOrder α]

theorem scanDown_fuel_mono (pivot : α) (i : Int) :
    ∀ (fuel : Nat) (j : Int) (m : Mem α) (r : Int × Mem α),
      scanDown pivot i fuel j m = .ok r →
      ∀ fuel', fuel ≤ fuel' → scanDown pivot i fuel' j m = .ok r := by
  intro fuel
  induction fuel with
  | zero =>
    intro j m r h fuel' _
    cases fuel' with
    | zero => exact h
    | succ f =>
      rw [scanDown] at h ⊢
      by_cases hlt : i < j
      · simp only [if_pos hlt] at h ⊢
        cases hr : m.read j with
        | error e => simp [hr] at h
        | ok v =>
          obtain ⟨x, m1⟩ := v
          simp only [hr] at h ⊢
          by_cases hge : x ≥ pivot
          · simp only [if_pos hge] at h
            cases h
          · simp only [if_neg hge] at h ⊢
            exact h
      · simp only [if_neg hlt] at h ⊢
        exact h
  | succ fuel ih =>
    intro j m r h fuel' hle
    cases fuel' with
    | zero => omega
    | succ f =>
      rw [scanDown] at h ⊢
      by_cases hlt : i < j
      · simp only [if_pos hlt] at h ⊢
        cases hr : m.read j with
        | error e => simp [hr] at h
        | ok v =>
          obtain ⟨x, m1⟩ := v
          simp only [hr] at h ⊢
          by_cases hge : x ≥ pivot
          · simp only [if_pos hge] at h ⊢
            exact ih (j - 1) m1 r h f (by omega)
          · simp only [if_neg hge] at h ⊢
            exact h
      · simp only [if_neg hlt] at h ⊢
        exact h

theorem scanUp_fuel_mono (pivot : α) (j : Int) :
    ∀ (fuel : Nat) (i : Int) (m : Mem α) (r : Int × Mem α),
      scanUp pivot j fuel i m = .ok r →
      ∀ fuel', fuel ≤ fuel' → scanUp pivot j fuel' i m = .ok r := by
  intro fuel
  induction fuel with
  | zero =>
    intro i m r h fuel' _
    cases fuel' with
    | zero => exact h
    | succ f =>
      rw [scanUp] at h ⊢
      by_cases hlt : i < j
      · simp only [if_pos hlt] at h ⊢
        cases hr : m.read i with
        | error e => simp [hr] at h
        | ok v =>
          obtain ⟨x, m1⟩ := v
          simp only [hr] at h ⊢
          by_cases hle : x ≤ pivot
          · simp only [if_pos hle] at h
            cases h
          · simp only [if_neg hle] at h ⊢
            exact h
      · simp only [if_neg hlt] at h ⊢
        exact h
  | succ fuel ih =>
    intro i m r h fuel' hle'
    cases fuel' with
    | zero => omega
    | succ f =>
      rw [scanUp] at h ⊢
      by_cases hlt : i < j
      · simp only [if_pos hlt] at h ⊢
        cases hr : m.read i with
        | error e => simp [hr] at h
        | ok v =>
          obtain ⟨x, m1⟩ := v
          simp only [hr] at h ⊢
          by_cases hle : x ≤ pivot
          · simp only [if_pos hle] at h ⊢
            exact ih (i + 1) m1 r h f (by omega)
          · simp only [if_neg hle] at h ⊢
            exact h
      · simp only [if_neg hlt] at h ⊢
        exact h

theorem loopBody_fuel_mono (pivot : α) (fuel : Nat) (i j : Int) (m : Mem α)
    (r : Int × Int × Mem α) (h : loopBody pivot fuel i j m = .ok r)
    (fuel' : Nat) (hle : fuel ≤ fuel') : loopBody pivot fuel' i j m = .ok r := by
  unfold loopBody at h ⊢
  cases h1 : scanDown pivot i fuel j m with
  | error e => simp [h1] at h
  | ok v =>
    obtain ⟨j1, m1⟩ := v
    simp only [h1] at h
    rw [scanDown_fuel_mono pivot i fuel j m _ h1 fuel' hle]
    simp only []
    cases h2 : scanUp pivot j1 fuel i m1 with
    | error e => simp [h2] at h
    | ok w =>
      obtain ⟨i1, m2⟩ := w
      simp only [h2] at h
      rw [scanUp_fuel_mono pivot j1 fuel i m1 _ h2 fuel' hle]
      exact h

theorem partLoop_fuel_mono (pivot : α) :
    ∀ (fuel : Nat) (i j : Int) (m : Mem α) (r : Int × Int × Mem α),
      partLoop pivot fuel i j m = .ok r →
      ∀ fuel', fuel ≤ fuel' → partLoop pivot fuel' i j m = .ok r := by
  intro fuel
  induction fuel with
  | zero =>
    intro i j m r h fuel' _
    cases fuel' with
    | zero => exact h
    | succ f =>
      rw [partLoop] at h
      rw [partLoop_succ]
      by_cases hlt : i < j
      · simp only [if_pos hlt] at h
        cases h
      · simp only [if_neg hlt] at h ⊢
        exact h
  | succ fuel ih =>
    intro i j m r h fuel' hle
    cases fuel' with
    | zero => omega
    | succ f =>
      rw [partLoop_succ] at h ⊢
      by_cases hlt : i < j
      · simp only [if_pos hlt] at h ⊢
        cases hb : loopBody pivot (fuel + 1) i j m with
        | error e => simp [hb] at h
        | ok v =>
          obtain ⟨i1, j1, m3⟩ := v
          simp only [hb] at h
          rw [loopBody_fuel_mono pivot (fuel + 1) i j m _ hb (f + 1) hle]
          simp only []
          exact ih i1 j1 m3 r h f (by omega)
      · simp only [if_neg hlt] at h ⊢
        exact h

theorem hoarePartition_fuel_mono (fuel : Nat) (m : Mem α) (low high : Int)
    (r : Int × Mem α) (h : hoarePartition fuel m low high = .ok r)
    (fuel' : Nat) (hle : fuel ≤ fuel') : hoarePartition fuel' m low high = .ok r := by
  unfold hoarePartition at h ⊢
  cases hr : m.read low with
  | error e => simp [hr] at h
  | ok v =>
    obtain ⟨pivot, m1⟩ := v
    simp only [hr] at h ⊢
    cases hp : partLoop pivot fuel low high m1 with
    | error e => simp [hp] at h
    | ok w =>
      simp only [hp] at h
      rw [partLoop_fuel_mono pivot fuel low high m1 _ hp fuel' hle]
      exact h

/-- With `low ≤ high` the loop ends with `i = j`, so the terminal swap with
`arr[j]` is the terminal swap with `arr[i]`. -/
theorem hoarePartition_swapJ_eq (fuel : Nat) (m : Mem α) (low high : Int)
    (hlh : low ≤ high) :
    hoarePartition_swapJ fuel m low high = hoarePartition fuel m low high := by
  unfold hoarePartition_swapJ hoarePartition
  cases hr : m.read low with
  | error e => rfl
  | ok v =>
    obtain ⟨pivot, m1⟩ := v
    simp only []
    cases hp : partLoop pivot fuel low high m1 with
    | error e => rfl
    | ok w =>
      obtain ⟨i, j, m2⟩ := w
      obtain ⟨-, -, -, -, hmeet⟩ := partLoop_inv pivot fuel low high m1 i j m2 hp
      obtain ⟨hij, -, -⟩ := hmeet hlh
      subst hij
      rfl

end FuelMono

section SwapTarget

variable {α : Type} [LinearOrder α]

/-- Whenever the partition step returns, whatever the fuel, its result has the
pivot at the split index and is partitioned around it. -/
theorem hoarePartition_result (fuel : Nat) (m : Mem α) (low high i : Int) (m' : Mem α)
    (p : α) (hlow : 0 ≤ low) (hlh : low ≤ high) (hhigh : high < m.cells.length)
    (hp : getI m.cells low = some p) (h : hoarePartition fuel m low high = .ok (i, m')) :
    low ≤ i ∧ i ≤ high ∧ getI m'.cells i = some p ∧
      AllLe m'.cells low (i - 1) p ∧ AllGe m'.cells (i + 1) high p ∧
      RangePerm m.cells m'.cells low high := by
  have h' := hoarePartition_fuel_mono fuel m low high _ h (max fuel (high - low).toNat)
    (le_max_left _ _)
  obtain ⟨i₀, m₀, pivot, hrun, hpiv0, hli, hih, hperm, -, hpiv, hle, hge⟩ :=
    hoarePartition_spec (max fuel (high - low).toNat) m low high hlow hlh hhigh
      (le_max_right _ _)
  rw [hrun] at h'
  cases h'
  rw [hp] at hpiv0
  cases hpiv0
  exact ⟨hli, hih, hpiv, hle, hge, hperm⟩

/-- C14, as amended: with the scans of lines 35 and 37, both guarded by
`i < j`, the loop ends with `i = j`; so for `0 ≤ low < high < arr.size()` the
partition step with the terminal swap `swap(arr[low], arr[j])` gives the same
result as the one with `swap(arr[low], arr[i])`, and whenever it returns, the
pivot is in its slot `j` and the range is partitioned around it. -/
theorem hoarePartition_swapJ_same (arr : List α) (low high : Int) (fuel : Nat)
    (hlow : 0 ≤ low) (hlt : low < high) (hhigh : high < arr.length) :
    hoarePartition_swapJ fuel (Mem.init arr) low high =
        hoarePartition fuel (Mem.init arr) low high ∧
      ∀ (j : Int) (m' : Mem α) (p : α),
        hoarePartition_swapJ fuel (Mem.init arr) low high = .ok (j, m') →
        getI arr low = some p →
        low ≤ j ∧ j ≤ high ∧ getI m'.cells j = some p ∧
          (∀ k x, low ≤ k → k ≤ j - 1 → getI m'.cells k = some x → x ≤ p) ∧
          (∀ k x, j + 1 ≤ k → k ≤ high → getI m'.cells k = some x → p ≤ x) := by
  have heq := hoarePartition_swapJ_eq fuel (Mem.init arr) low high (le_of_lt hlt)
  refine ⟨heq, ?_⟩
  intro j m' p hrun hp
  rw [heq] at hrun
  obtain ⟨h1, h2, h3, h4, h5, -⟩ :=
    hoarePartition_result fuel (Mem.init arr) low high j m' p hlow (le_of_lt hlt) hhigh hp hrun
  exact ⟨h1, h2, h3, h4, h5⟩

/-- The amended C14 at `[5, 9, 1, 5, 3]` with `low = 0`, `high = 4`: both
terminal swaps give the split index 2 and `[1, 3, 5, 5, 9]`. -/
theorem hoarePartition_swapJ_same_witness :
    (hoarePartition_swapJ 4 (Mem.init [(5 : Int), 9, 1, 5, 3]) 0 4).toOption.map
        (fun r => (r.1, r.2.cells)) = some (2, [1, 3, 5, 5, 9]) ∧
      hoarePartition_swapJ 4 (Mem.init [(5 : Int), 9, 1, 5, 3]) 0 4 =
        hoarePartition 4 (Mem.init [(5 : Int), 9, 1, 5, 3]) 0 4 ∧
      ∀ (j : Int) (m' : Mem Int) (p : Int),
        hoarePartition_swapJ 4 (Mem.init [(5 : Int), 9, 1, 5, 3]) 0 4 = .ok (j, m') →
        getI [(5 : Int), 9, 1, 5, 3] 0 = some p →
        0 ≤ j ∧ j ≤ 4 ∧ getI m'.cells j = some p ∧
          (∀ k x, 0 ≤ k → k ≤ j - 1 → getI m'.cells k = some x → x ≤ p) ∧
          (∀ k x, j + 1 ≤ k → k ≤ 4 → getI m'.cells k = some x → p ≤ x) :=
  ⟨by decide!,
   hoarePartition_swapJ_same [(5 : Int), 9, 1, 5, 3] 0 4 4 (by decide) (by decide) (by decide)⟩

/-- C14 as stated is false: there is no element type, vector, in-bounds
`low < high` and fuel for which the partition step with the terminal swap
`swap(arr[low], arr[j])` differs from the one with `swap(arr[low], arr[i])`, or
returns with an element greater than the pivot in the slot `j` of the pivot. -/
theorem hoarePartition_swapJ_no_bad_input :
    ¬ ∃ (β : Type) (_ : LinearOrder β) (arr : List β) (low high : Int) (fuel : Nat),
      0 ≤ low ∧ low < high ∧ high < arr.length ∧
      (hoarePartition_swapJ fuel (Mem.init arr) low high ≠
          hoarePartition fuel (Mem.init arr) low high ∨
        ∃ (j : Int) (m' : Mem β) (p x : β),
          hoarePartition_swapJ fuel (Mem.init arr) low high = .ok (j, m') ∧
          getI arr low = some p ∧ getI m'.cells j = some x ∧ p < x) := by
  rintro ⟨β, inst, arr, low, high, fuel, hlow, hlt, hhigh, hne | ⟨j, m', p, x, hrun, hp, hx, hpx⟩⟩
  · exact hne (hoarePartition_swapJ_eq fuel (Mem.init arr) low high (le_of_lt hlt))
  · rw [hoarePartition_swapJ_eq fuel (Mem.init arr) low high (le_of_lt hlt)] at hrun
    obtain ⟨-, -, h3, -, -, -⟩ :=
      hoarePartition_result fuel (Mem.init arr) low high j m' p hlow (le_of_lt hlt) hhigh hp hrun
    rw [h3] at hx
    cases hx
    exact lt_irrefl _ hpx

end SwapTarget

section PointersMeet

variable {α : Type} [LinearOrder α]

/-- Every state in which the loop condition is evaluated has `i ≤ j` between
the start values. -/
theorem loopHead_bounds (pivot : α) (i₀ j₀ : Int) (m₀ : Mem α) (h₀ : i₀ ≤ j₀)
    (i j : Int) (m : Mem α) (h : LoopHead pivot i₀ j₀ m₀ i j m) :
    i₀ ≤ i ∧ i ≤ j ∧ j ≤ j₀ := by
  induction h with
  | start => exact ⟨le_refl _, h₀, le_refl _⟩
  | step fuel _ hlt hbody ih =>
    obtain ⟨-, -, -, -, b1, b2, b3⟩ := loopBody_inv pivot fuel _ _ _ _ _ _ hbody
    have := b3 (le_of_lt hlt)
    omega

/-- The state the partition loop returns is one in which the loop condition
was evaluated. -/
theorem partLoop_loopHead (pivot : α) (i₀ j₀ : Int) (m₀ : Mem α) :
    ∀ (fuel : Nat) (i j : Int) (m : Mem α) (i' j' : Int) (m' : Mem α),
      LoopHead pivot i₀ j₀ m₀ i j m → partLoop pivot fuel i j m = .ok (i', j', m') →
      LoopHead pivot i₀ j₀ m₀ i' j' m' := by
  intro fuel
  induction fuel with
  | zero =>
    intro i j m i' j' m' hh h
    rw [partLoop] at h
    split at h
    · cases h
    · cases h
      exact hh
  | succ fuel ih =>
    intro i j m i' j' m' hh h
    rw [partLoop_succ] at h
    by_cases hlt : i < j
    · simp only [if_pos hlt] at h
      cases hb : loopBody pivot (fuel + 1) i j m with
      | error e => simp [hb] at h
      | ok v =>
        obtain ⟨i1, j1, m3⟩ := v
        simp only [hb] at h
        exact ih i1 j1 m3 i' j' m' (LoopHead.step (fuel + 1) hh hlt hb) h
    · simp only [if_neg hlt] at h
      cases h
      exact hh

/-- C15: pointers meet.  For `0 ≤ low < high < arr.size()` and the pivot
`arr[low]`, every state in which the condition of the loop `while (i < j)` of
the partition step is evaluated has `low ≤ i ≤ j ≤ high` (inside the body the
downward scan stops at or above `i` and the upward scan at or below `j`), and
the loop ends in such a state with `i = j` and `arr[i] ≤ pivot`. -/
theorem partLoop_pointers_meet (m : Mem α) (low high : Int) (fuel : Nat)
    (hlow : 0 ≤ low) (hlt : low < high) (hhigh : high < m.cells.length)
    (hfuel : (high - low).toNat ≤ fuel) :
    ∃ pivot, getI m.cells low = some pivot ∧
      (∀ (i j : Int) (s : Mem α), LoopHead pivot low high (m.logged [low]) i j s →
        low ≤ i ∧ i ≤ j ∧ j ≤ high) ∧
      (∀ (f : Nat) (i j i1 j1 : Int) (s s3 : Mem α), i ≤ j →
        loopBody pivot f i j s = .ok (i1, j1, s3) → i ≤ i1 ∧ i1 ≤ j1 ∧ j1 ≤ j) ∧
      ∃ i m', partLoop pivot fuel low high (m.logged [low]) = .ok (i, i, m') ∧
        LoopHead pivot low high (m.logged [low]) i i m' ∧
        low ≤ i ∧ i ≤ high ∧ ∃ x, getI m'.cells i = some x ∧ x ≤ pivot := by
  obtain ⟨pivot, hpiv⟩ := getI_defined (l := m.cells) (k := low) hlow (by omega)
  obtain ⟨i, m', hrun, hli, hih, hperm, -, -, hle, -⟩ :=
    partLoop_spec pivot low high fuel low high (m.logged [low]) hlow hhigh
      (le_refl _) (le_of_lt hlt) (le_refl _) hfuel hpiv
      (by
        intro k x hk1 hk2 hx
        have hk : k = low := by omega
        subst hk
        rw [show (m.logged [k]).cells = m.cells from rfl, hpiv] at hx
        cases hx
        exact le_refl _)
      (by
        intro k x hk1 hk2 _
        omega)
  have hlen : m'.cells.length = m.cells.length := hperm.length_eq
  obtain ⟨x, hx⟩ := getI_defined (l := m'.cells) (k := i) (by omega) (by omega)
  refine ⟨pivot, hpiv, ?_, ?_, i, m', hrun, ?_, hli, hih, x, hx, hle i x hli (le_refl _) hx⟩
  · intro i j s hs
    exact loopHead_bounds pivot low high _ (le_of_lt hlt) i j s hs
  · intro f i j i1 j1 s s3 hij hbody
    obtain ⟨-, -, -, -, b1, b2, b3⟩ := loopBody_inv pivot f i j s i1 j1 s3 hbody
    exact ⟨b1, b3 hij, b2⟩
  · exact partLoop_loopHead pivot low high _ fuel low high _ i i m' LoopHead.start hrun

/-- C15 at `[5, 9, 1, 5, 3]` with `low = 0`, `high = 4`: the loop ends with
`i = j = 2`. -/
theorem partLoop_pointers_meet_witness :
    (partLoop 5 4 0 4 ((Mem.init [(5 : Int), 9, 1, 5, 3]).logged [0])).toOption.map
        (fun r => (r.1, r.2.1, r.2.2.cells)) = some (2, 2, [5, 3, 1, 5, 9]) ∧
      ∃ pivot, getI (Mem.init [(5 : Int), 9, 1, 5, 3]).cells 0 = some pivot ∧
        (∀ (i j : Int) (s : Mem Int),
          LoopHead pivot 0 4 ((Mem.init [(5 : Int), 9, 1, 5, 3]).logged [0]) i j s →
          0 ≤ i ∧ i ≤ j ∧ j ≤ 4) ∧
        (∀ (f : Nat) (i j i1 j1 : Int) (s s3 : Mem Int), i ≤ j →
          loopBody pivot f i j s = .ok (i1, j1, s3) → i ≤ i1 ∧ i1 ≤ j1 ∧ j1 ≤ j) ∧
        ∃ i m', partLoop pivot 4 0 4 ((Mem.init [(5 : Int), 9, 1, 5, 3]).logged [0]) =
            .ok (i, i, m') ∧
          LoopHead pivot 0 4 ((Mem.init [(5 : Int), 9, 1, 5, 3]).logged [0]) i i m' ∧
          0 ≤ i ∧ i ≤ 4 ∧ ∃ x, getI m'.cells i = some x ∧ x ≤ pivot :=
  ⟨by decide!,
   partLoop_pointers_meet (Mem.init [(5 : Int), 9, 1, 5, 3]) 0 4 4
     (by decide) (by decide) (by decide) (by decide)⟩

end PointersMeet

/-! ## The plain variant on a sorted range -/

section SortedInput

variable {α : Type} [LinearOrder α]

omit [LinearOrder α] in
theorem eq_of_getI_eq {l l' : List α} (h : ∀ k : Int, getI l' k = getI l k) : l' = l := by
  apply List.ext_getElem?
  intro n
  rw [← getI_natCast, ← getI_natCast]
  exact h n

/-- When no element of `low+1 .. high` is below the pivot `arr[low]`, the
partition step returns the split index `low` and leaves the vector as it
is. -/
theorem hoarePartition_min_pivot (fuel : Nat) (m : Mem α) (low high : Int) (p : α)
    (hlow : 0 ≤ low) (hlh : low ≤ high) (hhigh : high < m.cells.length)
    (hf : (high - low).toNat ≤ fuel) (hp : getI m.cells low = some p)
    (hge : AllGe m.cells (low + 1) high p) :
    ∃ m', hoarePartition fuel m low high = .ok (low, m') ∧ m'.cells = m.cells := by
  -- the downward scan runs down to `low`
  obtain ⟨j', m1, hrun1, hc1, -, hj1, hj2, -, hstop⟩ :=
    scanDown_spec p low fuel high (m.logged [low]) hlow hlh hhigh hf
  have hj : j' = low := by
    rcases hstop with h | ⟨x, hx, hxp⟩
    · exact h
    · by_contra hne
      exact absurd (hge j' x (by omega) hj2 hx) (not_le_of_lt hxp)
  rw [hj] at hrun1
  have hloop : partLoop p fuel low high (m.logged [low]) = .ok (low, low, m1) := by
    by_cases hlt : low < high
    · cases fuel with
      | zero => omega
      | succ f =>
        rw [partLoop_succ, if_pos hlt, loopBody, hrun1]
        simp only []
        rw [scanUp.eq_def, if_neg (lt_irrefl _)]
        simp only [if_neg (lt_irrefl low)]
        rw [partLoop.eq_def, if_neg (lt_irrefl _)]
    · have he : high = low := by omega
      rw [he] at hrun1 ⊢
      rw [scanDown.eq_def, if_neg (lt_irrefl _)] at hrun1
      cases hrun1
      rw [partLoop.eq_def, if_neg (lt_irrefl _)]
  have hp1 : getI m1.cells low = some p := by rw [hc1]; exact hp
  refine ⟨{ m1 with cells := (m1.cells.set low.toNat p).set low.toNat p,
                    touched := m1.touched ++ [low, low] }, ?_, ?_⟩
  · rw [hoarePartition, read_ok hp]
    simp only [hloop]
    rw [swap_ok hp1 hp1]
  · show (m1.cells.set low.toNat p).set low.toNat p = m.cells
    apply eq_of_getI_eq
    intro k
    rw [getI_set_set hp1 hp1 k]
    by_cases hk : k = low
    · rw [if_pos hk, hk, hp]
    · rw [if_neg hk, if_neg hk, hc1]
      rfl

/-- In a sorted range no element is below the first one. -/
theorem SortedOn.first_le {l : List α} {lo hi : Int} (hs : SortedOn l lo hi)
    (hlo : 0 ≤ lo) (hhi : hi < l.length) (p : α) (hp : getI l lo = some p) :
    AllGe l lo hi p := by
  have key : ∀ (d : Nat) (x : α), lo + d ≤ hi → getI l (lo + d) = some x → p ≤ x := by
    intro d
    induction d with
    | zero =>
      intro x _ hx
      rw [show lo + ((0 : Nat) : Int) = lo by omega, hp] at hx
      cases hx
      exact le_refl _
    | succ d ih =>
      intro x hb hx
      obtain ⟨y, hy⟩ := getI_defined (l := l) (k := lo + d) (by omega) (by omega)
      have h1 := ih y (by omega) hy
      have h2 := hs (lo + d) y x (by omega) (by omega) hy
        (by rw [show lo + (d : Int) + 1 = lo + ((d + 1 : Nat) : Int) by omega]; exact hx)
      exact le_trans h1 h2
  intro k x hk1 hk2 hx
  have := key (k - lo).toNat x (by omega)
    (by rw [show lo + ((k - lo).toNat : Int) = k by omega]; exact hx)
  exact this

/-- On a sorted range of `n ≥ 1` elements `quickSort_v1` changes nothing and
has `n` calls active at its deepest point. -/
theorem quickSort_v1_sorted_run : ∀ (fuel : Nat) (m : Mem α) (low high : Int),
    0 ≤ low → low ≤ high → high < m.cells.length → (high - low).toNat ≤ fuel →
    SortedOn m.cells low high →
    ∃ m', quickSort_v1 fuel m low high = .ok m' ∧ m'.cells = m.cells ∧
      m'.active = m.active ∧
      m'.peak = max m.peak (m.active + (high - low + 1).toNat) := by
  intro fuel
  induction fuel with
  | zero =>
    intro m low high hlow hlh hhigh hf _
    have he : high = low := by omega
    subst he
    refine ⟨m.enter.leave, by rw [quickSort_v1, if_pos (le_refl _)], rfl, rfl, ?_⟩
    show max m.peak (m.active + 1) = _
    rw [show (high - high + 1).toNat = 1 by omega]
  | succ fuel ih =>
    intro m low high hlow hlh hhigh hf hs
    by_cases hge : low ≥ high
    · have he : high = low := by omega
      subst he
      refine ⟨m.enter.leave, by rw [quickSort_v1, if_pos (le_refl _)], rfl, rfl, ?_⟩
      show max m.peak (m.active + 1) = _
      rw [show (high - high + 1).toNat = 1 by omega]
    · obtain ⟨p, hp⟩ := getI_defined (l := m.cells) (k := low) hlow (by omega)
      have hall : AllGe m.cells (low + 1) high p := by
        intro k x hk1 hk2 hx
        exact hs.first_le hlow hhigh p hp k x (by omega) hk2 hx
      obtain ⟨m1, hrun1, hc1⟩ :=
        hoarePartition_min_pivot (fuel + 1) m.enter low high p hlow hlh hhigh hf hp hall
      obtain ⟨-, a1, p1, -⟩ := hoarePartition_inv _ _ _ _ _ _ hrun1
      have hrun2 : quickSort_v1 fuel m1 low (low - 1) = .ok m1.enter.leave := by
        rw [quickSort_v1.eq_def, if_pos (by omega)]
      have hs2 : SortedOn m1.enter.leave.cells (low + 1) high := by
        show SortedOn m1.cells (low + 1) high
        rw [hc1]
        intro k x y hk1 hk2 hx hy
        exact hs k x y (by omega) hk2 hx hy
      obtain ⟨m3, hrun3, hc3, a3, p3⟩ :=
        ih m1.enter.leave (low + 1) high (by omega) (by omega)
          (by show high < ((m1.cells.length : Nat) : Int); rw [hc1]; exact hhigh)
          (by omega) hs2
      refine ⟨m3.leave, ?_, ?_, ?_, ?_⟩
      · rw [quickSort_v1, if_neg hge]
        simp only [hrun1, hrun2, hrun3]
      · show m3.cells = m.cells
        rw [hc3]
        exact hc1
      · show m3.active - 1 = m.active
        rw [a3]
        show m1.active + 1 - 1 - 1 = m.active
        rw [a1]
        show m.active + 1 + 1 - 1 - 1 = m.active
        omega
      · show m3.peak = _
        rw [p3]
        have e1 : m1.enter.leave.peak = max (max m.peak (m.active + 1)) (m.active + 1 + 1) := by
          show max m1.peak (m1.active + 1) = _
          rw [p1, a1]
          rfl
        have e2 : m1.enter.leave.active = m.active + 1 := by
          show m1.active + 1 - 1 = _
          rw [a1]
          show m.active + 1 + 1 - 1 = _
          omega
        rw [e1, e2]
        omega

end SortedInput

section SortedInputClaim

variable {α : Type} [LinearOrder α]

/-- C16: linear depth of the plain variant on sorted input.  On a strictly
ascending range `low .. high` of `n ≥ 1` elements every partition step of
`quickSort_v1(arr, low, high)`, which is a step on some `l .. high` with the
vector still equal to `arr`, returns the split index `l` and leaves `arr`
unchanged; the sort returns `arr` unchanged and the largest number of
simultaneously active `quickSort_v1` calls is exactly `n`. -/
theorem quickSort_v1_linear_depth (arr : List α) (low high : Int) (fuel : Nat)
    (hlow : 0 ≤ low) (hlh : low ≤ high) (hhigh : high < arr.length)
    (hfuel : (high - low).toNat ≤ fuel)
    (hasc : ∀ (k : Int) (x y : α), low ≤ k → k < high →
      getI arr k = some x → getI arr (k + 1) = some y → x < y) :
    (∀ (l : Int) (m : Mem α) (f : Nat), m.cells = arr → low ≤ l → l ≤ high →
        (high - l).toNat ≤ f →
        ∃ m', hoarePartition f m l high = .ok (l, m') ∧ m'.cells = arr) ∧
      ∃ m', quickSort_v1 fuel (Mem.init arr) low high = .ok m' ∧ m'.cells = arr ∧
        m'.active = 0 ∧ m'.peak = (high - low + 1).toNat := by
  have hs : SortedOn arr low high := fun k x y hk1 hk2 hx hy =>
    le_of_lt (hasc k x y hk1 hk2 hx hy)
  constructor
  · intro l m f hm hl1 hl2 hf
    subst hm
    obtain ⟨p, hp⟩ := getI_defined (l := m.cells) (k := l) (by omega) (by omega)
    have hs' : SortedOn m.cells l high := fun k x y hk1 hk2 hx hy =>
      hs k x y (by omega) hk2 hx hy
    have hall : AllGe m.cells (l + 1) high p := fun k x hk1 hk2 hx =>
      hs'.first_le (by omega) hhigh p hp k x (by omega) hk2 hx
    exact hoarePartition_min_pivot f m l high p (by omega) hl2 hhigh hf hp hall
  · obtain ⟨m', hrun, hc, ha, hpk⟩ :=
      quickSort_v1_sorted_run fuel (Mem.init arr) low high hlow hlh hhigh hfuel hs
    refine ⟨m', hrun, hc, ha, ?_⟩
    rw [hpk]
    show max 0 (0 + (high - low + 1).toNat) = _
    omega

/-- C16 at the strictly ascending `[1, 2, 3, 4, 5]` with `low = 0`, `high = 4`:
the first partition step returns the split index 0, and 5 calls are active at
the deepest point. -/
theorem quickSort_v1_linear_depth_witness :
    (hoarePartition 4 (Mem.init [(1 : Int), 2, 3, 4, 5]) 0 4).toOption.map
        (fun r => (r.1, r.2.cells)) = some (0, [1, 2, 3, 4, 5]) ∧
      (quickSort_v1 4 (Mem.init [(1 : Int), 2, 3, 4, 5]) 0 4).toOption.map
        (fun m => (m.cells, m.peak)) = some ([1, 2, 3, 4, 5], 5) ∧
      (∀ (l : Int) (m : Mem Int) (f : Nat), m.cells = [(1 : Int), 2, 3, 4, 5] → 0 ≤ l →
          l ≤ 4 → ((4 : Int) - l).toNat ≤ f →
          ∃ m', hoarePartition f m l 4 = .ok (l, m') ∧ m'.cells = [(1 : Int), 2, 3, 4, 5]) ∧
      ∃ m', quickSort_v1 4 (Mem.init [(1 : Int), 2, 3, 4, 5]) 0 4 = .ok m' ∧
        m'.cells = [(1 : Int), 2, 3, 4, 5] ∧
        m'.active = 0 ∧ m'.peak = ((4 : Int) - 0 + 1).toNat :=
  have hasc : ∀ (k : Int) (x y : Int), 0 ≤ k → k < 4 →
      getI [(1 : Int), 2, 3, 4, 5] k = some x → getI [(1 : Int), 2, 3, 4, 5] (k + 1) = some y →
      x < y := by
    intro k x y h0 h4 hx hy
    have hk : k = 0 ∨ k = 1 ∨ k = 2 ∨ k = 3 := by omega
    rcases hk with rfl | rfl | rfl | rfl <;>
      · simp [getI] at hx hy
        omega
  ⟨by decide!, by decide!,
   quickSort_v1_linear_depth [(1 : Int), 2, 3, 4, 5] 0 4 4
     (by decide) (by decide) (by decide) (by decide) hasc⟩

end SortedInputClaim

/-! ## The iterator variant -/

section IteratorVariant

variable {α : Type} [LinearOrder α]

end IteratorVariant

section IteratorClaim

variable {α : Type} [LinearOrder α]

end IteratorClaim

/-! ## The split index after the pivot selection -/

section SplitIndex

variable {α : Type} [LinearOrder α]

omit [LinearOrder α] in
/-- Two positions of a range without repetition hold different elements. -/
theorem ne_of_nodup_slice {l : List α} {lo hi k₁ k₂ : Int} {u v : α}
    (hnd : (slice l lo hi).Nodup) (hlo : 0 ≤ lo) (h1 : lo ≤ k₁) (h12 : k₁ < k₂)
    (h2 : k₂ ≤ hi) (hu : getI l k₁ = some u) (hv : getI l k₂ = some v) : u ≠ v := by
  have e1 : (slice l lo hi)[(k₁ - lo).toNat]? = some u := by
    rw [getElem?_slice l lo hi hlo, if_pos (by omega),
      show lo + ((k₁ - lo).toNat : Int) = k₁ by omega]
    exact hu
  have e2 : (slice l lo hi)[(k₂ - lo).toNat]? = some v := by
    rw [getElem?_slice l lo hi hlo, if_pos (by omega),
      show lo + ((k₂ - lo).toNat : Int) = k₂ by omega]
    exact hv
  obtain ⟨b2, -⟩ := List.getElem?_eq_some.mp e2
  have := List.nodup_iff_getElem?_ne_getElem?.mp hnd (k₁ - lo).toNat (k₂ - lo).toNat
    (by omega) b2
  rw [e1, e2] at this
  intro huv
  exact this (by rw [huv])

/-- The pivot selection of one iteration of the loop of `quickSort_v2`: after
the random swap and `medianOfThree` the elements at `low`, `mid`, `high` are in
ascending order; the swap of the median into `low` then exchanges the first
two, and the partition step runs on the result. -/
theorem selectAndPartition_steps (rnd : Nat → Nat) (fuel : Nat) (m : Mem α)
    (low high mid : Int) (hlow : 0 ≤ low) (hlh : low ≤ high)
    (hhigh : high < m.cells.length) (hmid : low + Int.tdiv (high - low) 2 = mid) :
    ∃ (m2 m3 : Mem α) (x y z : α),
      selectAndPartition rnd fuel m low high = hoarePartition fuel m3 low high ∧
      RangePerm m.cells m2.cells low high ∧
      getI m2.cells low = some x ∧ getI m2.cells mid = some y ∧
      getI m2.cells high = some z ∧ x ≤ y ∧ y ≤ z ∧
      RangePerm m2.cells m3.cells low high ∧
      (∀ k : Int, getI m3.cells k =
        if k = mid then some x else if k = low then some y else getI m2.cells k) := by
  obtain ⟨hr1, hr2⟩ := rand_idx_bounds low high (rnd m.draws) hlh
  obtain ⟨x0, hx0⟩ := getI_defined (l := m.cells) (k := low) hlow (by omega)
  obtain ⟨y0, hy0⟩ := getI_defined (l := m.cells)
    (k := low + Int.tmod (rnd m.draws : Int) (high - low + 1)) (by omega) (by omega)
  obtain ⟨m1, hrun1, hperm1, -, -⟩ :=
    swap_spec { m with draws := m.draws + 1 } low
      (low + Int.tmod (rnd m.draws : Int) (high - low + 1)) low high
      hx0 hy0 (le_refl _) hlh hr1 hr2
  have hlen1 : m1.cells.length = m.cells.length := hperm1.length_eq
  obtain ⟨m2, hrun2, hperm2, -⟩ := medianOfThree_spec m1 low high hlow hlh (by omega)
  obtain ⟨m2', x, y, z, -, -, -, hrun2', hx, hy, hz, hxy, hyz, -⟩ :=
    medianOfThree_exact m1 low high mid hlow hlh (by omega) hmid
  have e : m2' = m2 := by
    rw [hmid, hrun2'] at hrun2
    cases hrun2
    rfl
  subst e
  obtain ⟨hm1, hm2⟩ := mid_bounds low high hlh
  rw [hmid] at hm1 hm2
  obtain ⟨m3, hrun3, hperm3, -, hget3⟩ :=
    swap_spec m2' low mid low high hx hy (le_refl _) hlh hm1 hm2
  refine ⟨m2', m3, x, y, z, ?_, hperm1.rtrans hperm2, hx, hy, hz, hxy, hyz, hperm3, hget3⟩
  simp only [selectAndPartition, hrun1, hmid, hrun2', hrun3]

end SplitIndex

section SplitIndexClaim

variable {α : Type} [LinearOrder α]

/-- C20: median-of-three excludes degenerate splits on distinct keys.  For
`0 ≤ low`, `high - low ≥ 2`, `high < arr.size()` and every `rand()` value, one
iteration of the loop of `quickSort_v2` computes a split index `i`; when the
elements at `low .. high` are pairwise distinct, `low < i < high`; when they are
all equal, `i = low`, so the distinctness is needed. -/
theorem selectAndPartition_split_inside (rnd : Nat → Nat) (fuel : Nat) (m : Mem α)
    (low high : Int) (hlow : 0 ≤ low) (hwide : 2 ≤ high - low)
    (hhigh : high < m.cells.length) (hfuel : (high - low).toNat ≤ fuel) :
    ∃ i m4, selectAndPartition rnd fuel m low high = .ok (i, m4) ∧
      ((slice m.cells low high).Nodup → low < i ∧ i < high) ∧
      (∀ c, (∀ v ∈ slice m.cells low high, v = c) → i = low) := by
  have hlh : low ≤ high := by omega
  obtain ⟨m2, m3, x, y, z, hsel, hperm2, hx, hy, hz, hxy, hyz, hperm3, hget3⟩ :=
    selectAndPartition_steps rnd fuel m low high _ hlow hlh hhigh rfl
  have hmid1 : low < low + Int.tdiv (high - low) 2 := by
    rw [Int.tdiv_eq_ediv (by omega) (by decide)]
    omega
  have hmid2 : low + Int.tdiv (high - low) 2 < high := by
    rw [Int.tdiv_eq_ediv (by omega) (by decide)]
    omega
  have hlen3 : m3.cells.length = m.cells.length :=
    hperm3.length_eq.trans hperm2.length_eq
  obtain ⟨i, m4, pivot, hrun, hpiv0, hli, hih, hperm4, -, hpiv, hle, hge⟩ :=
    hoarePartition_spec fuel m3 low high hlow hlh (by omega) hfuel
  have hpy : pivot = y := by
    rw [hget3, if_neg (by omega), if_pos rfl] at hpiv0
    exact (Option.some.inj hpiv0).symm
  subst hpy
  have h3mid : getI m3.cells (low + Int.tdiv (high - low) 2) = some x := by
    rw [hget3, if_pos rfl]
  have h3high : getI m3.cells high = some z := by
    rw [hget3, if_neg (by omega), if_neg (by omega)]
    exact hz
  refine ⟨i, m4, by rw [hsel]; exact hrun, ?_, ?_⟩
  · intro hnd
    have hnd2 : (slice m2.cells low high).Nodup :=
      (hperm2.slice_perm hlow).nodup_iff.mpr hnd
    have hxlt : x < pivot :=
      lt_of_le_of_ne hxy (ne_of_nodup_slice hnd2 hlow (le_refl _) hmid1 (by omega) hx hy)
    have hzgt : pivot < z :=
      lt_of_le_of_ne hyz (ne_of_nodup_slice hnd2 hlow (by omega) hmid2 (le_refl _) hy hz)
    -- the smaller element ends to the left of the split index
    obtain ⟨k₁, hk1, hk2, hk3⟩ := getI_of_mem_slice hlow
      ((hperm4.slice_perm hlow).symm.subset
        (mem_slice_of_getI hlow (by omega) (by omega) h3mid))
    have hk₁ : k₁ < i := by
      by_contra hcon
      rcases eq_or_lt_of_le (not_lt.mp hcon) with h | h
      · rw [← h, hpiv] at hk3
        exact absurd (Option.some.inj hk3) (ne_of_gt hxlt)
      · exact absurd (hge k₁ x (by omega) hk2 hk3) (not_le_of_lt hxlt)
    -- the larger element ends to the right of the split index
    obtain ⟨k₂, hk4, hk5, hk6⟩ := getI_of_mem_slice hlow
      ((hperm4.slice_perm hlow).symm.subset
        (mem_slice_of_getI hlow hlh (le_refl _) h3high))
    have hk₂ : i < k₂ := by
      by_contra hcon
      rcases eq_or_lt_of_le (not_lt.mp hcon) with h | h
      · rw [h, hpiv] at hk6
        exact absurd (Option.some.inj hk6) (ne_of_lt hzgt)
      · exact absurd (hle k₂ z hk4 (by omega) hk6) (not_le_of_lt hzgt)
    exact ⟨by omega, by omega⟩
  · intro c hc
    have hperm03 : RangePerm m.cells m3.cells low high := hperm2.rtrans hperm3
    have hcells : m3.cells = m.cells := hperm03.eq_of_const hlow c hc
    have hall : ∀ (k : Int) (v : α), low ≤ k → k ≤ high → getI m3.cells k = some v → v = c := by
      intro k v hk1 hk2 hv
      rw [hcells] at hv
      exact hc v (mem_slice_of_getI hlow hk1 hk2 hv)
    have hpc : pivot = c := hall low pivot (le_refl _) hlh hpiv0
    obtain ⟨m', hrun', -⟩ :=
      hoarePartition_min_pivot fuel m3 low high pivot hlow hlh (by omega) hfuel hpiv0
        (by
          intro k v hk1 hk2 hv
          rw [hall k v (by omega) hk2 hv, hpc])
    rw [hrun] at hrun'
    cases hrun'
    rfl

/-- C20 at `[4, 8, 6, 2, 9, 1, 7]` with `low = 0`, `high = 6`, whose elements
are distinct: the split index is 2; on the all-equal `[5, 5, 5, 5]` the split
index is 0. -/
theorem selectAndPartition_split_inside_witness :
    (selectAndPartition (fun n => n + 3) 6 (Mem.init [(4 : Int), 8, 6, 2, 9, 1, 7]) 0 6).toOption.map
        (fun r => r.1) = some 2 ∧
      (selectAndPartition (fun n => n + 3) 3 (Mem.init [(5 : Int), 5, 5, 5]) 0 3).toOption.map
        (fun r => r.1) = some 0 ∧
      (slice (Mem.init [(4 : Int), 8, 6, 2, 9, 1, 7]).cells 0 6).Nodup ∧
      ∃ i m4, selectAndPartition (fun n => n + 3) 6
          (Mem.init [(4 : Int), 8, 6, 2, 9, 1, 7]) 0 6 = .ok (i, m4) ∧
        ((slice (Mem.init [(4 : Int), 8, 6, 2, 9, 1, 7]).cells 0 6).Nodup → 0 < i ∧ i < 6) ∧
        (∀ c, (∀ v ∈ slice (Mem.init [(4 : Int), 8, 6, 2, 9, 1, 7]).cells 0 6, v = c) →
          i = 0) :=
  ⟨by decide!, by decide!, by decide!,
   selectAndPartition_split_inside (fun n => n + 3) 6 (Mem.init [(4 : Int), 8, 6, 2, 9, 1, 7])
     0 6 (by decide) (by decide) (by decide) (by decide)⟩

end SplitIndexClaim

/-! ## Termination needs a total order -/

section AnyComparisonLemmas

variable {α : Type} [LinearOrder α]

theorem scanDownBy_orderCmp (pivot : α) (i : Int) :
    ∀ (fuel : Nat) (j : Int) (m : Mem α),
      scanDownBy orderCmp pivot i fuel j m = scanDown pivot i fuel j m := by
  intro fuel
  induction fuel with
  | zero =>
    intro j m
    rw [scanDownBy, scanDown]
    simp [orderCmp]
  | succ fuel ih =>
    intro j m
    rw [scanDownBy, scanDown]
    simp only [ih]
    simp [orderCmp]

theorem scanUpBy_orderCmp (pivot : α) (j : Int) :
    ∀ (fuel : Nat) (i : Int) (m : Mem α),
      scanUpBy orderCmp pivot j fuel i m = scanUp pivot j fuel i m := by
  intro fuel
  induction fuel with
  | zero =>
    intro i m
    rw [scanUpBy, scanUp]
    simp [orderCmp]
  | succ fuel ih =>
    intro i m
    rw [scanUpBy, scanUp]
    simp only [ih]
    simp [orderCmp]

theorem partLoopBy_orderCmp (pivot : α) :
    ∀ (fuel : Nat) (i j : Int) (m : Mem α),
      partLoopBy orderCmp pivot fuel i j m = partLoop pivot fuel i j m := by
  intro fuel
  induction fuel with
  | zero =>
    intro i j m
    rw [partLoopBy, partLoop]
  | succ fuel ih =>
    intro i j m
    rw [partLoopBy, partLoop]
    simp only [scanDownBy_orderCmp, scanUpBy_orderCmp, ih]

theorem hoarePartitionBy_orderCmp (fuel : Nat) (m : Mem α) (low high : Int) :
    hoarePartitionBy orderCmp fuel m low high = hoarePartition fuel m low high := by
  rw [hoarePartitionBy, hoarePartition]
  simp only [partLoopBy_orderCmp]

/-- Over a linear order the sort with the operators as a parameter is
`quickSort_v1`. -/
theorem quickSort_v1By_orderCmp : ∀ (fuel : Nat) (m : Mem α) (low high : Int),
    quickSort_v1By orderCmp fuel m low high = quickSort_v1 fuel m low high := by
  intro fuel
  induction fuel with
  | zero =>
    intro m low high
    rw [quickSort_v1By, quickSort_v1]
  | succ fuel ih =>
    intro m low high
    rw [quickSort_v1By, quickSort_v1]
    simp only [hoarePartitionBy_orderCmp, ih]

end AnyComparisonLemmas

section NaNPivot

/-- With the pivot NaN both scans stop at once, so on a two-element `float`
vector the partition loop on `0 .. 1` swaps the two elements in every
iteration and uses up any fuel. -/
theorem partLoopBy_nan_pivot : ∀ (fuel : Nat) (m : Mem Flt), m.cells.length = 2 →
    partLoopBy fltCmp Flt.nan fuel 0 1 m = .error .outOfFuel := by
  intro fuel
  induction fuel with
  | zero =>
    intro m _
    rw [partLoopBy, if_pos (by decide)]
  | succ fuel ih =>
    intro m hm
    obtain ⟨x, hx⟩ := getI_defined (l := m.cells) (k := 1) (by decide) (by rw [hm]; decide)
    obtain ⟨y, hy⟩ := getI_defined (l := m.cells) (k := 0) (by decide) (by rw [hm]; decide)
    have hge : fltCmp.ge x Flt.nan = false := by cases x <;> rfl
    have hle : fltCmp.le y Flt.nan = false := by cases y <;> rfl
    have h1 : scanDownBy fltCmp Flt.nan 0 (fuel + 1) 1 m = .ok (1, m.logged [1]) := by
      rw [scanDownBy, if_pos (by decide), read_ok hx]
      simp [hge]
    have h2 : scanUpBy fltCmp Flt.nan 1 (fuel + 1) 0 (m.logged [1]) =
        .ok (0, (m.logged [1]).logged [0]) := by
      rw [scanUpBy, if_pos (by decide), read_ok (m := m.logged [1]) hy]
      simp [hle]
    rw [partLoopBy, if_pos (by decide)]
    simp only [h1, h2]
    rw [if_pos (by decide), swap_ok (m := (m.logged [1]).logged [0]) hy hx]
    simp only []
    apply ih
    simp [Mem.logged, hm]

/-- C9 as stated, for every vector, is false: on the `float` vector
`{NaN, 1.0f}` with `low = 0`, `high = 1` (both in bounds), `quickSort_v1`
returns for no amount of fuel, and every amount of fuel is used up: the
partition loop exchanges `arr[0]` and `arr[1]` for ever. -/
theorem quickSort_v1_nan_runs_on :
    (¬ ∃ (fuel : Nat) (m' : Mem Flt),
      quickSort_v1By fltCmp fuel (Mem.init [Flt.nan, Flt.num 1]) 0 1 = .ok m') ∧
    (¬ ∃ fuel : Nat,
      quickSort_v1By fltCmp fuel (Mem.init [Flt.nan, Flt.num 1]) 0 1 ≠ .error .outOfFuel) := by
  have key : ∀ fuel : Nat,
      quickSort_v1By fltCmp fuel (Mem.init [Flt.nan, Flt.num 1]) 0 1 = .error .outOfFuel := by
    intro fuel
    cases fuel with
    | zero => rw [quickSort_v1By, if_neg (by decide)]
    | succ f =>
      have hr : (Mem.init [Flt.nan, Flt.num 1]).enter.read 0 =
          .ok (Flt.nan, (Mem.init [Flt.nan, Flt.num 1]).enter.logged [0]) := rfl
      rw [quickSort_v1By, if_neg (by decide), hoarePartitionBy, hr]
      simp only []
      rw [partLoopBy_nan_pivot (f + 1)
        ((Mem.init [Flt.nan, Flt.num 1]).enter.logged [0]) rfl]
  refine ⟨?_, ?_⟩
  · rintro ⟨fuel, m', h⟩
    rw [key fuel] at h
    cases h
  · rintro ⟨fuel, h⟩
    exact h (key fuel)

end NaNPivot

end FixSuggestion
